import Mathlib

/-!
Verification development for the Spine-Database-API staging layer.

The development shallowly embeds the two mechanisms the specification
describes:

* `spinedb_api/temp_id.py`: the `TempId` placeholder identifiers, their four
  bind registries (value, tuple-value, key, tuple-key), the `TempIdDict`
  container that registers binds on insertion and unregisters key binds on
  deletion, and `TempId.resolve` which rewrites bound locations once a real
  identifier is known.

* `spinedb_api/diff_database_mapping_base.py`: the per-table dirty sets, the
  composed read view `_subquery` (original rows minus dirty ids, union-all
  the diff table), and the cache invalidation `_mark_as_dirty` and
  `_clear_subqueries` over cached subquery attributes.

Python objects are modelled as follows: a `TempId` is identified by an
allocation serial (object identity) and carries the negative integer value
produced by the class-level counter `_next_id`; `TempIdDict` objects live in
a heap indexed by `DictId` and are insertion-ordered association lists; the
bind registries of every `TempId` live in the same heap.  Python `==` on
dictionary keys (under which a `TempId` compares equal to its integer value)
is `pyEqV`; Python `is` (used by the tuple rewrites of `resolve`) is serial
equality.  Fallible operations (`KeyError` from a missing key, `ValueError`
from `list.remove`, `TypeError` from iterating a non-tuple) return `Except`.
-/

namespace SpineDB

abbrev DictId := Nat
abbrev Serial := Nat

/-- Lookup in an association list keyed by `==`. -/
def assocGet? [BEq κ] (l : List (κ × α)) (k : κ) : Option α :=
  (l.find? fun e => e.1 == k).map (·.2)

/-- Update or append in an association list keyed by `==` (in-place update
of a mutable attribute or mapping slot). -/
def assocSet [BEq κ] (l : List (κ × α)) (k : κ) (v : α) : List (κ × α) :=
  if l.any fun e => e.1 == k then l.map fun e => if e.1 == k then (k, v) else e
  else l ++ [(k, v)]

/-- Scalar Python values occurring in the staging layer: plain integers
(real identifiers), strings, and `TempId` objects.  A `TempId` carries its
object identity `serial` and the negative integer `value` it was created
with (it is an `int` subclass, so `value` is what Python `==` sees). -/
inductive PScalar where
  | sint (n : Int)
  | sstr (s : String)
  | stemp (serial : Serial) (value : Int)
deriving DecidableEq, Repr

/-- Values stored in a `TempIdDict`: scalars, or flat tuples of scalars
(element lists and composite keys in the source are flat tuples). -/
inductive PVal where
  | scalar (s : PScalar)
  | tup (elems : List PScalar)
deriving DecidableEq, Repr

/-- Python `==` on scalars: a `TempId` is an `int` subclass, so it compares
equal to any int-like scalar with the same integer value. -/
def pyEqS : PScalar → PScalar → Bool
  | .sint a, .sint b => a == b
  | .sint a, .stemp _ b => a == b
  | .stemp _ a, .sint b => a == b
  | .stemp _ a, .stemp _ b => a == b
  | .sstr a, .sstr b => a == b
  | _, _ => false

/-- Python `==` on values; tuples compare element-wise. -/
def pyEqV : PVal → PVal → Bool
  | .scalar a, .scalar b => pyEqS a b
  | .tup a, .tup b => a.length == b.length && (a.zip b).all fun p => pyEqS p.1 p.2
  | _, _ => false

/-- Python `is` against a given `TempId` object (used by the tuple rewrites
in `TempId.resolve`): only the very same object, i.e. the same serial. -/
def isSame (p : Serial) : PScalar → Bool
  | .stemp q _ => q == p
  | _ => false

/-- A Python dict as an insertion-ordered association list. -/
abbrev PDict := List (PVal × PVal)

/-- Python `key in d`. -/
def dContains (d : PDict) (k : PVal) : Bool := d.any fun e => pyEqV e.1 k

/-- Python `d[k]` as an option (`None` when the key is missing). -/
def dGet? (d : PDict) (k : PVal) : Option PVal :=
  (d.find? fun e => pyEqV e.1 k).map (·.2)

/-- Python `d[k] = v` on the raw dict: overwrite in place keeping the
original key object, else append a new entry. -/
def dSet (d : PDict) (k v : PVal) : PDict :=
  if dContains d k then d.map fun e => if pyEqV e.1 k then (e.1, v) else e
  else d ++ [(k, v)]

/-- Raw removal of the entry for `k` (Python `del` / `dict.pop` effect on
the underlying storage). -/
def dErase (d : PDict) (k : PVal) : PDict := d.eraseP fun e => pyEqV e.1 k

/-- The four bind registries carried by one `TempId`
(`_value_binds`, `_tuple_value_binds`, `_key_binds`, `_tuple_key_binds`). -/
structure TempIdBinds where
  value_binds : List (DictId × PVal)
  tuple_value_binds : List (DictId × PVal)
  key_binds : List DictId
  tuple_key_binds : List (DictId × PVal)
deriving DecidableEq, Repr

def TempIdBinds.none : TempIdBinds := ⟨[], [], [], []⟩

/-- The mutable world: every `TempIdDict` object and the bind registries of
every `TempId` object. -/
structure Heap where
  dicts : List (DictId × PDict)
  temps : List (Serial × TempIdBinds)
deriving DecidableEq, Repr

def Heap.getDict (h : Heap) (d : DictId) : PDict :=
  (assocGet? h.dicts d).getD []

def Heap.setDict (h : Heap) (d : DictId) (pd : PDict) : Heap :=
  { h with dicts := assocSet h.dicts d pd }

def Heap.getTemp (h : Heap) (s : Serial) : TempIdBinds :=
  (assocGet? h.temps s).getD TempIdBinds.none

def Heap.setTemp (h : Heap) (s : Serial) (b : TempIdBinds) : Heap :=
  { h with temps := assocSet h.temps s b }

def Heap.modifyTemp (h : Heap) (s : Serial) (f : TempIdBinds → TempIdBinds) : Heap :=
  h.setTemp s (f (h.getTemp s))

/-- `TempId.add_value_bind(item, key)`. -/
def addValueBind (h : Heap) (s : Serial) (d : DictId) (k : PVal) : Heap :=
  h.modifyTemp s fun b => { b with value_binds := b.value_binds ++ [(d, k)] }

/-- `TempId.add_tuple_value_bind(item, key)`. -/
def addTupleValueBind (h : Heap) (s : Serial) (d : DictId) (k : PVal) : Heap :=
  h.modifyTemp s fun b => { b with tuple_value_binds := b.tuple_value_binds ++ [(d, k)] }

/-- `TempId.add_key_bind(item)`. -/
def addKeyBind (h : Heap) (s : Serial) (d : DictId) : Heap :=
  h.modifyTemp s fun b => { b with key_binds := b.key_binds ++ [d] }

/-- `TempId.add_tuple_key_bind(item, key)`. -/
def addTupleKeyBind (h : Heap) (s : Serial) (d : DictId) (k : PVal) : Heap :=
  h.modifyTemp s fun b => { b with tuple_key_binds := b.tuple_key_binds ++ [(d, k)] }

/-- `TempIdDict._bind(key, value)`: exclusive case split — a `TempId` value
registers only a value bind; a tuple value registers tuple-value binds for
its `TempId` elements; only otherwise is the key examined, a `TempId` key
registering a key bind and a tuple key registering tuple-key binds for its
`TempId` elements. -/
def bindEntry (h : Heap) (d : DictId) (key value : PVal) : Heap :=
  match value with
  | .scalar (.stemp s _) => addValueBind h s d key
  | .tup vs =>
      vs.foldl (fun h v =>
        match v with
        | .stemp s _ => addTupleValueBind h s d key
        | _ => h) h
  | _ =>
      match key with
      | .scalar (.stemp s _) => addKeyBind h s d
      | .tup ks =>
          ks.foldl (fun h k =>
            match k with
            | .stemp s _ => addTupleKeyBind h s d key
            | _ => h) h
      | _ => h

/-- `TempIdDict.__setitem__`: store, then `_bind`. -/
def setItem (h : Heap) (d : DictId) (k v : PVal) : Heap :=
  bindEntry (h.setDict d (dSet (h.getDict d) k v)) d k v

/-- Removal of the first list element satisfying `p`; `Except.error` models
the `ValueError` that `list.remove` raises on a missing element. -/
def listRemove (l : List α) (p : α → Bool) : Except String (List α) :=
  if l.any p then .ok (l.eraseP p) else .error "ValueError"

/-- `TempId.remove_key_bind(item)`. -/
def removeKeyBind (h : Heap) (s : Serial) (d : DictId) : Except String Heap := do
  let b := h.getTemp s
  let l ← listRemove b.key_binds fun x => x == d
  .ok (h.setTemp s { b with key_binds := l })

/-- `TempId.remove_tuple_key_bind(item, key)`. -/
def removeTupleKeyBind (h : Heap) (s : Serial) (d : DictId) (k : PVal) :
    Except String Heap := do
  let b := h.getTemp s
  let l ← listRemove b.tuple_key_binds fun e => e.1 == d && pyEqV e.2 k
  .ok (h.setTemp s { b with tuple_key_binds := l })

/-- `TempIdDict._unbind(key)`: a `TempId` key drops its key bind, a tuple
key drops the tuple-key binds of its `TempId` elements; any other key is a
no-op. -/
def unbindKey (h : Heap) (d : DictId) (key : PVal) : Except String Heap :=
  match key with
  | .scalar (.stemp s _) => removeKeyBind h s d
  | .tup ks =>
      ks.foldlM (fun h k =>
        match k with
        | .stemp s _ => removeTupleKeyBind h s d key
        | _ => pure h) h
  | _ => .ok h

/-- `TempIdDict.__delitem__`: the raw deletion (a `KeyError` when the key is
missing), then `_unbind`. -/
def delItem (h : Heap) (d : DictId) (k : PVal) : Except String Heap :=
  if dContains (h.getDict d) k then
    unbindKey (h.setDict d (dErase (h.getDict d) k)) d k
  else .error "KeyError"

/-- `TempIdDict.pop(key, default)`: `_unbind` first when the key is present,
then the raw pop; a missing key silently returns the default. -/
def popItem (h : Heap) (d : DictId) (k : PVal) : Except String Heap :=
  if dContains (h.getDict d) k then do
    let h1 ← unbindKey h d k
    .ok (h1.setDict d (dErase (h1.getDict d) k))
  else .ok h

/-- A `TempId` object: its identity, its integer value and its item type. -/
structure TempId where
  serial : Serial
  value : Int
  item_type : String
deriving DecidableEq, Repr

/-- The scalar for a `TempId` object. -/
def TempId.scalarOf (p : TempId) : PScalar := .stemp p.serial p.value

/-- The value for a `TempId` object. -/
def TempId.valOf (p : TempId) : PVal := .scalar p.scalarOf

/-- Substitution performed by the tuple rewrites of `resolve`:
`new_id if v is self else v`. -/
def substS (s : Serial) (r : Int) (x : PScalar) : PScalar :=
  if isSame s x then .sint r else x

/-- Tuple-key substitution `tuple(new_id if k is self else k for k in key)`. -/
def substK (s : Serial) (r : Int) : PVal → PVal
  | .tup ks => .tup (ks.map (substS s r))
  | v => v

/-- First loop of `TempId.resolve`: `item[key] = new_id` for every value
bind, through `TempIdDict.__setitem__`. -/
def resolveValueBinds (h : Heap) (binds : List (DictId × PVal)) (r : Int) : Heap :=
  binds.foldl (fun h b => setItem h b.1 b.2 (.scalar (.sint r))) h

/-- Second loop of `TempId.resolve`: for every tuple-value bind, read
`item[key]` (a `KeyError` when missing, a `TypeError` when it is not a
tuple) and write back the tuple with the elements that are `self` replaced
by `new_id`. -/
def resolveTupleValueBinds (h : Heap) (s : Serial) (binds : List (DictId × PVal))
    (r : Int) : Except String Heap :=
  binds.foldlM (fun h b =>
    match dGet? (h.getDict b.1) b.2 with
    | some (.tup vs) => .ok (setItem h b.1 b.2 (.tup (vs.map (substS s r))))
    | some (.scalar _) => .error "TypeError"
    | none => .error "KeyError") h

/-- Third loop of `TempId.resolve`: for every key bind whose dict still has
`self` as a key (Python `==`), pop the old entry raw and re-insert its value
under `new_id` through `TempIdDict.__setitem__`. -/
def resolveKeyBinds (h : Heap) (s : Serial) (sval : Int) (binds : List DictId)
    (r : Int) : Heap :=
  binds.foldl (fun h d =>
    let selfV : PVal := .scalar (.stemp s sval)
    match dGet? (h.getDict d) selfV with
    | none => h
    | some v =>
        setItem (h.setDict d (dErase (h.getDict d) selfV)) d (.scalar (.sint r)) v) h

/-- Fourth loop of `TempId.resolve`: for every tuple-key bind whose
composite key is still present, pop it raw and re-insert the value under the
key with `self` substituted by `new_id`. -/
def resolveTupleKeyBinds (h : Heap) (s : Serial) (binds : List (DictId × PVal))
    (r : Int) : Except String Heap :=
  binds.foldlM (fun h b =>
    match b.2 with
    | .tup ks =>
        match dGet? (h.getDict b.1) b.2 with
        | none => .ok h
        | some v =>
            .ok (setItem (h.setDict b.1 (dErase (h.getDict b.1) b.2)) b.1
              (.tup (ks.map (substS s r))) v)
    | _ => .error "TypeError") h

/-- `TempId.resolve(new_id)`: the four loops in source order.  Each loop
iterates the live bind list of `self`, so every list is re-read from the
heap when its loop starts. -/
def TempId.resolve (h : Heap) (p : TempId) (r : Int) : Except String Heap := do
  let h1 := resolveValueBinds h (h.getTemp p.serial).value_binds r
  let h2 ← resolveTupleValueBinds h1 p.serial (h1.getTemp p.serial).tuple_value_binds r
  let h3 := resolveKeyBinds h2 p.serial p.value (h2.getTemp p.serial).key_binds r
  resolveTupleKeyBinds h3 p.serial (h3.getTemp p.serial).tuple_key_binds r

/-!
Allocation of placeholder identifiers: `TempId.__new__` draws from the
class-level dict `TempId._next_id`, shared by every `TempId` of the process
(hence by every staging session): `setdefault(item_type, -1)` then decrement.
-/

/-- The class attribute `TempId._next_id`: one counter per item type. -/
structure TempIdCounters where
  next_id : List (String × Int)
deriving DecidableEq, Repr

/-- The counter `setdefault(item_type, -1)` would return. -/
def TempIdCounters.cur (g : TempIdCounters) (t : String) : Int :=
  (assocGet? g.next_id t).getD (-1)

/-- `TempId.__new__(cls, item_type)`: return the current counter for the
item type (defaulting it to `-1`) and decrement it. -/
def newTempIdValue (g : TempIdCounters) (t : String) : Int × TempIdCounters :=
  let cur := g.cur t
  let m := if g.next_id.any fun e => e.1 == t then g.next_id
           else g.next_id ++ [(t, -1)]
  (cur, ⟨m.map fun e => if e.1 == t then (e.1, e.2 - 1) else e⟩)

/-- The state of the counters when the process starts. -/
def initialCounters : TempIdCounters := ⟨[]⟩

/-- Run a sequence of allocations tagged by an arbitrary label (for a
session, say); every allocation goes through the one shared counter state.
Returns each allocation as (label, item type, produced value). -/
def allocTagged (g : TempIdCounters) :
    List (α × String) → List (α × String × Int)
  | [] => []
  | (a, t) :: rest =>
      let (v, g1) := newTempIdValue g t
      (a, t, v) :: allocTagged g1 rest

/-- Allocation values produced for item type `t` by the tagged run. -/
def valuesFor (sched : List (α × String)) (t : String) : List Int :=
  ((allocTagged initialCounters sched).filter fun e => e.2.1 == t).map (·.2.2)

/-- Allocation values for item type `t` observed by the session labelled
`a` in a two-session interleaving. -/
def sessionValues [BEq α] (sched : List (α × String)) (a : α) (t : String) : List Int :=
  ((allocTagged initialCounters sched).filter fun e => e.1 == a && e.2.1 == t).map (·.2.2)

/-!
View composition and cache invalidation
(`diff_database_mapping_base.py` and `database_mapping_base.py`).

Queries are embedded as a small expression tree mirroring how the source
builds them with sqlalchemy: `table` is a `Table` node, `selectStar t` is
`self.query(*[c.label(c.name) for c in columns])` over one mapped table,
`filtered` is `.filter(~id.in_(ids))`, `unionAll` is `.union_all(...)`, and
`aliased` is `.subquery()` (an `Alias`, the kind of attribute value that
`_clear_subqueries` scans for).  `selectCols` stands for a `query(...)`
joining two source subqueries and `grouped` for a `group_by` aggregation
over one, as the derived convenience views (`ext_*_sq`, `wide_*_sq`) use;
their row semantics is not fixed by the sources here and only their table
footprint matters for invalidation. -/

/-- A row of an entity table; `id` is the designated identifier column
(`table_ids.get(tablename, "id")` in the source, defaulting to "id"). -/
structure Row where
  id : Int
  data : String
deriving DecidableEq, Repr

/-- The backing store and the temporary diff tables: rows per table name. -/
abbrev Database := List (String × List Row)

def rowsOf (db : Database) (t : String) : List Row :=
  (assocGet? db t).getD []

/-- Filter conditions used by the composed read view. -/
inductive Cond where
  | notInIds (ids : List Int)
deriving DecidableEq, Repr

/-- Query expressions as the source composes them. -/
inductive QExpr where
  | table (name : String)
  | selectStar (name : String)
  | filtered (c : Cond) (q : QExpr)
  | unionAll (a b : QExpr)
  | aliased (q : QExpr)
  | selectCols (a b : QExpr)
  | grouped (q : QExpr)
deriving DecidableEq, Repr

/-- Row semantics of a query against a database.  `selectCols` concatenates
its sources' rows and `grouped` passes rows through; only the single-source
fragment used by `_subquery` is fixed by the sources here. -/
def evalQ (db : Database) : QExpr → List Row
  | .table t => rowsOf db t
  | .selectStar t => rowsOf db t
  | .filtered (.notInIds ids) q => (evalQ db q).filter fun r => !(ids.contains r.id)
  | .unionAll a b => evalQ db a ++ evalQ db b
  | .aliased q => evalQ db q
  | .selectCols a b => evalQ db a ++ evalQ db b
  | .grouped q => evalQ db q

/-- Modelled from the spec: `forward_sweep` (in the helpers module, which is
not among the sources here) visits every node of a query expression; in
`_clear_subqueries` it is composed with an `isinstance(x, Table)` check so
that, as the source comments, the result holds all tables related to the
expression.  `tablesOf` is that traversal: the names of all table nodes. -/
def tablesOf : QExpr → List String
  | .table t => [t]
  | .selectStar t => [t]
  | .filtered _ q => tablesOf q
  | .unionAll a b => tablesOf a ++ tablesOf b
  | .aliased q => tablesOf q
  | .selectCols a b => tablesOf a ++ tablesOf b
  | .grouped q => tablesOf q

/-- `DiffDatabaseMappingBase._subquery(tablename)`: select the original
table's rows labelled as themselves, filter out the dirty identifiers,
union-all the session's diff table, and wrap as a subquery.  `diffPart`
is the session's private diff-table name prefix. -/
def diffSubquery (diffPart : String) (dirty : List Int) (t : String) : QExpr :=
  .aliased (.unionAll (.filtered (.notInIds dirty) (.selectStar t))
    (.selectStar (diffPart ++ t)))

/-- The mutable view-cache state of one diff mapping session: the per-table
dirty id sets and the cached subquery attributes (an attribute holds `none`
after `_clear_subqueries` evicted it). -/
structure DiffMapState where
  dirty_item_id : List (String × List Int)
  cache : List (String × Option QExpr)
deriving DecidableEq, Repr

def DiffMapState.dirtyOf (st : DiffMapState) (t : String) : List Int :=
  (assocGet? st.dirty_item_id t).getD []

def DiffMapState.cached? (st : DiffMapState) (attr : String) : Option (Option QExpr) :=
  assocGet? st.cache attr

/-- `DiffDatabaseMappingBase._clear_subqueries(*tablenames)`: every cached
`Alias` attribute whose table footprint meets `tablenames` is set to `None`;
every other attribute is left alone. -/
def clearSubqueries (tablenames : List String) (st : DiffMapState) : DiffMapState :=
  { st with cache := st.cache.map fun e =>
      match e.2 with
      | Option.none => e
      | some q =>
          if (tablenames.any fun t => (tablesOf q).contains t) then (e.1, Option.none)
          else e }

/-- `DiffDatabaseMappingBase._mark_as_dirty(tablename, ids)`: extend the
dirty set of the table, then clear the subqueries involving it. -/
def markAsDirty (t : String) (ids : List Int) (st : DiffMapState) : DiffMapState :=
  clearSubqueries [t]
    { st with dirty_item_id :=
        if st.dirty_item_id.any fun e => e.1 == t then
          st.dirty_item_id.map fun e => if e.1 == t then (e.1, e.2 ++ ids) else e
        else st.dirty_item_id ++ [(t, ids)] }

/-- A subquery property getter (`object_class_sq` and friends): when the
cached attribute is `None` (or never set) recompute it from the current
state and cache it, otherwise return the cached value unchanged. -/
def readView (attr : String) (compute : DiffMapState → QExpr) (st : DiffMapState) :
    QExpr × DiffMapState :=
  match st.cached? attr with
  | some (some q) => (q, st)
  | _ =>
      let q := compute st
      (q, { st with cache := assocSet st.cache attr (some q) })

/-!
Well-formedness and separation predicates used by the theorems, plus
concrete example states.
-/

/-- A well-formed Python dict never holds two keys that compare equal. -/
def WFd (d : PDict) : Prop := d.Pairwise fun e1 e2 => pyEqV e1.1 e2.1 = false

/-- Every dict on the heap is well-formed. -/
def WFh (h : Heap) : Prop := ∀ e ∈ h.dicts, WFd e.2

/-- A scalar that is neither the placeholder `p` (by identity or by Python
equality) nor Python-equal to the real identifier `r`. -/
def scalarAvoids (p : TempId) (r : Int) (x : PScalar) : Bool :=
  !(isSame p.serial x) && !(pyEqS x (.stemp p.serial p.value)) && !(pyEqS x (.sint r))

/-- A bind key whose scalar components all avoid `p` and `r`. -/
def keyAvoids (p : TempId) (r : Int) : PVal → Bool
  | .scalar x => scalarAvoids p r x
  | .tup ks => ks.all (scalarAvoids p r)

/-- Separation conditions under which the bound locations of `p` do not
alias each other or the rewrite targets of `resolve(p, r)`: value and
tuple-value bind keys avoid `p` and `r`; every tuple-value bind points at an
actual tuple and does not alias a value bind; composite keys of tuple-key
binds are tuples that contain `p` and no component equal to `r`; distinct
binds of the same kind into the same dict are equal or non-aliasing. -/
def cleanBinds (h : Heap) (p : TempId) (r : Int) : Prop :=
  let b := h.getTemp p.serial
  (∀ e ∈ b.value_binds, keyAvoids p r e.2 = true) ∧
  (∀ e ∈ b.tuple_value_binds,
    keyAvoids p r e.2 = true ∧
    (∃ vs, dGet? (h.getDict e.1) e.2 = some (.tup vs)) ∧
    (∀ e2 ∈ b.value_binds, e2.1 = e.1 → pyEqV e2.2 e.2 = false) ∧
    (∀ e2 ∈ b.tuple_value_binds, e2.1 = e.1 → e2.2 = e.2 ∨ pyEqV e2.2 e.2 = false)) ∧
  (∀ e ∈ b.tuple_key_binds, ∃ ks, e.2 = .tup ks ∧
    (PScalar.stemp p.serial p.value) ∈ ks ∧
    (∀ x ∈ ks, pyEqS x (.sint r) = false) ∧
    (∀ x ∈ ks, isSame p.serial x = true → x = .stemp p.serial p.value) ∧
    (∀ e2 ∈ b.tuple_key_binds, e2.1 = e.1 → e2.2 = e.2 ∨ pyEqV e2.2 e.2 = false))

/-- The dicts referenced by any bind of the `TempId` with serial `s`. -/
def mentionedDicts (h : Heap) (s : Serial) : List DictId :=
  let b := h.getTemp s
  b.value_binds.map (·.1) ++ b.tuple_value_binds.map (·.1) ++
    b.key_binds ++ b.tuple_key_binds.map (·.1)

/-- Whether an `Except` computation succeeded. -/
def exOk : Except ε α → Bool
  | .ok _ => true
  | .error _ => false

/-- The payload of a successful `Except` computation, or the default. -/
def exGetD (e : Except ε α) (d : α) : α :=
  match e with
  | .ok a => a
  | .error _ => d

/-- A placeholder created first for the object type: serial 0, value -1. -/
def pX : TempId := ⟨0, -1, "object"⟩

/-- A placeholder created first for the widget type: serial 1, value -1
(its `int` value collides with the value of `pX`, its identity does not). -/
def qX : TempId := ⟨1, -1, "widget"⟩

def strK (s : String) : PVal := .scalar (.sstr s)

def intV (n : Int) : PVal := .scalar (.sint n)

/-- One empty `TempIdDict` and no binds. -/
def exEmpty : Heap := ⟨[(0, [])], []⟩

/-- A dict exercising all four bind kinds for `pX`:
`d["a"] = p; d["b"] = (p, 7); d[p] = 100; d[(p, 2)] = 200`. -/
def exFour : Heap :=
  let h1 := setItem exEmpty 0 (strK "a") pX.valOf
  let h2 := setItem h1 0 (strK "b") (.tup [.stemp 0 (-1), .sint 7])
  let h3 := setItem h2 0 pX.valOf (intV 100)
  setItem h3 0 (.tup [.stemp 0 (-1), .sint 2]) (intV 200)

/-- The self-referential entry `d[p] = p`. -/
def exSelf : Heap := setItem exEmpty 0 pX.valOf pX.valOf

/-- A single value bind: `d["a"] = p`. -/
def exValueBound : Heap := setItem exEmpty 0 (strK "a") pX.valOf

/-- A single key bind: `d[p] = 100`. -/
def exKeyBound : Heap := setItem exEmpty 0 pX.valOf (intV 100)

/-- A two-entry cache: the composed object-class view and a plain
parameter-tag view, as a diff mapping session would hold them. -/
def exMapState : DiffMapState :=
  { dirty_item_id := [("object_class", [7])],
    cache := [("_object_class_sq", some (diffSubquery "diff_" [7] "object_class")),
              ("_parameter_tag_sq", some (diffSubquery "diff_" [] "parameter_tag"))] }

/-- One list extends another at the tail (entries are never removed). -/
def ListGrew (old new : List α) : Prop := ∃ l, new = old ++ l

/-- Between two heaps, every bind list of every `TempId` has only been
appended to. -/
def bindsGrow (h h' : Heap) : Prop := ∀ q : Serial,
  ListGrew (h.getTemp q).value_binds (h'.getTemp q).value_binds ∧
  ListGrew (h.getTemp q).tuple_value_binds (h'.getTemp q).tuple_value_binds ∧
  ListGrew (h.getTemp q).key_binds (h'.getTemp q).key_binds ∧
  ListGrew (h.getTemp q).tuple_key_binds (h'.getTemp q).tuple_key_binds

/-- The counter-table invariant: every stored per-type counter is at most
`-1` (the table starts empty and each allocation only decrements). -/
def CountersInv (g : TempIdCounters) : Prop := ∀ e ∈ g.next_id, e.2 ≤ -1

/-!
Infrastructure lemmas: association lists, Python equality, dict semantics.
-/

theorem find?_map_key {κ α β : Type} (f : κ × α → κ × β) (p : κ → Bool)
    (hf : ∀ e, (f e).1 = e.1) (l : List (κ × α)) :
    ((l.map f).find? fun e => p e.1) = (l.find? fun e => p e.1).map f := by
  induction l with
  | nil => rfl
  | cons a l ih =>
      simp only [List.map_cons, List.find?]
      rw [hf a]
      cases hpa : p a.1 <;> simp [hpa, ih]

theorem find?_append_none {α : Type} (l1 l2 : List α) (p : α → Bool)
    (h : l1.find? p = Option.none) : (l1 ++ l2).find? p = l2.find? p := by
  induction l1 with
  | nil => rfl
  | cons a l ih =>
      simp only [List.find?, List.cons_append] at h ⊢
      cases hpa : p a
      · simp only [hpa] at h ⊢
        exact ih h
      · simp [hpa] at h

theorem find?_append_some {α : Type} (l1 l2 : List α) (p : α → Bool) (e : α)
    (h : l1.find? p = some e) : (l1 ++ l2).find? p = some e := by
  induction l1 with
  | nil => simp at h
  | cons a l ih =>
      simp only [List.find?, List.cons_append] at h ⊢
      cases hpa : p a
      · simp only [hpa] at h ⊢
        exact ih h
      · simp only [hpa] at h ⊢
        exact h

theorem assocGet?_set_self {κ α : Type} [BEq κ] [LawfulBEq κ]
    (l : List (κ × α)) (k : κ) (v : α) :
    assocGet? (assocSet l k v) k = some v := by
  unfold assocSet
  cases hany : (l.any fun e => e.1 == k) with
  | true =>
      simp only [hany, if_true, assocGet?]
      rw [find?_map_key (fun e => if e.1 == k then (k, v) else e) (fun x => x == k)]
      · rcases List.any_eq_true.mp hany with ⟨e, he, hek⟩
        have hs : (l.find? fun e => e.1 == k).isSome := by
          rw [List.find?_isSome]
          exact ⟨e, he, hek⟩
        rcases Option.isSome_iff_exists.mp hs with ⟨e0, he0⟩
        have hk0 : (e0.1 == k) = true := by
          have := List.find?_some he0
          simpa using this
        simp [he0, hk0]
      · intro e
        cases hek : (e.1 == k)
        · simp [hek]
        · simp [hek, eq_of_beq hek]
  | false =>
      simp only [hany, Bool.false_eq_true, if_false, assocGet?]
      rw [find?_append_none]
      · simp
      · rw [List.find?_eq_none]
        intro e he hek
        have : (l.any fun e => e.1 == k) = true := List.any_eq_true.mpr ⟨e, he, hek⟩
        rw [hany] at this
        exact Bool.false_ne_true this

theorem assocGet?_set_ne {κ α : Type} [BEq κ] [LawfulBEq κ]
    (l : List (κ × α)) (k k' : κ) (v : α) (hne : k' ≠ k) :
    assocGet? (assocSet l k v) k' = assocGet? l k' := by
  unfold assocSet
  cases hany : (l.any fun e => e.1 == k) with
  | true =>
      simp only [hany, if_true, assocGet?]
      rw [find?_map_key (fun e => if e.1 == k then (k, v) else e) (fun x => x == k')]
      · cases hf : l.find? fun e => e.1 == k' with
        | none => simp
        | some e0 =>
            have hk0 : (e0.1 == k') = true := by
              have := List.find?_some hf
              simpa using this
            have hne0 : (e0.1 == k) = false := by
              rw [beq_eq_false_iff_ne, eq_of_beq hk0]
              exact hne
            simp [hne0]
      · intro e
        cases hek : (e.1 == k)
        · simp [hek]
        · simp [hek, eq_of_beq hek]
  | false =>
      simp only [hany, Bool.false_eq_true, if_false, assocGet?]
      cases hf : l.find? fun e => e.1 == k' with
      | none =>
          rw [find?_append_none _ _ _ hf]
          have hkk : (k == k') = false := by
            rw [beq_eq_false_iff_ne]
            exact fun hkk => hne hkk.symm
          simp [List.find?, hkk]
      | some e0 =>
          rw [find?_append_some _ _ _ _ hf]

theorem pyEqS_refl (x : PScalar) : pyEqS x x = true := by
  cases x <;> simp [pyEqS]

theorem pyEqS_symm (x y : PScalar) (h : pyEqS x y = true) : pyEqS y x = true := by
  cases x <;> cases y <;> simp_all [pyEqS]

theorem pyEqS_symm_false (x y : PScalar) (h : pyEqS x y = false) : pyEqS y x = false := by
  cases hyx : pyEqS y x
  · rfl
  · rw [pyEqS_symm y x hyx] at h
    exact h

theorem pyEqS_trans {x y z : PScalar} (h1 : pyEqS x y = true) (h2 : pyEqS y z = true) :
    pyEqS x z = true := by
  cases x <;> cases y <;> cases z <;> simp_all [pyEqS]

/-- Tuple Python equality as an element-wise relation. -/
theorem pyEqV_tup_iff (as bs : List PScalar) :
    pyEqV (.tup as) (.tup bs) = true ↔
      List.Forall₂ (fun a b => pyEqS a b = true) as bs := by
  induction as generalizing bs with
  | nil =>
      cases bs <;> simp [pyEqV]
  | cons a as ih =>
      cases bs with
      | nil => simp [pyEqV]
      | cons b bs =>
          simp only [pyEqV, List.zip_cons_cons, List.all_cons, List.length_cons,
            Bool.and_eq_true, beq_iff_eq, Nat.add_right_cancel_iff,
            List.forall₂_cons] at ih ⊢
          constructor
          · rintro ⟨hlen, hab, hrest⟩
            exact ⟨hab, (ih bs).mp ⟨hlen, hrest⟩⟩
          · rintro ⟨hab, hrest⟩
            have := (ih bs).mpr hrest
            exact ⟨this.1, hab, this.2⟩

theorem pyEqV_refl (x : PVal) : pyEqV x x = true := by
  cases x with
  | scalar s => simp [pyEqV, pyEqS_refl]
  | tup l =>
      rw [pyEqV_tup_iff]
      induction l with
      | nil => exact List.Forall₂.nil
      | cons a l ih => exact List.Forall₂.cons (pyEqS_refl a) ih

theorem pyEqV_symm (x y : PVal) (h : pyEqV x y = true) : pyEqV y x = true := by
  cases x with
  | scalar s =>
      cases y with
      | scalar t => simp only [pyEqV] at h ⊢; exact pyEqS_symm _ _ h
      | tup l => simp [pyEqV] at h
  | tup l =>
      cases y with
      | scalar t => simp [pyEqV] at h
      | tup m =>
          rw [pyEqV_tup_iff] at h ⊢
          induction h with
          | nil => exact List.Forall₂.nil
          | cons hab _ ih => exact List.Forall₂.cons (pyEqS_symm _ _ hab) ih

theorem pyEqV_symm_false (x y : PVal) (h : pyEqV x y = false) : pyEqV y x = false := by
  cases hyx : pyEqV y x
  · rfl
  · rw [pyEqV_symm y x hyx] at h
    exact h

theorem pyEqV_trans {x y z : PVal} (h1 : pyEqV x y = true) (h2 : pyEqV y z = true) :
    pyEqV x z = true := by
  cases x with
  | scalar s =>
      cases y with
      | scalar t =>
          cases z with
          | scalar u =>
              simp only [pyEqV] at h1 h2 ⊢
              exact pyEqS_trans h1 h2
          | tup m => simp [pyEqV] at h2
      | tup l => simp [pyEqV] at h1
  | tup l =>
      cases y with
      | scalar t => simp [pyEqV] at h1
      | tup m =>
          cases z with
          | scalar u => simp [pyEqV] at h2
          | tup n =>
              rw [pyEqV_tup_iff] at h1 h2 ⊢
              revert h2
              induction h1 generalizing n with
              | nil =>
                  intro h2
                  cases h2
                  exact List.Forall₂.nil
              | cons hab _ ih =>
                  intro h2
                  cases h2 with
                  | cons hbc hrest =>
                      exact List.Forall₂.cons (pyEqS_trans hab hbc) (ih _ hrest)

theorem dContains_eq_isSome (d : PDict) (k : PVal) :
    dContains d k = (dGet? d k).isSome := by
  unfold dContains dGet?
  induction d with
  | nil => rfl
  | cons a d ih =>
      simp only [List.any_cons, List.find?]
      cases hak : pyEqV a.1 k
      · simpa [hak] using ih
      · simp [hak]

theorem find?_dict_none_of_not_contains {d : PDict} {k : PVal}
    (hc : dContains d k = false) :
    (d.find? fun e => pyEqV e.1 k) = Option.none := by
  cases hf : d.find? fun e => pyEqV e.1 k with
  | none => rfl
  | some e =>
      have h2 : dContains d k = true := by
        rw [dContains_eq_isSome]
        unfold dGet?
        rw [hf]
        rfl
      rw [hc] at h2
      exact absurd h2 (by simp)

theorem dGet?_set_self (d : PDict) (k v : PVal) : dGet? (dSet d k v) k = some v := by
  unfold dSet
  cases hc : dContains d k
  · simp only [Bool.false_eq_true, if_false]
    unfold dGet?
    rw [find?_append_none _ _ _ (find?_dict_none_of_not_contains hc)]
    simp [List.find?, pyEqV_refl]
  · simp only [if_true]
    unfold dGet?
    rw [find?_map_key (fun e => if pyEqV e.1 k then (e.1, v) else e)
      (fun x => pyEqV x k)]
    · have hc2 : (d.any fun e => pyEqV e.1 k) = true := hc
      rcases List.any_eq_true.mp hc2 with ⟨e, he, hek⟩
      have hs : (d.find? fun e => pyEqV e.1 k).isSome := by
        rw [List.find?_isSome]
        exact ⟨e, he, hek⟩
      rcases Option.isSome_iff_exists.mp hs with ⟨e0, he0⟩
      have hk0 : pyEqV e0.1 k = true := by
        have := List.find?_some he0
        simpa using this
      simp [he0, hk0]
    · intro e
      cases hek : pyEqV e.1 k <;> simp [hek]

theorem dGet?_set_ne (d : PDict) (k k' v : PVal) (hne : pyEqV k' k = false) :
    dGet? (dSet d k v) k' = dGet? d k' := by
  unfold dSet
  cases hc : dContains d k
  · simp only [Bool.false_eq_true, if_false]
    unfold dGet?
    cases hf : d.find? fun e => pyEqV e.1 k' with
    | none =>
        rw [find?_append_none _ _ _ hf]
        have : pyEqV k k' = false := pyEqV_symm_false _ _ hne
        simp [List.find?, this]
    | some e0 => rw [find?_append_some _ _ _ _ hf]
  · simp only [if_true]
    unfold dGet?
    rw [find?_map_key (fun e => if pyEqV e.1 k then (e.1, v) else e)
      (fun x => pyEqV x k')]
    · cases hf : d.find? fun e => pyEqV e.1 k' with
      | none => simp
      | some e0 =>
          have hk0 : pyEqV e0.1 k' = true := by
            have := List.find?_some hf
            simpa using this
          have : pyEqV e0.1 k = false := by
            cases hek : pyEqV e0.1 k
            · rfl
            · have hk'e : pyEqV k' e0.1 = true := pyEqV_symm _ _ hk0
              have : pyEqV k' k = true := pyEqV_trans hk'e hek
              rw [this] at hne
              exact hne
          simp [this]
    · intro e
      cases hek : pyEqV e.1 k <;> simp [hek]

theorem dGet?_erase_ne (d : PDict) (k k' : PVal) (hne : pyEqV k' k = false) :
    dGet? (dErase d k) k' = dGet? d k' := by
  unfold dErase
  induction d with
  | nil => rfl
  | cons a d ih =>
      simp only [List.eraseP_cons]
      cases hak : pyEqV a.1 k
      · simp only [Bool.false_eq_true, cond_false]
        unfold dGet?
        simp only [List.find?]
        cases hak' : pyEqV a.1 k'
        · simpa [hak'] using ih
        · simp [hak']
      · simp only [cond_true]
        unfold dGet?
        have hak' : pyEqV a.1 k' = false := by
          cases hk : pyEqV a.1 k'
          · rfl
          · have h1 : pyEqV k' a.1 = true := pyEqV_symm _ _ hk
            have h2 : pyEqV k' k = true := pyEqV_trans h1 hak
            rw [h2] at hne
            exact hne
        simp [List.find?, hak']

theorem dGet?_erase_self {d : PDict} {k : PVal} (hWF : WFd d) :
    dGet? (dErase d k) k = Option.none := by
  unfold dErase
  induction d with
  | nil => rfl
  | cons a d ih =>
      have hWFd : WFd d := (List.pairwise_cons.mp hWF).2
      have hheadrel := (List.pairwise_cons.mp hWF).1
      simp only [List.eraseP_cons]
      cases hak : pyEqV a.1 k
      · simp only [Bool.false_eq_true, cond_false]
        unfold dGet?
        simp only [List.find?, hak]
        exact ih hWFd
      · simp only [cond_true]
        cases hf : d.find? fun e => pyEqV e.1 k with
        | none => simp [dGet?, hf]
        | some e0 =>
            have hk0 : pyEqV e0.1 k = true := by
              have := List.find?_some hf
              simpa using this
            have he0 : e0 ∈ d := List.mem_of_find?_eq_some hf
            have hae : pyEqV a.1 e0.1 = false := hheadrel e0 he0
            have : pyEqV a.1 e0.1 = true :=
              pyEqV_trans hak (pyEqV_symm _ _ hk0)
            rw [this] at hae
            exact absurd hae (by simp)

theorem WFd_set (d : PDict) (k v : PVal) (hWF : WFd d) : WFd (dSet d k v) := by
  unfold dSet
  cases hc : dContains d k
  · simp only [Bool.false_eq_true, if_false]
    unfold WFd at *
    rw [List.pairwise_append]
    refine ⟨hWF, List.pairwise_singleton _ _, ?_⟩
    intro e he e' he'
    simp only [List.mem_singleton] at he'
    subst he'
    cases hek : pyEqV e.1 k
    · rfl
    · have : dContains d k = true := by
        unfold dContains
        exact List.any_eq_true.mpr ⟨e, he, hek⟩
      rw [hc] at this
      simp at this
  · simp only [if_true]
    unfold WFd at *
    rw [List.pairwise_map]
    refine hWF.imp_of_mem ?_
    intro e e' _ _ hrel
    cases he : pyEqV e.1 k <;> cases he' : pyEqV e'.1 k <;>
      simp [he, he', hrel]

theorem WFd_erase (d : PDict) (k : PVal) (hWF : WFd d) : WFd (dErase d k) :=
  hWF.sublist (List.eraseP_sublist d)

theorem getDict_setDict_self (h : Heap) (d : DictId) (pd : PDict) :
    (h.setDict d pd).getDict d = pd := by
  unfold Heap.setDict Heap.getDict
  simp [assocGet?_set_self]

theorem getDict_setDict_ne (h : Heap) (d d' : DictId) (pd : PDict) (hne : d' ≠ d) :
    (h.setDict d pd).getDict d' = h.getDict d' := by
  unfold Heap.setDict Heap.getDict
  simp [assocGet?_set_ne _ _ _ _ hne]

theorem getTemp_setDict (h : Heap) (d : DictId) (pd : PDict) (s : Serial) :
    (h.setDict d pd).getTemp s = h.getTemp s := rfl

theorem getDict_setTemp (h : Heap) (s : Serial) (b : TempIdBinds) (d : DictId) :
    (h.setTemp s b).getDict d = h.getDict d := rfl

theorem getTemp_setTemp_self (h : Heap) (s : Serial) (b : TempIdBinds) :
    (h.setTemp s b).getTemp s = b := by
  unfold Heap.setTemp Heap.getTemp
  simp [assocGet?_set_self]

theorem getTemp_setTemp_ne (h : Heap) (s s' : Serial) (b : TempIdBinds) (hne : s' ≠ s) :
    (h.setTemp s b).getTemp s' = h.getTemp s' := by
  unfold Heap.setTemp Heap.getTemp
  simp [assocGet?_set_ne _ _ _ _ hne]

theorem dicts_modifyTemp (h : Heap) (s : Serial) (f : TempIdBinds → TempIdBinds) :
    (h.modifyTemp s f).dicts = h.dicts := rfl

theorem getTemp_modifyTemp_self (h : Heap) (s : Serial) (f : TempIdBinds → TempIdBinds) :
    (h.modifyTemp s f).getTemp s = f (h.getTemp s) := getTemp_setTemp_self _ _ _

theorem getTemp_modifyTemp_ne (h : Heap) (s s' : Serial) (f : TempIdBinds → TempIdBinds)
    (hne : s' ≠ s) : (h.modifyTemp s f).getTemp s' = h.getTemp s' :=
  getTemp_setTemp_ne _ _ _ _ hne

theorem dicts_fold_tvb (h : Heap) (d : DictId) (key : PVal) (vs : List PScalar) :
    (vs.foldl (fun h v =>
      match v with
      | .stemp s _ => addTupleValueBind h s d key
      | _ => h) h).dicts = h.dicts := by
  induction vs generalizing h with
  | nil => rfl
  | cons a vs ih =>
      cases a <;> simp only [List.foldl_cons] <;> exact ih _

theorem dicts_fold_tkb (h : Heap) (d : DictId) (key : PVal) (ks : List PScalar) :
    (ks.foldl (fun h k =>
      match k with
      | .stemp s _ => addTupleKeyBind h s d key
      | _ => h) h).dicts = h.dicts := by
  induction ks generalizing h with
  | nil => rfl
  | cons a ks ih =>
      cases a <;> simp only [List.foldl_cons] <;> exact ih _

theorem dicts_bindEntry (h : Heap) (d : DictId) (k v : PVal) :
    (bindEntry h d k v).dicts = h.dicts := by
  unfold bindEntry
  cases v with
  | scalar s =>
      cases s with
      | stemp s w => rfl
      | sint n =>
          cases k with
          | scalar t => cases t <;> rfl
          | tup ks => exact dicts_fold_tkb h d _ ks
      | sstr t =>
          cases k with
          | scalar u => cases u <;> rfl
          | tup ks => exact dicts_fold_tkb h d _ ks
  | tup vs => exact dicts_fold_tvb h d _ vs

theorem getDict_bindEntry (h : Heap) (d : DictId) (k v : PVal) (d' : DictId) :
    (bindEntry h d k v).getDict d' = h.getDict d' := by
  unfold Heap.getDict
  rw [dicts_bindEntry]

theorem getDict_setItem_self (h : Heap) (d : DictId) (k v : PVal) :
    (setItem h d k v).getDict d = dSet (h.getDict d) k v := by
  unfold setItem
  rw [getDict_bindEntry, getDict_setDict_self]

theorem getDict_setItem_ne (h : Heap) (d d' : DictId) (k v : PVal) (hne : d' ≠ d) :
    (setItem h d k v).getDict d' = h.getDict d' := by
  unfold setItem
  rw [getDict_bindEntry, getDict_setDict_ne _ _ _ _ hne]

theorem assocSet_mem {κ α : Type} [BEq κ] (l : List (κ × α)) (k : κ) (v : α)
    (x : κ × α) (hx : x ∈ assocSet l k v) : x ∈ l ∨ x = (k, v) := by
  unfold assocSet at hx
  cases hany : (l.any fun e => e.1 == k)
  · rw [hany] at hx
    simp only [Bool.false_eq_true, if_false, List.mem_append, List.mem_singleton] at hx
    exact hx
  · rw [hany] at hx
    simp only [if_true, List.mem_map] at hx
    rcases hx with ⟨e, he, hfe⟩
    cases hek : (e.1 == k)
    · rw [hek] at hfe
      simp only [Bool.false_eq_true, if_false] at hfe
      exact Or.inl (hfe ▸ he)
    · rw [hek] at hfe
      simp only [if_true] at hfe
      exact Or.inr hfe.symm

theorem WFh_setDict {h : Heap} {d : DictId} {pd : PDict} (hWF : WFh h)
    (hpd : WFd pd) : WFh (h.setDict d pd) := by
  intro e he
  rcases assocSet_mem _ _ _ _ he with h1 | h1
  · exact hWF e h1
  · rw [h1]
    exact hpd

theorem WFd_getDict {h : Heap} (hWF : WFh h) (d : DictId) : WFd (h.getDict d) := by
  unfold Heap.getDict assocGet?
  cases hf : h.dicts.find? fun e => e.1 == d with
  | none => exact List.Pairwise.nil
  | some e =>
      have he : e ∈ h.dicts := List.mem_of_find?_eq_some hf
      simpa using hWF e he

theorem WFh_congr_dicts {h h' : Heap} (hd : h'.dicts = h.dicts) (hWF : WFh h) :
    WFh h' := by
  intro e he
  rw [hd] at he
  exact hWF e he

theorem WFh_bindEntry {h : Heap} (hWF : WFh h) (d : DictId) (k v : PVal) :
    WFh (bindEntry h d k v) :=
  WFh_congr_dicts (dicts_bindEntry h d k v) hWF

theorem WFh_setItem {h : Heap} (hWF : WFh h) (d : DictId) (k v : PVal) :
    WFh (setItem h d k v) := by
  unfold setItem
  exact WFh_bindEntry (WFh_setDict hWF (WFd_set _ _ _ (WFd_getDict hWF d))) _ _ _

theorem getTemp_addValueBind (h : Heap) (s : Serial) (d : DictId) (k : PVal)
    (q : Serial) :
    (addValueBind h s d k).getTemp q =
      if q = s then
        { h.getTemp q with value_binds := (h.getTemp q).value_binds ++ [(d, k)] }
      else h.getTemp q := by
  by_cases hq : q = s
  · subst hq
    simp [addValueBind, getTemp_modifyTemp_self]
  · simp [addValueBind, getTemp_modifyTemp_ne _ _ _ _ hq, hq]

theorem getTemp_addTupleValueBind (h : Heap) (s : Serial) (d : DictId) (k : PVal)
    (q : Serial) :
    (addTupleValueBind h s d k).getTemp q =
      if q = s then
        { h.getTemp q with
          tuple_value_binds := (h.getTemp q).tuple_value_binds ++ [(d, k)] }
      else h.getTemp q := by
  by_cases hq : q = s
  · subst hq
    simp [addTupleValueBind, getTemp_modifyTemp_self]
  · simp [addTupleValueBind, getTemp_modifyTemp_ne _ _ _ _ hq, hq]

theorem getTemp_addKeyBind (h : Heap) (s : Serial) (d : DictId) (q : Serial) :
    (addKeyBind h s d).getTemp q =
      if q = s then
        { h.getTemp q with key_binds := (h.getTemp q).key_binds ++ [d] }
      else h.getTemp q := by
  by_cases hq : q = s
  · subst hq
    simp [addKeyBind, getTemp_modifyTemp_self]
  · simp [addKeyBind, getTemp_modifyTemp_ne _ _ _ _ hq, hq]

theorem getTemp_addTupleKeyBind (h : Heap) (s : Serial) (d : DictId) (k : PVal)
    (q : Serial) :
    (addTupleKeyBind h s d k).getTemp q =
      if q = s then
        { h.getTemp q with
          tuple_key_binds := (h.getTemp q).tuple_key_binds ++ [(d, k)] }
      else h.getTemp q := by
  by_cases hq : q = s
  · subst hq
    simp [addTupleKeyBind, getTemp_modifyTemp_self]
  · simp [addTupleKeyBind, getTemp_modifyTemp_ne _ _ _ _ hq, hq]

/-- Effect of the tuple-value bind fold on one `TempId`: the value, key and
tuple-key lists are untouched; the tuple-value list is only appended to,
with entries `(d, key)`, and is untouched when the serial does not occur in
the iterated elements. -/
theorem getTemp_fold_tvb (vs : List PScalar) (h : Heap) (d : DictId) (key : PVal)
    (q : Serial) :
    let hres := vs.foldl (fun h v =>
      match v with
      | .stemp s _ => addTupleValueBind h s d key
      | _ => h) h
    ((hres.getTemp q).value_binds = (h.getTemp q).value_binds) ∧
    ((hres.getTemp q).key_binds = (h.getTemp q).key_binds) ∧
    ((hres.getTemp q).tuple_key_binds = (h.getTemp q).tuple_key_binds) ∧
    (∃ l, (hres.getTemp q).tuple_value_binds =
        (h.getTemp q).tuple_value_binds ++ l ∧ ∀ x ∈ l, x = (d, key)) ∧
    ((∀ w, PScalar.stemp q w ∉ vs) →
      (hres.getTemp q).tuple_value_binds = (h.getTemp q).tuple_value_binds) := by
  induction vs generalizing h with
  | nil => exact ⟨rfl, rfl, rfl, ⟨[], by simp⟩, fun _ => rfl⟩
  | cons a vs ih =>
      cases a with
      | sint n => simpa using ih h
      | sstr t => simpa using ih h
      | stemp s w =>
          simp only [List.foldl_cons]
          rcases ih (addTupleValueBind h s d key) with ⟨hv, hk, htk, ⟨l, hl, hlx⟩, hnm⟩
          rw [getTemp_addTupleValueBind] at hv hk htk hl hnm
          by_cases hq : q = s
          · subst hq
            simp only [if_pos rfl] at hv hk htk hl hnm
            refine ⟨hv, hk, htk, ⟨(d, key) :: l, by simpa using hl, ?_⟩, ?_⟩
            · intro x hx
              rcases List.mem_cons.mp hx with hx | hx
              · exact hx
              · exact hlx x hx
            · intro hnotin
              exact absurd (List.mem_cons_self _ _) (hnotin w)
          · simp only [if_neg hq] at hv hk htk hl hnm
            refine ⟨hv, hk, htk, ⟨l, hl, hlx⟩, ?_⟩
            intro hnotin
            apply hnm
            intro w2 hw2
            exact hnotin w2 (List.mem_cons_of_mem _ hw2)

/-- Effect of the tuple-key bind fold on one `TempId`: only the tuple-key
list changes, by appended `(d, key)` entries, and it is untouched when the
serial does not occur in the iterated elements. -/
theorem getTemp_fold_tkb (ks : List PScalar) (h : Heap) (d : DictId) (key : PVal)
    (q : Serial) :
    let hres := ks.foldl (fun h k =>
      match k with
      | .stemp s _ => addTupleKeyBind h s d key
      | _ => h) h
    ((hres.getTemp q).value_binds = (h.getTemp q).value_binds) ∧
    ((hres.getTemp q).key_binds = (h.getTemp q).key_binds) ∧
    ((hres.getTemp q).tuple_value_binds = (h.getTemp q).tuple_value_binds) ∧
    (∃ l, (hres.getTemp q).tuple_key_binds =
        (h.getTemp q).tuple_key_binds ++ l ∧ ∀ x ∈ l, x = (d, key)) ∧
    ((∀ w, PScalar.stemp q w ∉ ks) →
      (hres.getTemp q).tuple_key_binds = (h.getTemp q).tuple_key_binds) := by
  induction ks generalizing h with
  | nil => exact ⟨rfl, rfl, rfl, ⟨[], by simp⟩, fun _ => rfl⟩
  | cons a ks ih =>
      cases a with
      | sint n => simpa using ih h
      | sstr t => simpa using ih h
      | stemp s w =>
          simp only [List.foldl_cons]
          rcases ih (addTupleKeyBind h s d key) with ⟨hv, hk, htv, ⟨l, hl, hlx⟩, hnm⟩
          rw [getTemp_addTupleKeyBind] at hv hk htv hl hnm
          by_cases hq : q = s
          · subst hq
            simp only [if_pos rfl] at hv hk htv hl hnm
            refine ⟨hv, hk, htv, ⟨(d, key) :: l, by simpa using hl, ?_⟩, ?_⟩
            · intro x hx
              rcases List.mem_cons.mp hx with hx | hx
              · exact hx
              · exact hlx x hx
            · intro hnotin
              exact absurd (List.mem_cons_self _ _) (hnotin w)
          · simp only [if_neg hq] at hv hk htv hl hnm
            refine ⟨hv, hk, htv, ⟨l, hl, hlx⟩, ?_⟩
            intro hnotin
            apply hnm
            intro w2 hw2
            exact hnotin w2 (List.mem_cons_of_mem _ hw2)

theorem dGet?_set_eqv (d : PDict) (k k' v : PVal) (heq : pyEqV k' k = true) :
    dGet? (dSet d k v) k' = some v := by
  unfold dSet
  cases hc : dContains d k
  · simp only [Bool.false_eq_true, if_false]
    unfold dGet?
    have hnone : (d.find? fun e => pyEqV e.1 k') = Option.none := by
      rw [List.find?_eq_none]
      intro e he hek
      have h1 : pyEqV e.1 k = true := pyEqV_trans hek heq
      have : dContains d k = true := List.any_eq_true.mpr ⟨e, he, h1⟩
      rw [hc] at this
      exact absurd this (by simp)
    rw [find?_append_none _ _ _ hnone]
    have : pyEqV k k' = true := pyEqV_symm _ _ heq
    simp [List.find?, this]
  · simp only [if_true]
    unfold dGet?
    rw [find?_map_key (fun e => if pyEqV e.1 k then (e.1, v) else e)
      (fun x => pyEqV x k')]
    · have hc2 : (d.any fun e => pyEqV e.1 k) = true := hc
      rcases List.any_eq_true.mp hc2 with ⟨e, he, hek⟩
      cases hf : d.find? fun e => pyEqV e.1 k' with
      | none =>
          have h1 : pyEqV e.1 k' = true := pyEqV_trans hek (pyEqV_symm _ _ heq)
          rw [List.find?_eq_none] at hf
          exact absurd h1 (by simpa using hf e he)
      | some e0 =>
          have hk0 : pyEqV e0.1 k' = true := by
            have := List.find?_some hf
            simpa using this
          have h1 : pyEqV e0.1 k = true := pyEqV_trans hk0 heq
          simp [h1]
    · intro e
      cases hek : pyEqV e.1 k <;> simp [hek]

theorem dGet?_none_erase {d : PDict} {K : PVal} (k' : PVal)
    (h : dGet? d K = Option.none) : dGet? (dErase d k') K = Option.none := by
  have h2 : (d.find? fun e => pyEqV e.1 K) = Option.none := by
    unfold dGet? at h
    exact Option.map_eq_none'.mp h
  unfold dGet?
  cases hf : (dErase d k').find? fun e => pyEqV e.1 K with
  | none => rfl
  | some e0 =>
      have he0 : e0 ∈ dErase d k' := List.mem_of_find?_eq_some hf
      have hk0 : pyEqV e0.1 K = true := by
        have := List.find?_some hf
        simpa using this
      have he0d : e0 ∈ d := (List.eraseP_sublist d).mem he0
      rw [List.find?_eq_none] at h2
      exact absurd hk0 (by simpa using h2 e0 he0d)

theorem forall2_mem_right {R : α → β → Prop} {as : List α} {bs : List β}
    (h : List.Forall₂ R as bs) {y : β} (hy : y ∈ bs) : ∃ x ∈ as, R x y := by
  induction h with
  | nil => simp at hy
  | cons hab _ ih =>
      rcases List.mem_cons.mp hy with hy | hy
      · subst hy
        exact ⟨_, List.mem_cons_self _ _, hab⟩
      · rcases ih hy with ⟨x, hx, hR⟩
        exact ⟨x, List.mem_cons_of_mem _ hx, hR⟩

/-- A tuple none of whose components equals some member of the other tuple
is not Python-equal to it. -/
theorem pyEqV_tup_false_of_right_mem {as bs : List PScalar} {y : PScalar}
    (hy : y ∈ bs) (hall : ∀ x ∈ as, pyEqS x y = false) :
    pyEqV (.tup as) (.tup bs) = false := by
  cases hq : pyEqV (.tup as) (.tup bs)
  · rfl
  · rw [pyEqV_tup_iff] at hq
    rcases forall2_mem_right hq hy with ⟨x, hx, hR⟩
    rw [hall x hx] at hR
    exact absurd hR (by simp)

theorem substS_not_same (s : Serial) (r : Int) (x : PScalar) (w : Int) :
    substS s r x = .stemp s w → False := by
  unfold substS
  cases hx : isSame s x
  · simp only [Bool.false_eq_true, if_false]
    intro hxe
    subst hxe
    simp [isSame] at hx
  · simp only [if_true]
    intro hxe
    exact absurd hxe (by simp)

theorem mem_subst_of_same {s : Serial} {r : Int} {ks : List PScalar} {w : Int}
    (hmem : PScalar.stemp s w ∈ ks) : PScalar.sint r ∈ ks.map (substS s r) := by
  have : substS s r (.stemp s w) = .sint r := by simp [substS, isSame]
  rw [← this]
  exact List.mem_map_of_mem _ hmem

theorem substS_map_idem (s : Serial) (r : Int) (vs : List PScalar) :
    (vs.map (substS s r)).map (substS s r) = vs.map (substS s r) := by
  rw [List.map_map]
  apply List.map_congr_left
  intro x _
  show substS s r (substS s r x) = substS s r x
  unfold substS
  cases hx : isSame s x
  · simp [hx]
  · simp [isSame]

theorem getTemp_addValueBind_kb (h : Heap) (s : Serial) (d : DictId) (k : PVal)
    (q : Serial) :
    ((addValueBind h s d k).getTemp q).key_binds = (h.getTemp q).key_binds := by
  rw [getTemp_addValueBind]
  split <;> rfl

theorem getTemp_addValueBind_tvb (h : Heap) (s : Serial) (d : DictId) (k : PVal)
    (q : Serial) :
    ((addValueBind h s d k).getTemp q).tuple_value_binds =
      (h.getTemp q).tuple_value_binds := by
  rw [getTemp_addValueBind]
  split <;> rfl

theorem getTemp_addValueBind_tkb (h : Heap) (s : Serial) (d : DictId) (k : PVal)
    (q : Serial) :
    ((addValueBind h s d k).getTemp q).tuple_key_binds =
      (h.getTemp q).tuple_key_binds := by
  rw [getTemp_addValueBind]
  split <;> rfl

theorem getTemp_addKeyBind_vb (h : Heap) (s : Serial) (d : DictId) (q : Serial) :
    ((addKeyBind h s d).getTemp q).value_binds = (h.getTemp q).value_binds := by
  rw [getTemp_addKeyBind]
  split <;> rfl

theorem getTemp_addKeyBind_tvb (h : Heap) (s : Serial) (d : DictId) (q : Serial) :
    ((addKeyBind h s d).getTemp q).tuple_value_binds =
      (h.getTemp q).tuple_value_binds := by
  rw [getTemp_addKeyBind]
  split <;> rfl

theorem getTemp_addKeyBind_tkb (h : Heap) (s : Serial) (d : DictId) (q : Serial) :
    ((addKeyBind h s d).getTemp q).tuple_key_binds =
      (h.getTemp q).tuple_key_binds := by
  rw [getTemp_addKeyBind]
  split <;> rfl

theorem getTemp_addKeyBind_kb_ne (h : Heap) (s : Serial) (d : DictId) (q : Serial)
    (hq : q ≠ s) :
    ((addKeyBind h s d).getTemp q).key_binds = (h.getTemp q).key_binds := by
  rw [getTemp_addKeyBind, if_neg hq]

/-- Effect of `_bind` on the key and tuple-key registries when the inserted
value is a plain (non-TempId, non-tuple) integer: the value and tuple-value
registries never change; the key registry of a serial changes only when the
key is that very `TempId`; the tuple-key registry of a serial changes only
when the key is a tuple containing it. -/
theorem getTemp_bindEntry_int (h : Heap) (d : DictId) (K : PVal) (n : Int)
    (q : Serial) :
    (((bindEntry h d K (.scalar (.sint n))).getTemp q).value_binds =
      (h.getTemp q).value_binds) ∧
    (((bindEntry h d K (.scalar (.sint n))).getTemp q).tuple_value_binds =
      (h.getTemp q).tuple_value_binds) ∧
    ((∀ w, K ≠ .scalar (.stemp q w)) →
      ((bindEntry h d K (.scalar (.sint n))).getTemp q).key_binds =
        (h.getTemp q).key_binds) ∧
    ((∀ ks, K = .tup ks → ∀ w, PScalar.stemp q w ∉ ks) →
      ((bindEntry h d K (.scalar (.sint n))).getTemp q).tuple_key_binds =
        (h.getTemp q).tuple_key_binds) := by
  cases K with
  | scalar u =>
      cases u with
      | sint m => exact ⟨rfl, rfl, fun _ => rfl, fun _ => rfl⟩
      | sstr t => exact ⟨rfl, rfl, fun _ => rfl, fun _ => rfl⟩
      | stemp s w =>
          have hred : bindEntry h d (.scalar (.stemp s w)) (.scalar (.sint n)) =
              addKeyBind h s d := rfl
          rw [hred]
          refine ⟨getTemp_addKeyBind_vb _ _ _ _, getTemp_addKeyBind_tvb _ _ _ _,
            ?_, fun _ => getTemp_addKeyBind_tkb _ _ _ _⟩
          intro hK
          have hq : q ≠ s := fun hqs => absurd (hqs ▸ rfl) (hK w)
          exact getTemp_addKeyBind_kb_ne _ _ _ _ hq
  | tup ks =>
      have hred : bindEntry h d (.tup ks) (.scalar (.sint n)) =
          ks.foldl (fun h k =>
            match k with
            | .stemp s _ => addTupleKeyBind h s d (.tup ks)
            | _ => h) h := rfl
      rw [hred]
      rcases getTemp_fold_tkb ks h d (.tup ks) q with ⟨hv, hk, htv, _, hnm⟩
      refine ⟨hv, htv, fun _ => hk, fun hK => hnm ?_⟩
      intro w
      exact hK ks rfl w

/-- Effect of `_bind` when the inserted value is a string: identical to the
plain-integer case. -/
theorem getTemp_bindEntry_str (h : Heap) (d : DictId) (K : PVal) (t : String)
    (q : Serial) :
    (((bindEntry h d K (.scalar (.sstr t))).getTemp q).value_binds =
      (h.getTemp q).value_binds) ∧
    (((bindEntry h d K (.scalar (.sstr t))).getTemp q).tuple_value_binds =
      (h.getTemp q).tuple_value_binds) ∧
    ((∀ w, K ≠ .scalar (.stemp q w)) →
      ((bindEntry h d K (.scalar (.sstr t))).getTemp q).key_binds =
        (h.getTemp q).key_binds) ∧
    ((∀ ks, K = .tup ks → ∀ w, PScalar.stemp q w ∉ ks) →
      ((bindEntry h d K (.scalar (.sstr t))).getTemp q).tuple_key_binds =
        (h.getTemp q).tuple_key_binds) := by
  cases K with
  | scalar u =>
      cases u with
      | sint m => exact ⟨rfl, rfl, fun _ => rfl, fun _ => rfl⟩
      | sstr u2 => exact ⟨rfl, rfl, fun _ => rfl, fun _ => rfl⟩
      | stemp s w =>
          have hred : bindEntry h d (.scalar (.stemp s w)) (.scalar (.sstr t)) =
              addKeyBind h s d := rfl
          rw [hred]
          refine ⟨getTemp_addKeyBind_vb _ _ _ _, getTemp_addKeyBind_tvb _ _ _ _,
            ?_, fun _ => getTemp_addKeyBind_tkb _ _ _ _⟩
          intro hK
          have hq : q ≠ s := fun hqs => absurd (hqs ▸ rfl) (hK w)
          exact getTemp_addKeyBind_kb_ne _ _ _ _ hq
  | tup ks =>
      have hred : bindEntry h d (.tup ks) (.scalar (.sstr t)) =
          ks.foldl (fun h k =>
            match k with
            | .stemp s _ => addTupleKeyBind h s d (.tup ks)
            | _ => h) h := rfl
      rw [hred]
      rcases getTemp_fold_tkb ks h d (.tup ks) q with ⟨hv, hk, htv, _, hnm⟩
      refine ⟨hv, htv, fun _ => hk, fun hK => hnm ?_⟩
      intro w
      exact hK ks rfl w

/-- Effect of `_bind` when the inserted value is a `TempId`: only the value
registry of that very serial is appended to. -/
theorem getTemp_bindEntry_temp (h : Heap) (d : DictId) (K : PVal) (s : Serial)
    (w : Int) (q : Serial) :
    (bindEntry h d K (.scalar (.stemp s w))).getTemp q =
      if q = s then
        { h.getTemp q with value_binds := (h.getTemp q).value_binds ++ [(d, K)] }
      else h.getTemp q :=
  getTemp_addValueBind h s d K q

/-- Effect of `_bind` when the inserted value is a tuple: only tuple-value
registries change, and only for serials occurring in the tuple. -/
theorem getTemp_bindEntry_tup (h : Heap) (d : DictId) (K : PVal)
    (vs : List PScalar) (q : Serial) :
    (((bindEntry h d K (.tup vs)).getTemp q).value_binds =
      (h.getTemp q).value_binds) ∧
    (((bindEntry h d K (.tup vs)).getTemp q).key_binds =
      (h.getTemp q).key_binds) ∧
    (((bindEntry h d K (.tup vs)).getTemp q).tuple_key_binds =
      (h.getTemp q).tuple_key_binds) ∧
    ((∀ w, PScalar.stemp q w ∉ vs) →
      ((bindEntry h d K (.tup vs)).getTemp q).tuple_value_binds =
        (h.getTemp q).tuple_value_binds) := by
  rcases getTemp_fold_tvb vs h d K q with ⟨hv, hk, htk, _, hnm⟩
  exact ⟨hv, hk, htk, hnm⟩

/-- The key and tuple-key registries never change when an entry is stored
under a plain integer key (as the key-bind rewrite of `resolve` does). -/
theorem getTemp_bindEntry_intkey (h : Heap) (d : DictId) (n : Int) (v : PVal)
    (q : Serial) :
    (((bindEntry h d (.scalar (.sint n)) v).getTemp q).key_binds =
      (h.getTemp q).key_binds) ∧
    (((bindEntry h d (.scalar (.sint n)) v).getTemp q).tuple_key_binds =
      (h.getTemp q).tuple_key_binds) := by
  cases v with
  | scalar u =>
      cases u with
      | sint m =>
          rcases getTemp_bindEntry_int h d (.scalar (.sint n)) m q with ⟨_, _, hk, htk⟩
          exact ⟨hk (fun w hw => by cases hw),
            htk (fun ks hks => by cases hks)⟩
      | sstr t =>
          rcases getTemp_bindEntry_str h d (.scalar (.sint n)) t q with ⟨_, _, hk, htk⟩
          exact ⟨hk (fun w hw => by cases hw),
            htk (fun ks hks => by cases hks)⟩
      | stemp s w =>
          have hred : bindEntry h d (.scalar (.sint n)) (.scalar (.stemp s w)) =
              addValueBind h s d (.scalar (.sint n)) := rfl
          rw [hred]
          exact ⟨getTemp_addValueBind_kb _ _ _ _ _, getTemp_addValueBind_tkb _ _ _ _ _⟩
  | tup vs =>
      rcases getTemp_bindEntry_tup h d (.scalar (.sint n)) vs q with ⟨_, hk, htk, _⟩
      exact ⟨hk, htk⟩

/-- The key registry never changes when an entry is stored under a tuple
key, and the tuple-key registry of a serial not occurring in the key does
not change either (as the tuple-key rewrite of `resolve` does). -/
theorem getTemp_bindEntry_tupkey (h : Heap) (d : DictId) (ks : List PScalar)
    (v : PVal) (q : Serial) :
    (((bindEntry h d (.tup ks) v).getTemp q).key_binds =
      (h.getTemp q).key_binds) ∧
    ((∀ w, PScalar.stemp q w ∉ ks) →
      ((bindEntry h d (.tup ks) v).getTemp q).tuple_key_binds =
        (h.getTemp q).tuple_key_binds) := by
  cases v with
  | scalar u =>
      cases u with
      | sint m =>
          rcases getTemp_bindEntry_int h d (.tup ks) m q with ⟨_, _, hk, htk⟩
          exact ⟨hk (fun w hw => by cases hw),
            fun hnm => htk (fun ks2 hks2 w => by cases hks2; exact hnm w)⟩
      | sstr t =>
          rcases getTemp_bindEntry_str h d (.tup ks) t q with ⟨_, _, hk, htk⟩
          exact ⟨hk (fun w hw => by cases hw),
            fun hnm => htk (fun ks2 hks2 w => by cases hks2; exact hnm w)⟩
      | stemp s w =>
          have hred : bindEntry h d (.tup ks) (.scalar (.stemp s w)) =
              addValueBind h s d (.tup ks) := rfl
          rw [hred]
          exact ⟨getTemp_addValueBind_kb _ _ _ _ _,
            fun _ => getTemp_addValueBind_tkb _ _ _ _ _⟩
  | tup vs =>
      rcases getTemp_bindEntry_tup h d (.tup ks) vs q with ⟨_, hk, htk, _⟩
      exact ⟨hk, fun _ => htk⟩

/-!
Lemmas about the four loops of `TempId.resolve`.
-/

theorem resolveValueBinds_preserves_rV (binds : List (DictId × PVal)) (h : Heap)
    (r : Int) (d : DictId) (K : PVal)
    (hcur : dGet? (h.getDict d) K = some (.scalar (.sint r))) :
    dGet? ((resolveValueBinds h binds r).getDict d) K =
      some (.scalar (.sint r)) := by
  induction binds generalizing h with
  | nil => exact hcur
  | cons b bs ih =>
      simp only [resolveValueBinds, List.foldl_cons]
      apply ih
      by_cases hd : d = b.1
      · subst hd
        rw [getDict_setItem_self]
        cases hK : pyEqV K b.2
        · rw [dGet?_set_ne _ _ _ _ hK]
          exact hcur
        · rw [dGet?_set_eqv _ _ _ _ hK]
      · rw [getDict_setItem_ne _ _ _ _ _ hd]
        exact hcur

theorem resolveValueBinds_spec (binds : List (DictId × PVal)) (h : Heap) (r : Int) :
    (∀ b ∈ binds, dGet? ((resolveValueBinds h binds r).getDict b.1) b.2 =
      some (.scalar (.sint r))) ∧
    (∀ d K, (∀ b ∈ binds, b.1 = d → pyEqV K b.2 = false) →
      dGet? ((resolveValueBinds h binds r).getDict d) K =
        dGet? (h.getDict d) K) ∧
    (∀ d, d ∉ binds.map (·.1) →
      (resolveValueBinds h binds r).getDict d = h.getDict d) ∧
    (∀ q, (((resolveValueBinds h binds r).getTemp q).value_binds =
        (h.getTemp q).value_binds) ∧
      (((resolveValueBinds h binds r).getTemp q).tuple_value_binds =
        (h.getTemp q).tuple_value_binds)) ∧
    (∀ q, (∀ b ∈ binds, (∀ w, b.2 ≠ .scalar (.stemp q w)) ∧
        (∀ ks, b.2 = .tup ks → ∀ w, PScalar.stemp q w ∉ ks)) →
      (((resolveValueBinds h binds r).getTemp q).key_binds =
        (h.getTemp q).key_binds) ∧
      (((resolveValueBinds h binds r).getTemp q).tuple_key_binds =
        (h.getTemp q).tuple_key_binds)) ∧
    (WFh h → WFh (resolveValueBinds h binds r)) := by
  induction binds generalizing h with
  | nil =>
      exact ⟨fun b hb => absurd hb (List.not_mem_nil b),
        fun d K _ => rfl, fun d _ => rfl, fun q => ⟨rfl, rfl⟩,
        fun q _ => ⟨rfl, rfl⟩, fun hWF => hWF⟩
  | cons b bs ih =>
      have hstep : resolveValueBinds h (b :: bs) r =
          resolveValueBinds (setItem h b.1 b.2 (.scalar (.sint r))) bs r := by
        simp [resolveValueBinds, List.foldl_cons]
      rw [hstep]
      rcases ih (setItem h b.1 b.2 (.scalar (.sint r))) with
        ⟨ihpos, ihkey, ihdict, ihvt, ihkt, ihWF⟩
      refine ⟨?_, ?_, ?_, ?_, ?_, ?_⟩
      · intro b2 hb2
        rcases List.mem_cons.mp hb2 with hb2 | hb2
        · subst hb2
          apply resolveValueBinds_preserves_rV
          rw [getDict_setItem_self, dGet?_set_self]
        · exact ihpos b2 hb2
      · intro d K hcond
        rw [ihkey d K fun b2 hb2 hd => hcond b2 (List.mem_cons_of_mem _ hb2) hd]
        by_cases hd : d = b.1
        · subst hd
          rw [getDict_setItem_self,
            dGet?_set_ne _ _ _ _ (hcond b (List.mem_cons_self _ _) rfl)]
        · rw [getDict_setItem_ne _ _ _ _ _ hd]
      · intro d hd
        simp only [List.map_cons, List.mem_cons] at hd
        push_neg at hd
        rw [ihdict d (by simpa using hd.2), getDict_setItem_ne _ _ _ _ _ hd.1]
      · intro q
        rcases ihvt q with ⟨hv, htv⟩
        rw [hv, htv]
        unfold setItem
        rcases getTemp_bindEntry_int (h.setDict b.1 (dSet (h.getDict b.1) b.2 b.2))
          b.1 b.2 r q with ⟨hv2, htv2, _, _⟩
        rcases getTemp_bindEntry_int (h.setDict b.1 (dSet (h.getDict b.1) b.2
          (.scalar (.sint r)))) b.1 b.2 r q with ⟨hv3, htv3, _, _⟩
        constructor
        · rw [hv3]
          rfl
        · rw [htv3]
          rfl
      · intro q hcond
        rcases ihkt q fun b2 hb2 => hcond b2 (List.mem_cons_of_mem _ hb2) with
          ⟨hk, htk⟩
        rw [hk, htk]
        unfold setItem
        rcases getTemp_bindEntry_int (h.setDict b.1 (dSet (h.getDict b.1) b.2
          (.scalar (.sint r)))) b.1 b.2 r q with ⟨_, _, hk3, htk3⟩
        rcases hcond b (List.mem_cons_self _ _) with ⟨hns, hnt⟩
        constructor
        · rw [hk3 hns]
          rfl
        · rw [htk3 hnt]
          rfl
      · intro hWF
        exact ihWF (WFh_setItem hWF _ _ _)

theorem resolveKeyBinds_spec (binds : List DictId) (h : Heap) (s : Serial)
    (sval r : Int) (hsr : (sval == r) = false) :
    (WFh h → ∀ d ∈ binds, ∀ v,
      dGet? (h.getDict d) (.scalar (.stemp s sval)) = some v →
      dGet? ((resolveKeyBinds h s sval binds r).getDict d)
          (.scalar (.stemp s sval)) = Option.none ∧
      dGet? ((resolveKeyBinds h s sval binds r).getDict d)
          (.scalar (.sint r)) = some v) ∧
    (∀ d, dGet? (h.getDict d) (.scalar (.stemp s sval)) = Option.none →
      (resolveKeyBinds h s sval binds r).getDict d = h.getDict d) ∧
    (∀ d K, pyEqV K (.scalar (.stemp s sval)) = false →
      pyEqV K (.scalar (.sint r)) = false →
      dGet? ((resolveKeyBinds h s sval binds r).getDict d) K =
        dGet? (h.getDict d) K) ∧
    (∀ d, d ∉ binds → (resolveKeyBinds h s sval binds r).getDict d = h.getDict d) ∧
    (∀ q, (((resolveKeyBinds h s sval binds r).getTemp q).key_binds =
        (h.getTemp q).key_binds) ∧
      (((resolveKeyBinds h s sval binds r).getTemp q).tuple_key_binds =
        (h.getTemp q).tuple_key_binds)) ∧
    (WFh h → WFh (resolveKeyBinds h s sval binds r)) := by
  have hpr : pyEqV (.scalar (.stemp s sval)) (.scalar (.sint r)) = false := by
    simp only [pyEqV, pyEqS]
    exact hsr
  have hrp : pyEqV (.scalar (.sint r)) (.scalar (.stemp s sval)) = false :=
    pyEqV_symm_false _ _ hpr
  induction binds generalizing h with
  | nil =>
      exact ⟨fun _ d hd => absurd hd (List.not_mem_nil d),
        fun d _ => rfl, fun d K _ _ => rfl, fun d _ => rfl,
        fun q => ⟨rfl, rfl⟩, fun hWF => hWF⟩
  | cons d0 bs ih =>
      have hstep : resolveKeyBinds h s sval (d0 :: bs) r =
          resolveKeyBinds
            (match dGet? (h.getDict d0) (.scalar (.stemp s sval)) with
             | Option.none => h
             | some v => setItem (h.setDict d0
                 (dErase (h.getDict d0) (.scalar (.stemp s sval)))) d0
                 (.scalar (.sint r)) v) s sval bs r := by
        simp only [resolveKeyBinds, List.foldl_cons]
      cases hcur : dGet? (h.getDict d0) (.scalar (.stemp s sval)) with
      | none =>
          rw [hstep, hcur]
          rcases ih h with ⟨ihpos, ihskip, ihkey, ihdict, ihtemps, ihWF⟩
          refine ⟨?_, ihskip, ihkey, ?_, ihtemps, ihWF⟩
          · intro hWF d hd v hv
            rcases List.mem_cons.mp hd with hd | hd
            · subst hd
              rw [hcur] at hv
              exact absurd hv (by simp)
            · exact ihpos hWF d hd v hv
          · intro d hd
            simp only [List.mem_cons] at hd
            push_neg at hd
            exact ihdict d hd.2
      | some v0 =>
          rw [hstep, hcur]
          set h0 := setItem (h.setDict d0
            (dErase (h.getDict d0) (.scalar (.stemp s sval)))) d0
            (.scalar (.sint r)) v0 with hh0
          have hget_ne : ∀ d, d ≠ d0 → h0.getDict d = h.getDict d := by
            intro d hd
            rw [getDict_setItem_ne _ _ _ _ _ hd, getDict_setDict_ne _ _ _ _ hd]
          have hget0 : h0.getDict d0 =
              dSet (dErase (h.getDict d0) (.scalar (.stemp s sval)))
                (.scalar (.sint r)) v0 := by
            rw [getDict_setItem_self, getDict_setDict_self]
          rcases ih h0 with ⟨ihpos, ihskip, ihkey, ihdict, ihtemps, ihWF⟩
          have hWF0 : WFh h → WFh h0 := by
            intro hWF
            exact WFh_setItem (WFh_setDict hWF (WFd_erase _ _ (WFd_getDict hWF d0))) _ _ _
          have hnone0 : WFh h → dGet? (h0.getDict d0) (.scalar (.stemp s sval)) =
              Option.none := by
            intro hWF
            rw [hget0, dGet?_set_ne _ _ _ _ hpr]
            exact dGet?_erase_self (WFd_getDict hWF d0)
          have hrv0 : dGet? (h0.getDict d0) (.scalar (.sint r)) = some v0 := by
            rw [hget0, dGet?_set_self]
          refine ⟨?_, ?_, ?_, ?_, ?_, fun hWF => ihWF (hWF0 hWF)⟩
          · intro hWF d hd v hv
            by_cases hdd : d = d0
            · subst hdd
              rw [hcur] at hv
              have hv0 : v = v0 := by
                injection hv with h1
                exact h1.symm
              subst hv0
              have hundone := ihskip d (hnone0 hWF)
              rw [hundone, hnone0 hWF, hrv0]
              exact ⟨rfl, rfl⟩
            · rcases List.mem_cons.mp hd with hd | hd
              · exact absurd hd hdd
              · apply ihpos (hWF0 hWF) d hd v
                rw [hget_ne d hdd]
                exact hv
          · intro d hd
            by_cases hdd : d = d0
            · subst hdd
              rw [hd] at hcur
              exact absurd hcur (by simp)
            · rw [ihskip d (by rw [hget_ne d hdd]; exact hd), hget_ne d hdd]
          · intro d K hKp hKr
            rw [ihkey d K hKp hKr]
            by_cases hdd : d = d0
            · subst hdd
              rw [hget0, dGet?_set_ne _ _ _ _ hKr, dGet?_erase_ne _ _ _ hKp]
            · rw [hget_ne d hdd]
          · intro d hd
            simp only [List.mem_cons] at hd
            push_neg at hd
            rw [ihdict d hd.2, hget_ne d hd.1]
          · intro q
            rcases ihtemps q with ⟨hk, htk⟩
            rw [hk, htk]
            rw [hh0]
            unfold setItem
            rcases getTemp_bindEntry_intkey ((h.setDict d0
              (dErase (h.getDict d0) (.scalar (.stemp s sval)))).setDict d0
              (dSet ((h.setDict d0 (dErase (h.getDict d0)
                (.scalar (.stemp s sval)))).getDict d0)
                (.scalar (.sint r)) v0)) d0 r v0 q with ⟨hk2, htk2⟩
            rw [hk2, htk2]
            exact ⟨rfl, rfl⟩

theorem resolveTupleValueBinds_spec (binds : List (DictId × PVal)) (h : Heap)
    (s : Serial) (r : Int)
    (hvals : ∀ b ∈ binds, ∃ vs, dGet? (h.getDict b.1) b.2 = some (.tup vs))
    (hpair : ∀ b1 ∈ binds, ∀ b2 ∈ binds, b1.1 = b2.1 →
      b1.2 = b2.2 ∨ pyEqV b1.2 b2.2 = false) :
    ∃ h1, resolveTupleValueBinds h s binds r = .ok h1 ∧
      (∀ b ∈ binds, ∀ vs, dGet? (h.getDict b.1) b.2 = some (.tup vs) →
        dGet? (h1.getDict b.1) b.2 = some (.tup (vs.map (substS s r)))) ∧
      (∀ d K, (∀ b ∈ binds, b.1 = d → pyEqV K b.2 = false) →
        dGet? (h1.getDict d) K = dGet? (h.getDict d) K) ∧
      (∀ d, d ∉ binds.map (·.1) → h1.getDict d = h.getDict d) ∧
      (∀ q, ((h1.getTemp q).value_binds = (h.getTemp q).value_binds) ∧
        ((h1.getTemp q).key_binds = (h.getTemp q).key_binds) ∧
        ((h1.getTemp q).tuple_key_binds = (h.getTemp q).tuple_key_binds)) ∧
      (WFh h → WFh h1) := by
  induction binds generalizing h with
  | nil =>
      exact ⟨h, rfl, fun b hb => absurd hb (List.not_mem_nil b),
        fun d K _ => rfl, fun d _ => rfl, fun q => ⟨rfl, rfl, rfl⟩,
        fun hWF => hWF⟩
  | cons b bs ih =>
      rcases hvals b (List.mem_cons_self _ _) with ⟨vs0, hb⟩
      set h0 := setItem h b.1 b.2 (.tup (vs0.map (substS s r))) with hh0
      have hstep : resolveTupleValueBinds h s (b :: bs) r =
          resolveTupleValueBinds h0 s bs r := by
        simp only [resolveTupleValueBinds, List.foldlM_cons, hb]
        rfl
      have hget_ne : ∀ d, d ≠ b.1 → h0.getDict d = h.getDict d := by
        intro d hd
        rw [hh0, getDict_setItem_ne _ _ _ _ _ hd]
      have hget0 : h0.getDict b.1 = dSet (h.getDict b.1) b.2
          (.tup (vs0.map (substS s r))) := by
        rw [hh0, getDict_setItem_self]
      have hvals0 : ∀ b2 ∈ bs, ∃ vs, dGet? (h0.getDict b2.1) b2.2 =
          some (.tup vs) := by
        intro b2 hb2
        rcases hvals b2 (List.mem_cons_of_mem _ hb2) with ⟨vs2, hv2⟩
        by_cases hd : b2.1 = b.1
        · rcases hpair b2 (List.mem_cons_of_mem _ hb2) b (List.mem_cons_self _ _)
            hd with he | hne
          · refine ⟨vs0.map (substS s r), ?_⟩
            rw [hd, he, hget0, dGet?_set_self]
          · refine ⟨vs2, ?_⟩
            rw [hd, hget0, dGet?_set_ne _ _ _ _ hne, ← hd, hv2]
        · refine ⟨vs2, ?_⟩
          rw [hget_ne _ hd, hv2]
      have hpair0 : ∀ b1 ∈ bs, ∀ b2 ∈ bs, b1.1 = b2.1 →
          b1.2 = b2.2 ∨ pyEqV b1.2 b2.2 = false := by
        intro b1 hb1 b2 hb2 hd
        exact hpair b1 (List.mem_cons_of_mem _ hb1) b2 (List.mem_cons_of_mem _ hb2) hd
      rcases ih h0 hvals0 hpair0 with ⟨h1, hok, ihpos, ihkey, ihdict, ihtemps, ihWF⟩
      refine ⟨h1, by rw [hstep]; exact hok, ?_, ?_, ?_, ?_, ?_⟩
      · intro b2 hb2 vs hv
        rcases List.mem_cons.mp hb2 with hb2 | hb2
        · rw [hb2] at hv ⊢
          have hvs : vs = vs0 := by
            have h12 := hb.symm.trans hv
            injection h12 with h1
            injection h1 with h2
            exact h2.symm
          rw [hvs]
          by_cases hex : ∃ b2 ∈ bs, b2.1 = b.1 ∧ b2.2 = b.2
          · rcases hex with ⟨b3, hb3, hd3, he3⟩
            have := ihpos b3 hb3 (vs0.map (substS s r))
              (by rw [hd3, he3, hget0, dGet?_set_self])
            rw [hd3, he3] at this
            rw [this, substS_map_idem]
          · push_neg at hex
            have hcond : ∀ b3 ∈ bs, b3.1 = b.1 → pyEqV b.2 b3.2 = false := by
              intro b3 hb3 hd3
              rcases hpair b3 (List.mem_cons_of_mem _ hb3) b
                (List.mem_cons_self _ _) hd3 with he | hne
              · exact absurd he (hex b3 hb3 hd3)
              · exact pyEqV_symm_false _ _ hne
            rw [ihkey b.1 b.2 hcond, hget0, dGet?_set_self]
        · by_cases hd : b2.1 = b.1
          · rcases hpair b2 (List.mem_cons_of_mem _ hb2) b (List.mem_cons_self _ _)
              hd with he | hne
            · have hvs : vs = vs0 := by
                rw [hd, he] at hv
                have h12 := hb.symm.trans hv
                injection h12 with h1
                injection h1 with h2
                exact h2.symm
              rw [hvs]
              have := ihpos b2 hb2 (vs0.map (substS s r))
                (by rw [hd, he, hget0, dGet?_set_self])
              rw [this, substS_map_idem]
            · exact ihpos b2 hb2 vs
                (by rw [hd, hget0, dGet?_set_ne _ _ _ _ hne, ← hd, hv])
          · exact ihpos b2 hb2 vs (by rw [hget_ne _ hd, hv])
      · intro d K hcond
        rw [ihkey d K fun b2 hb2 hd => hcond b2 (List.mem_cons_of_mem _ hb2) hd]
        by_cases hd : d = b.1
        · subst hd
          rw [hget0, dGet?_set_ne _ _ _ _ (hcond b (List.mem_cons_self _ _) rfl)]
        · rw [hget_ne _ (fun he => hd he)]
      · intro d hd
        simp only [List.map_cons, List.mem_cons] at hd
        push_neg at hd
        rw [ihdict d (by simpa using hd.2), hget_ne _ hd.1]
      · intro q
        rcases ihtemps q with ⟨hv2, hk2, htk2⟩
        rw [hv2, hk2, htk2, hh0]
        unfold setItem
        rcases getTemp_bindEntry_tup (h.setDict b.1 (dSet (h.getDict b.1) b.2
          (.tup (vs0.map (substS s r))))) b.1 b.2 (vs0.map (substS s r)) q with
          ⟨hv3, hk3, htk3, _⟩
        rw [hv3, hk3, htk3]
        exact ⟨rfl, rfl, rfl⟩
      · intro hWF
        exact ihWF (WFh_setItem hWF _ _ _)

theorem not_mem_subst_same (s : Serial) (r : Int) (ks : List PScalar) (w : Int) :
    PScalar.stemp s w ∉ ks.map (substS s r) := by
  intro hmem
  rcases List.mem_map.mp hmem with ⟨x, _, hx⟩
  exact substS_not_same s r x w hx

/-- A composite key whose components avoid the real identifier is never
Python-equal to a substituted composite key (which contains it). -/
theorem pyEqV_key_vs_target {ks ks2 : List PScalar} {s : Serial} {sval r : Int}
    (hmem : PScalar.stemp s sval ∈ ks2)
    (havoid : ∀ x ∈ ks, pyEqS x (.sint r) = false) :
    pyEqV (.tup ks) (.tup (ks2.map (substS s r))) = false :=
  pyEqV_tup_false_of_right_mem (mem_subst_of_same hmem) havoid

/-- Substitution preserves Python-inequality of composite keys whose
components avoid the real identifier and whose placeholder components are
the one placeholder object. -/
theorem substK_preserves_nonpyEq {ks1 ks2 : List PScalar} {s : Serial}
    {sval r : Int}
    (h1r : ∀ x ∈ ks1, pyEqS x (.sint r) = false)
    (h2r : ∀ x ∈ ks2, pyEqS x (.sint r) = false)
    (h1s : ∀ x ∈ ks1, isSame s x = true → x = .stemp s sval)
    (h2s : ∀ x ∈ ks2, isSame s x = true → x = .stemp s sval)
    (hne : pyEqV (.tup ks1) (.tup ks2) = false) :
    pyEqV (.tup (ks1.map (substS s r))) (.tup (ks2.map (substS s r))) = false := by
  cases hq : pyEqV (.tup (ks1.map (substS s r))) (.tup (ks2.map (substS s r)))
  · rfl
  · exfalso
    rw [pyEqV_tup_iff] at hq
    have horig : List.Forall₂ (fun a b => pyEqS a b = true) ks1 ks2 := by
      clear hne
      induction ks1 generalizing ks2 with
      | nil =>
          cases ks2 with
          | nil => exact List.Forall₂.nil
          | cons b bs => simp at hq
      | cons a as ih =>
          cases ks2 with
          | nil => simp at hq
          | cons b bs =>
              simp only [List.map_cons, List.forall₂_cons] at hq
              rcases hq with ⟨hab, hrest⟩
              have h1r' := h1r a (List.mem_cons_self _ _)
              have h2r' := h2r b (List.mem_cons_self _ _)
              refine List.Forall₂.cons ?_ (ih (fun x hx => h1r x
                (List.mem_cons_of_mem _ hx)) (fun x hx => h2r x
                (List.mem_cons_of_mem _ hx)) (fun x hx => h1s x
                (List.mem_cons_of_mem _ hx)) (fun x hx => h2s x
                (List.mem_cons_of_mem _ hx)) hrest)
              cases hsa : isSame s a
              · cases hsb : isSame s b
                · unfold substS at hab
                  rw [hsa, hsb] at hab
                  simpa using hab
                · have hb2 : b = .stemp s sval := h2s b (List.mem_cons_self _ _) hsb
                  unfold substS at hab
                  rw [hsa, hsb] at hab
                  simp only [Bool.false_eq_true, if_false, if_true] at hab
                  have : pyEqS a (.sint r) = true := hab
                  rw [h1r' ] at this
                  exact absurd this (by simp)
              · have ha2 : a = .stemp s sval := h1s a (List.mem_cons_self _ _) hsa
                cases hsb : isSame s b
                · unfold substS at hab
                  rw [hsa, hsb] at hab
                  simp only [if_true, Bool.false_eq_true, if_false] at hab
                  have h3 : pyEqS b (.sint r) = true := pyEqS_symm _ _ hab
                  rw [h2r' ] at h3
                  exact absurd h3 (by simp)
                · have hb2 : b = .stemp s sval := h2s b (List.mem_cons_self _ _) hsb
                  rw [ha2, hb2]
                  simp [pyEqS]
    rw [← pyEqV_tup_iff] at horig
    rw [horig] at hne
    exact absurd hne (by simp)

theorem resolveTupleKeyBinds_spec (binds : List (DictId × PVal)) (h : Heap)
    (s : Serial) (sval r : Int)
    (hkeys : ∀ b ∈ binds, ∃ ks, b.2 = PVal.tup ks ∧
      PScalar.stemp s sval ∈ ks ∧
      (∀ x ∈ ks, pyEqS x (.sint r) = false) ∧
      (∀ x ∈ ks, isSame s x = true → x = .stemp s sval))
    (hpair : ∀ b1 ∈ binds, ∀ b2 ∈ binds, b1.1 = b2.1 →
      b1.2 = b2.2 ∨ pyEqV b1.2 b2.2 = false) :
    ∃ h1, resolveTupleKeyBinds h s binds r = .ok h1 ∧
      (WFh h → ∀ b ∈ binds, ∀ v, dGet? (h.getDict b.1) b.2 = some v →
        dGet? (h1.getDict b.1) b.2 = Option.none ∧
        dGet? (h1.getDict b.1) (substK s r b.2) = some v) ∧
      (∀ d K, dGet? (h.getDict d) K = Option.none →
        (∀ b ∈ binds, b.1 = d → pyEqV K (substK s r b.2) = false ∨
          dGet? (h.getDict d) b.2 = Option.none) →
        dGet? (h1.getDict d) K = Option.none) ∧
      (∀ d K v, dGet? (h.getDict d) K = some v →
        (∀ b ∈ binds, b.1 = d → pyEqV K b.2 = false ∧
          (pyEqV K (substK s r b.2) = false ∨
            dGet? (h.getDict d) b.2 = Option.none)) →
        dGet? (h1.getDict d) K = some v) ∧
      (∀ d, d ∉ binds.map (·.1) → h1.getDict d = h.getDict d) ∧
      (∀ q, (h1.getTemp q).key_binds = (h.getTemp q).key_binds) ∧
      ((h1.getTemp s).tuple_key_binds = (h.getTemp s).tuple_key_binds) ∧
      (WFh h → WFh h1) := by
  induction binds generalizing h with
  | nil =>
      exact ⟨h, rfl, fun _ b hb => absurd hb (List.not_mem_nil b),
        fun d K hK _ => hK, fun d K v hK _ => hK, fun d _ => rfl,
        fun q => rfl, rfl, fun hWF => hWF⟩
  | cons b bs ih =>
      obtain ⟨bd, bk⟩ := b
      rcases hkeys (bd, bk) (List.mem_cons_self _ _) with
        ⟨ks0, hks0, hmem0, havoid0, hsame0⟩
      change bk = PVal.tup ks0 at hks0
      subst hks0
      have hsubstK : substK s r (PVal.tup ks0) =
          PVal.tup (ks0.map (substS s r)) := rfl
      have hkeys2 : ∀ b2 ∈ bs, ∃ ks, b2.2 = PVal.tup ks ∧
          PScalar.stemp s sval ∈ ks ∧
          (∀ x ∈ ks, pyEqS x (.sint r) = false) ∧
          (∀ x ∈ ks, isSame s x = true → x = .stemp s sval) :=
        fun b2 hb2 => hkeys b2 (List.mem_cons_of_mem _ hb2)
      have hpair2 : ∀ b1 ∈ bs, ∀ b2 ∈ bs, b1.1 = b2.1 →
          b1.2 = b2.2 ∨ pyEqV b1.2 b2.2 = false :=
        fun b1 hb1 b2 hb2 hd =>
          hpair b1 (List.mem_cons_of_mem _ hb1) b2 (List.mem_cons_of_mem _ hb2) hd
      -- the key of any bind is never Python-equal to any substitution target
      have hKvsT : ∀ b1 ∈ ((bd, PVal.tup ks0) :: bs),
          ∀ b2 ∈ ((bd, PVal.tup ks0) :: bs),
          pyEqV b1.2 (substK s r b2.2) = false := by
        intro b1 hb1 b2 hb2
        rcases hkeys b1 hb1 with ⟨ks1, hks1, _, havoid1, _⟩
        rcases hkeys b2 hb2 with ⟨ks2, hks2, hmem2, _, _⟩
        rw [hks1, hks2]
        exact pyEqV_key_vs_target hmem2 havoid1
      cases hcur : dGet? (h.getDict bd) (PVal.tup ks0) with
      | none =>
          have hstep : resolveTupleKeyBinds h s ((bd, PVal.tup ks0) :: bs) r =
              resolveTupleKeyBinds h s bs r := by
            simp only [resolveTupleKeyBinds, List.foldlM_cons, hcur]
            rfl
          rcases ih h hkeys2 hpair2 with
            ⟨h1, hok, ihpos, ihnone, ihsome, ihdict, ihkb, ihtkb, ihWF⟩
          refine ⟨h1, by rw [hstep]; exact hok, ?_, ?_, ?_, ?_, ihkb, ihtkb, ihWF⟩
          · intro hWF b2 hb2 v hv
            rcases List.mem_cons.mp hb2 with hb2 | hb2
            · rw [hb2] at hv
              rw [hcur] at hv
              exact absurd hv (by simp)
            · exact ihpos hWF b2 hb2 v hv
          · intro d K hK hcond
            exact ihnone d K hK fun b2 hb2 hd =>
              hcond b2 (List.mem_cons_of_mem _ hb2) hd
          · intro d K v hK hcond
            exact ihsome d K v hK fun b2 hb2 hd =>
              hcond b2 (List.mem_cons_of_mem _ hb2) hd
          · intro d hd
            simp only [List.map_cons, List.mem_cons] at hd
            push_neg at hd
            exact ihdict d (by simpa using hd.2)
      | some v0 =>
          set h0 := setItem (h.setDict bd (dErase (h.getDict bd) (PVal.tup ks0)))
            bd (PVal.tup (ks0.map (substS s r))) v0 with hh0
          have hstep : resolveTupleKeyBinds h s ((bd, PVal.tup ks0) :: bs) r =
              resolveTupleKeyBinds h0 s bs r := by
            simp only [resolveTupleKeyBinds, List.foldlM_cons, hcur]
            rfl
          have hget_ne : ∀ d, d ≠ bd → h0.getDict d = h.getDict d := by
            intro d hd
            rw [hh0, getDict_setItem_ne _ _ _ _ _ hd, getDict_setDict_ne _ _ _ _ hd]
          have hget0 : h0.getDict bd =
              dSet (dErase (h.getDict bd) (PVal.tup ks0))
                (PVal.tup (ks0.map (substS s r))) v0 := by
            rw [hh0, getDict_setItem_self, getDict_setDict_self]
          have hF1 : pyEqV (PVal.tup ks0) (PVal.tup (ks0.map (substS s r))) = false :=
            pyEqV_key_vs_target hmem0 havoid0
          have hWF0 : WFh h → WFh h0 := by
            intro hWF
            rw [hh0]
            exact WFh_setItem (WFh_setDict hWF (WFd_erase _ _ (WFd_getDict hWF bd))) _ _ _
          have hA : WFh h → dGet? (h0.getDict bd) (PVal.tup ks0) = Option.none := by
            intro hWF
            rw [hget0, dGet?_set_ne _ _ _ _ hF1]
            exact dGet?_erase_self (WFd_getDict hWF bd)
          have hB : dGet? (h0.getDict bd) (PVal.tup (ks0.map (substS s r))) =
              some v0 := by
            rw [hget0, dGet?_set_self]
          -- an absent key of a later bind stays absent across the head step
          have htransfer_none : ∀ b2 ∈ bs, b2.1 = bd →
              dGet? (h.getDict bd) b2.2 = Option.none →
              dGet? (h0.getDict bd) b2.2 = Option.none := by
            intro b2 hb2 hd hnone
            have hne : pyEqV b2.2 (PVal.tup (ks0.map (substS s r))) = false := by
              have := hKvsT b2 (List.mem_cons_of_mem _ hb2) (bd, PVal.tup ks0)
                (List.mem_cons_self _ _)
              exact this
            rw [hget0, dGet?_set_ne _ _ _ _ hne]
            exact dGet?_none_erase _ hnone
          rcases ih h0 hkeys2 hpair2 with
            ⟨h1, hok, ihpos, ihnone, ihsome, ihdict, ihkb, ihtkb, ihWF⟩
          -- the head entry ends re-keyed in the final heap
          have headNone : WFh h → dGet? (h1.getDict bd) (PVal.tup ks0) =
              Option.none := by
            intro hWF
            apply ihnone bd (PVal.tup ks0) (hA hWF)
            intro b2 hb2 hd
            left
            exact hKvsT (bd, PVal.tup ks0) (List.mem_cons_self _ _) b2
              (List.mem_cons_of_mem _ hb2)
          have headSome : WFh h →
              dGet? (h1.getDict bd) (PVal.tup (ks0.map (substS s r))) =
                some v0 := by
            intro hWF
            apply ihsome bd _ v0 hB
            intro b2 hb2 hd
            constructor
            · apply pyEqV_symm_false
              exact hKvsT b2 (List.mem_cons_of_mem _ hb2) (bd, PVal.tup ks0)
                (List.mem_cons_self _ _)
            · rcases hpair (bd, PVal.tup ks0) (List.mem_cons_self _ _) b2
                (List.mem_cons_of_mem _ hb2) hd.symm with he | hne
              · right
                rw [← he]
                exact hA hWF
              · left
                rcases hkeys2 b2 hb2 with ⟨ks2, hks2, hmem2, havoid2, hsame2⟩
                rw [hks2] at hne ⊢
                have hne2 : pyEqV (PVal.tup ks0) (PVal.tup ks2) = false := hne
                have := substK_preserves_nonpyEq havoid0 havoid2 hsame0 hsame2 hne2
                exact this
          refine ⟨h1, by rw [hstep]; exact hok, ?_, ?_, ?_, ?_, ?_, ?_,
            fun hWF => ihWF (hWF0 hWF)⟩
          · intro hWF b2 hb2 v hv
            rcases List.mem_cons.mp hb2 with hb2 | hb2
            · rw [hb2] at hv ⊢
              have hv0 : v = v0 := by
                have h12 := hcur.symm.trans hv
                injection h12 with h1
                exact h1.symm
              subst hv0
              exact ⟨headNone hWF, headSome hWF⟩
            · by_cases hd : b2.1 = bd
              · rcases hpair b2 (List.mem_cons_of_mem _ hb2) (bd, PVal.tup ks0)
                  (List.mem_cons_self _ _) hd with he | hne
                · rw [hd, he] at hv ⊢
                  have hv0 : v = v0 := by
                    have h12 := hcur.symm.trans hv
                    injection h12 with h1
                    exact h1.symm
                  subst hv0
                  exact ⟨headNone hWF, headSome hWF⟩
                · apply ihpos (hWF0 hWF) b2 hb2 v
                  have hne2 : pyEqV b2.2 (PVal.tup (ks0.map (substS s r))) = false :=
                    hKvsT b2 (List.mem_cons_of_mem _ hb2) (bd, PVal.tup ks0)
                      (List.mem_cons_self _ _)
                  rw [hd, hget0, dGet?_set_ne _ _ _ _ hne2,
                    dGet?_erase_ne _ _ _ hne, ← hd, hv]
              · apply ihpos (hWF0 hWF) b2 hb2 v
                rw [hget_ne _ hd, hv]
          · intro d K hK hcond
            by_cases hd : d = bd
            · subst hd
              rcases hcond (d, PVal.tup ks0) (List.mem_cons_self _ _) rfl with hL | hR
              · have hL2 : pyEqV K (PVal.tup (ks0.map (substS s r))) = false := hL
                apply ihnone d K (by
                  rw [hget0, dGet?_set_ne _ _ _ _ hL2]
                  exact dGet?_none_erase _ hK)
                intro b2 hb2 hd2
                rcases hcond b2 (List.mem_cons_of_mem _ hb2) hd2 with hL2 | hR2
                · exact Or.inl hL2
                · exact Or.inr (htransfer_none b2 hb2 hd2 hR2)
              · have hR2 : dGet? (h.getDict d) (PVal.tup ks0) = Option.none := hR
                exact absurd (hR2.symm.trans hcur) (by simp)
            · apply ihnone d K (by rw [hget_ne _ hd]; exact hK)
              intro b2 hb2 hd2
              rcases hcond b2 (List.mem_cons_of_mem _ hb2) hd2 with hL2 | hR2
              · exact Or.inl hL2
              · right
                rw [hget_ne _ hd]
                exact hR2
          · intro d K v hK hcond
            by_cases hd : d = bd
            · subst hd
              rcases hcond (d, PVal.tup ks0) (List.mem_cons_self _ _) rfl with
                ⟨hKb, hL | hR⟩
              · have hL2 : pyEqV K (PVal.tup (ks0.map (substS s r))) = false := hL
                have hKb2 : pyEqV K (PVal.tup ks0) = false := hKb
                apply ihsome d K v (by
                  rw [hget0, dGet?_set_ne _ _ _ _ hL2, dGet?_erase_ne _ _ _ hKb2, hK])
                intro b2 hb2 hd2
                rcases hcond b2 (List.mem_cons_of_mem _ hb2) hd2 with ⟨hKb2, hL2 | hR2⟩
                · exact ⟨hKb2, Or.inl hL2⟩
                · exact ⟨hKb2, Or.inr (htransfer_none b2 hb2 hd2 hR2)⟩
              · have hR2 : dGet? (h.getDict d) (PVal.tup ks0) = Option.none := hR
                exact absurd (hR2.symm.trans hcur) (by simp)
            · apply ihsome d K v (by rw [hget_ne _ hd]; exact hK)
              intro b2 hb2 hd2
              rcases hcond b2 (List.mem_cons_of_mem _ hb2) hd2 with ⟨hKb2, hL2 | hR2⟩
              · exact ⟨hKb2, Or.inl hL2⟩
              · refine ⟨hKb2, Or.inr ?_⟩
                rw [hget_ne _ hd]
                exact hR2
          · intro d hd
            simp only [List.map_cons, List.mem_cons] at hd
            push_neg at hd
            rw [ihdict d (by simpa using hd.2), hget_ne _ hd.1]
          · intro q
            rw [ihkb q, hh0]
            unfold setItem
            rcases getTemp_bindEntry_tupkey ((h.setDict bd
              (dErase (h.getDict bd) (PVal.tup ks0))).setDict bd
              (dSet ((h.setDict bd (dErase (h.getDict bd) (PVal.tup ks0))).getDict bd)
                (PVal.tup (ks0.map (substS s r))) v0)) bd (ks0.map (substS s r)) v0 q
              with ⟨hk2, _⟩
            rw [hk2]
            rfl
          · rw [ihtkb, hh0]
            unfold setItem
            rcases getTemp_bindEntry_tupkey ((h.setDict bd
              (dErase (h.getDict bd) (PVal.tup ks0))).setDict bd
              (dSet ((h.setDict bd (dErase (h.getDict bd) (PVal.tup ks0))).getDict bd)
                (PVal.tup (ks0.map (substS s r))) v0)) bd (ks0.map (substS s r)) v0 s
              with ⟨_, htk2⟩
            rw [htk2 fun w => not_mem_subst_same s r ks0 w]
            rfl

theorem scalarAvoids_spec {p : TempId} {r : Int} {x : PScalar}
    (hx : scalarAvoids p r x = true) :
    (∀ w, x ≠ PScalar.stemp p.serial w) ∧
    pyEqS x (.stemp p.serial p.value) = false ∧ pyEqS x (.sint r) = false := by
  unfold scalarAvoids at hx
  rw [Bool.and_eq_true, Bool.and_eq_true] at hx
  rcases hx with ⟨⟨h1, h2⟩, h3⟩
  rw [Bool.not_eq_true'] at h1 h2 h3
  refine ⟨?_, h2, h3⟩
  intro w hw
  subst hw
  simp [isSame] at h1

theorem keyAvoids_not_pyEq_pV {p : TempId} {r : Int} {K : PVal}
    (h : keyAvoids p r K = true) : pyEqV K p.valOf = false := by
  cases K with
  | scalar x => exact (scalarAvoids_spec h).2.1
  | tup ks => rfl

theorem keyAvoids_not_pyEq_rV {p : TempId} {r : Int} {K : PVal}
    (h : keyAvoids p r K = true) : pyEqV K (.scalar (.sint r)) = false := by
  cases K with
  | scalar x => exact (scalarAvoids_spec h).2.2
  | tup ks => rfl

theorem keyAvoids_scalar_cond {p : TempId} {r : Int} {K : PVal}
    (h : keyAvoids p r K = true) : ∀ w, K ≠ .scalar (.stemp p.serial w) := by
  intro w hK
  cases K with
  | scalar x =>
      injection hK with hx
      exact (scalarAvoids_spec h).1 w hx
  | tup ks => exact absurd hK (by simp)

theorem keyAvoids_tup_cond {p : TempId} {r : Int} {K : PVal}
    (h : keyAvoids p r K = true) :
    ∀ ks, K = .tup ks → ∀ w, PScalar.stemp p.serial w ∉ ks := by
  intro ks hK w hmem
  subst hK
  unfold keyAvoids at h
  rw [List.all_eq_true] at h
  exact (scalarAvoids_spec (h _ hmem)).1 w rfl

theorem keyAvoids_vs_tkbKey {p : TempId} {r : Int} {K : PVal}
    (h : keyAvoids p r K = true) {ks : List PScalar}
    (hmem : PScalar.stemp p.serial p.value ∈ ks) :
    pyEqV K (.tup ks) = false := by
  cases K with
  | scalar x => rfl
  | tup ksb =>
      apply pyEqV_tup_false_of_right_mem hmem
      intro x hx
      unfold keyAvoids at h
      rw [List.all_eq_true] at h
      exact (scalarAvoids_spec (h _ hx)).2.1

theorem keyAvoids_vs_subst {p : TempId} {r : Int} {K : PVal}
    (h : keyAvoids p r K = true) {ks : List PScalar}
    (hmem : PScalar.stemp p.serial p.value ∈ ks) :
    pyEqV K (.tup (ks.map (substS p.serial r))) = false := by
  cases K with
  | scalar x => rfl
  | tup ksb =>
      apply pyEqV_key_vs_target hmem
      intro x hx
      unfold keyAvoids at h
      rw [List.all_eq_true] at h
      exact (scalarAvoids_spec (h _ hx)).2.2

/-- C1 (amended): for every placeholder `p` with value below zero and real
identifier `r` above zero, provided the registered binds of `p` are
non-aliasing (`cleanBinds`: value and tuple-value bind keys avoid `p` and
`r`, tuple-value binds point at actual tuples and do not alias value binds,
composite keys are tuples containing `p` with no component equal to `r`,
and same-kind binds into one dict are equal or non-aliasing) and the dicts
are well-formed, `resolve(p, r)` succeeds and rewrites every registered
bind location according to its kind: every value bind ends with
`container[key] == r`; every tuple-value bind ends with exactly the
elements that were `p` replaced by `r`, other elements and order unchanged;
every key bind whose container still had `p` as a key ends with the old
entry removed and its value re-inserted under `r`; every tuple-key bind
whose composite key was still present ends re-keyed under the same tuple
with `p` substituted by `r`. -/
theorem resolve_rewrites_registered_binds (h : Heap) (p : TempId) (r : Int)
    (hWF : WFh h) (hneg : p.value < 0) (hposr : 0 < r)
    (hclean : cleanBinds h p r) :
    ∃ h4, TempId.resolve h p r = .ok h4 ∧
      (∀ b ∈ (h.getTemp p.serial).value_binds,
        dGet? (h4.getDict b.1) b.2 = some (.scalar (.sint r))) ∧
      (∀ b ∈ (h.getTemp p.serial).tuple_value_binds, ∀ vs,
        dGet? (h.getDict b.1) b.2 = some (.tup vs) →
        dGet? (h4.getDict b.1) b.2 = some (.tup (vs.map (substS p.serial r)))) ∧
      (∀ d ∈ (h.getTemp p.serial).key_binds, ∀ v,
        dGet? (h.getDict d) p.valOf = some v →
        dGet? (h4.getDict d) p.valOf = Option.none ∧
        dGet? (h4.getDict d) (.scalar (.sint r)) = some v) ∧
      (∀ b ∈ (h.getTemp p.serial).tuple_key_binds, ∀ v,
        dGet? (h.getDict b.1) b.2 = some v →
        dGet? (h4.getDict b.1) b.2 = Option.none ∧
        dGet? (h4.getDict b.1) (substK p.serial r b.2) = some v) := by
  obtain ⟨hc1, hc2, hc3⟩ := hclean
  set h1 := resolveValueBinds h ((h.getTemp p.serial).value_binds) r with hh1
  obtain ⟨sApos, sAkey, sAdict, sAvt, sAkt, sAWF⟩ :=
    resolveValueBinds_spec ((h.getTemp p.serial).value_binds) h r
  have hkt1 := sAkt p.serial (fun b hb =>
    ⟨keyAvoids_scalar_cond (hc1 b hb), keyAvoids_tup_cond (hc1 b hb)⟩)
  have hvt1 := sAvt p.serial
  have hWF1 : WFh h1 := sAWF hWF
  -- phase 2 over the original tuple-value binds
  have hvals1 : ∀ b ∈ (h.getTemp p.serial).tuple_value_binds,
      ∃ vs, dGet? (h1.getDict b.1) b.2 = some (.tup vs) := by
    intro b hb
    rcases hc2 b hb with ⟨hKA, ⟨vs, hvs⟩, hsep, hpairb⟩
    refine ⟨vs, ?_⟩
    rw [sAkey b.1 b.2 fun b2 hb2 hd => pyEqV_symm_false _ _ (hsep b2 hb2 hd)]
    exact hvs
  have hpair1 : ∀ b1 ∈ (h.getTemp p.serial).tuple_value_binds,
      ∀ b2 ∈ (h.getTemp p.serial).tuple_value_binds, b1.1 = b2.1 →
      b1.2 = b2.2 ∨ pyEqV b1.2 b2.2 = false := by
    intro b1 hb1 b2 hb2 hd
    rcases hc2 b2 hb2 with ⟨_, _, _, hpairb⟩
    exact hpairb b1 hb1 hd
  obtain ⟨h2, hok2, sBpos, sBkey, sBdict, sBtemps, sBWF⟩ :=
    resolveTupleValueBinds_spec ((h.getTemp p.serial).tuple_value_binds) h1
      p.serial r hvals1 hpair1
  have hWF2 : WFh h2 := sBWF hWF1
  have hkb2 : (h2.getTemp p.serial).key_binds = (h.getTemp p.serial).key_binds := by
    rw [(sBtemps p.serial).2.1, hkt1.1]
  -- phase 3 over the original key binds
  have hsr : (p.value == r) = false := by
    rw [beq_eq_false_iff_ne]
    omega
  set h3 := resolveKeyBinds h2 p.serial p.value ((h.getTemp p.serial).key_binds) r
    with hh3
  obtain ⟨sCpos, sCskip, sCkey, sCdict, sCtemps, sCWF⟩ :=
    resolveKeyBinds_spec ((h.getTemp p.serial).key_binds) h2 p.serial p.value r hsr
  have hWF3 : WFh h3 := sCWF hWF2
  have htkb3 : (h3.getTemp p.serial).tuple_key_binds =
      (h.getTemp p.serial).tuple_key_binds := by
    rw [(sCtemps p.serial).2, (sBtemps p.serial).2.2, hkt1.2]
  -- phase 4 over the original tuple-key binds
  have hkeys3 : ∀ b ∈ (h.getTemp p.serial).tuple_key_binds,
      ∃ ks, b.2 = PVal.tup ks ∧ PScalar.stemp p.serial p.value ∈ ks ∧
        (∀ x ∈ ks, pyEqS x (.sint r) = false) ∧
        (∀ x ∈ ks, isSame p.serial x = true → x = .stemp p.serial p.value) := by
    intro b hb
    rcases hc3 b hb with ⟨ks, hks, hmem, havoid, hsame, _⟩
    exact ⟨ks, hks, hmem, havoid, hsame⟩
  have hpair3 : ∀ b1 ∈ (h.getTemp p.serial).tuple_key_binds,
      ∀ b2 ∈ (h.getTemp p.serial).tuple_key_binds, b1.1 = b2.1 →
      b1.2 = b2.2 ∨ pyEqV b1.2 b2.2 = false := by
    intro b1 hb1 b2 hb2 hd
    rcases hc3 b2 hb2 with ⟨_, _, _, _, _, hpairb⟩
    exact hpairb b1 hb1 hd
  obtain ⟨h4, hok4, sDpos, sDnone, sDsome, sDdict, sDkb, sDtkb, sDWF⟩ :=
    resolveTupleKeyBinds_spec ((h.getTemp p.serial).tuple_key_binds) h3
      p.serial p.value r hkeys3 hpair3
  -- the computation path of resolve
  have hres0 : TempId.resolve h p r =
      (resolveTupleValueBinds h1 p.serial
        ((h1.getTemp p.serial).tuple_value_binds) r) >>= fun hh =>
        resolveTupleKeyBinds
          (resolveKeyBinds hh p.serial p.value ((hh.getTemp p.serial).key_binds) r)
          p.serial
          (((resolveKeyBinds hh p.serial p.value
            ((hh.getTemp p.serial).key_binds) r).getTemp p.serial).tuple_key_binds)
          r := rfl
  rw [hvt1.2, hok2] at hres0
  have hres1 : TempId.resolve h p r =
      resolveTupleKeyBinds
        (resolveKeyBinds h2 p.serial p.value ((h2.getTemp p.serial).key_binds) r)
        p.serial
        (((resolveKeyBinds h2 p.serial p.value
          ((h2.getTemp p.serial).key_binds) r).getTemp p.serial).tuple_key_binds)
        r := hres0.trans rfl
  rw [hkb2, ← hh3, htkb3] at hres1
  refine ⟨h4, hres1.trans hok4, ?_, ?_, ?_, ?_⟩
  · -- value binds end holding the real identifier
    intro b hb
    have hKA := hc1 b hb
    have at1 := sApos b hb
    have at2 : dGet? (h2.getDict b.1) b.2 = some (.scalar (.sint r)) := by
      rw [sBkey b.1 b.2 ?cnd]
      · exact at1
      case cnd =>
        intro e he hd
        rcases hc2 e he with ⟨_, _, hsep, _⟩
        exact hsep b hb hd.symm
    have at3 : dGet? (h3.getDict b.1) b.2 = some (.scalar (.sint r)) := by
      rw [sCkey b.1 b.2 (keyAvoids_not_pyEq_pV hKA) (keyAvoids_not_pyEq_rV hKA)]
      exact at2
    apply sDsome b.1 b.2 _ at3
    intro e he hd
    rcases hc3 e he with ⟨ks, hks, hmem, _, _, _⟩
    rw [hks]
    exact ⟨keyAvoids_vs_tkbKey hKA hmem, Or.inl (keyAvoids_vs_subst hKA hmem)⟩
  · -- tuple-value binds end with the placeholder elements substituted
    intro b hb vs hv
    rcases hc2 b hb with ⟨hKA, _, hsep, _⟩
    have at1 : dGet? (h1.getDict b.1) b.2 = some (.tup vs) := by
      rw [sAkey b.1 b.2 fun b2 hb2 hd => pyEqV_symm_false _ _ (hsep b2 hb2 hd)]
      exact hv
    have at2 := sBpos b hb vs at1
    have at3 : dGet? (h3.getDict b.1) b.2 =
        some (.tup (vs.map (substS p.serial r))) := by
      rw [sCkey b.1 b.2 (keyAvoids_not_pyEq_pV hKA) (keyAvoids_not_pyEq_rV hKA)]
      exact at2
    apply sDsome b.1 b.2 _ at3
    intro e he hd
    rcases hc3 e he with ⟨ks, hks, hmem, _, _, _⟩
    rw [hks]
    exact ⟨keyAvoids_vs_tkbKey hKA hmem, Or.inl (keyAvoids_vs_subst hKA hmem)⟩
  · -- key binds end re-keyed under the real identifier
    intro d hd v hv
    have at1 : dGet? (h1.getDict d) p.valOf = some v := by
      rw [sAkey d p.valOf fun b2 hb2 hdd =>
        pyEqV_symm_false _ _ (keyAvoids_not_pyEq_pV (hc1 b2 hb2))]
      exact hv
    have at2 : dGet? (h2.getDict d) p.valOf = some v := by
      rw [sBkey d p.valOf fun e he hdd => ?cnd2]
      · exact at1
      case cnd2 =>
        rcases hc2 e he with ⟨hKA, _, _, _⟩
        exact pyEqV_symm_false _ _ (keyAvoids_not_pyEq_pV hKA)
    obtain ⟨atN, atR⟩ := sCpos hWF2 d hd v at2
    constructor
    · apply sDnone d p.valOf atN
      intro e he hdd
      rcases hc3 e he with ⟨ks, hks, _, _, _, _⟩
      rw [hks]
      exact Or.inl rfl
    · apply sDsome d (.scalar (.sint r)) v atR
      intro e he hdd
      rcases hc3 e he with ⟨ks, hks, _, _, _, _⟩
      rw [hks]
      exact ⟨rfl, Or.inl rfl⟩
  · -- tuple-key binds end re-keyed under the substituted composite key
    intro b hb v hv
    rcases hc3 b hb with ⟨ks, hks, hmem, havoid, hsame, _⟩
    have at1 : dGet? (h1.getDict b.1) b.2 = some v := by
      rw [sAkey b.1 b.2 fun b2 hb2 hdd => ?cnd3]
      · exact hv
      case cnd3 =>
        have := keyAvoids_vs_tkbKey (hc1 b2 hb2) hmem
        rw [← hks] at this
        exact pyEqV_symm_false _ _ this
    have at2 : dGet? (h2.getDict b.1) b.2 = some v := by
      rw [sBkey b.1 b.2 fun e he hdd => ?cnd4]
      · exact at1
      case cnd4 =>
        rcases hc2 e he with ⟨hKA, _, _, _⟩
        have := keyAvoids_vs_tkbKey hKA hmem
        rw [← hks] at this
        exact pyEqV_symm_false _ _ this
    have at3 : dGet? (h3.getDict b.1) b.2 = some v := by
      rw [sCkey b.1 b.2 (by rw [hks]; rfl) (by rw [hks]; rfl)]
      exact at2
    exact sDpos hWF3 b hb v at3

/-!
Growth of the bind registries: no operation of `resolve` ever removes a
bind list entry.
-/

theorem ListGrew_refl (l : List α) : ListGrew l l := ⟨[], by simp⟩

theorem ListGrew_trans {l1 l2 l3 : List α} (h1 : ListGrew l1 l2)
    (h2 : ListGrew l2 l3) : ListGrew l1 l3 := by
  rcases h1 with ⟨a, ha⟩
  rcases h2 with ⟨b, hb⟩
  exact ⟨a ++ b, by rw [hb, ha, List.append_assoc]⟩

theorem bindsGrow_refl (h : Heap) : bindsGrow h h := fun q =>
  ⟨ListGrew_refl _, ListGrew_refl _, ListGrew_refl _, ListGrew_refl _⟩

theorem bindsGrow_trans {h1 h2 h3 : Heap} (g1 : bindsGrow h1 h2)
    (g2 : bindsGrow h2 h3) : bindsGrow h1 h3 := by
  intro q
  rcases g1 q with ⟨a1, a2, a3, a4⟩
  rcases g2 q with ⟨b1, b2, b3, b4⟩
  exact ⟨ListGrew_trans a1 b1, ListGrew_trans a2 b2, ListGrew_trans a3 b3,
    ListGrew_trans a4 b4⟩

theorem bindsGrow_of_temps_eq {h1 h2 : Heap}
    (he : ∀ q, h2.getTemp q = h1.getTemp q) : bindsGrow h1 h2 := by
  intro q
  rw [he q]
  exact ⟨ListGrew_refl _, ListGrew_refl _, ListGrew_refl _, ListGrew_refl _⟩

theorem bindsGrow_setDict (h : Heap) (d : DictId) (pd : PDict) :
    bindsGrow h (h.setDict d pd) :=
  bindsGrow_of_temps_eq fun q => getTemp_setDict h d pd q

theorem bindsGrow_addValueBind (h : Heap) (s : Serial) (d : DictId) (k : PVal) :
    bindsGrow h (addValueBind h s d k) := by
  intro q
  rw [getTemp_addValueBind]
  by_cases hq : q = s
  · subst hq
    simp only [if_pos rfl]
    exact ⟨⟨[(d, k)], rfl⟩, ListGrew_refl _, ListGrew_refl _, ListGrew_refl _⟩
  · simp only [if_neg hq]
    exact ⟨ListGrew_refl _, ListGrew_refl _, ListGrew_refl _, ListGrew_refl _⟩

theorem bindsGrow_addTupleValueBind (h : Heap) (s : Serial) (d : DictId) (k : PVal) :
    bindsGrow h (addTupleValueBind h s d k) := by
  intro q
  rw [getTemp_addTupleValueBind]
  by_cases hq : q = s
  · subst hq
    simp only [if_pos rfl]
    exact ⟨ListGrew_refl _, ⟨[(d, k)], rfl⟩, ListGrew_refl _, ListGrew_refl _⟩
  · simp only [if_neg hq]
    exact ⟨ListGrew_refl _, ListGrew_refl _, ListGrew_refl _, ListGrew_refl _⟩

theorem bindsGrow_addKeyBind (h : Heap) (s : Serial) (d : DictId) :
    bindsGrow h (addKeyBind h s d) := by
  intro q
  rw [getTemp_addKeyBind]
  by_cases hq : q = s
  · subst hq
    simp only [if_pos rfl]
    exact ⟨ListGrew_refl _, ListGrew_refl _, ⟨[d], rfl⟩, ListGrew_refl _⟩
  · simp only [if_neg hq]
    exact ⟨ListGrew_refl _, ListGrew_refl _, ListGrew_refl _, ListGrew_refl _⟩

theorem bindsGrow_addTupleKeyBind (h : Heap) (s : Serial) (d : DictId) (k : PVal) :
    bindsGrow h (addTupleKeyBind h s d k) := by
  intro q
  rw [getTemp_addTupleKeyBind]
  by_cases hq : q = s
  · subst hq
    simp only [if_pos rfl]
    exact ⟨ListGrew_refl _, ListGrew_refl _, ListGrew_refl _, ⟨[(d, k)], rfl⟩⟩
  · simp only [if_neg hq]
    exact ⟨ListGrew_refl _, ListGrew_refl _, ListGrew_refl _, ListGrew_refl _⟩

theorem bindsGrow_fold_tvb (h : Heap) (d : DictId) (key : PVal)
    (vs : List PScalar) :
    bindsGrow h (vs.foldl (fun h v =>
      match v with
      | .stemp s _ => addTupleValueBind h s d key
      | _ => h) h) := by
  induction vs generalizing h with
  | nil => exact bindsGrow_refl h
  | cons a vs ih =>
      cases a with
      | sint n => simpa using ih h
      | sstr t => simpa using ih h
      | stemp s w =>
          simp only [List.foldl_cons]
          exact bindsGrow_trans (bindsGrow_addTupleValueBind h s d key) (ih _)

theorem bindsGrow_fold_tkb (h : Heap) (d : DictId) (key : PVal)
    (ks : List PScalar) :
    bindsGrow h (ks.foldl (fun h k =>
      match k with
      | .stemp s _ => addTupleKeyBind h s d key
      | _ => h) h) := by
  induction ks generalizing h with
  | nil => exact bindsGrow_refl h
  | cons a ks ih =>
      cases a with
      | sint n => simpa using ih h
      | sstr t => simpa using ih h
      | stemp s w =>
          simp only [List.foldl_cons]
          exact bindsGrow_trans (bindsGrow_addTupleKeyBind h s d key) (ih _)

theorem bindsGrow_bindEntry (h : Heap) (d : DictId) (k v : PVal) :
    bindsGrow h (bindEntry h d k v) := by
  cases v with
  | scalar u =>
      cases u with
      | stemp s w => exact bindsGrow_addValueBind h s d k
      | sint n =>
          cases k with
          | scalar u2 =>
              cases u2 with
              | stemp s w => exact bindsGrow_addKeyBind h s d
              | sint m => exact bindsGrow_refl h
              | sstr t => exact bindsGrow_refl h
          | tup ks => exact bindsGrow_fold_tkb h d _ ks
      | sstr t =>
          cases k with
          | scalar u2 =>
              cases u2 with
              | stemp s w => exact bindsGrow_addKeyBind h s d
              | sint m => exact bindsGrow_refl h
              | sstr t2 => exact bindsGrow_refl h
          | tup ks => exact bindsGrow_fold_tkb h d _ ks
  | tup vs => exact bindsGrow_fold_tvb h d _ vs

theorem bindsGrow_setItem (h : Heap) (d : DictId) (k v : PVal) :
    bindsGrow h (setItem h d k v) :=
  bindsGrow_trans (bindsGrow_setDict h d _) (bindsGrow_bindEntry _ d k v)

theorem bindsGrow_resolveValueBinds (h : Heap) (binds : List (DictId × PVal))
    (r : Int) : bindsGrow h (resolveValueBinds h binds r) := by
  induction binds generalizing h with
  | nil => exact bindsGrow_refl h
  | cons b bs ih =>
      have hstep : resolveValueBinds h (b :: bs) r =
          resolveValueBinds (setItem h b.1 b.2 (.scalar (.sint r))) bs r := by
        simp [resolveValueBinds, List.foldl_cons]
      rw [hstep]
      exact bindsGrow_trans (bindsGrow_setItem h b.1 b.2 _) (ih _)

theorem bindsGrow_resolveKeyBinds (h : Heap) (s : Serial) (sval : Int)
    (binds : List DictId) (r : Int) :
    bindsGrow h (resolveKeyBinds h s sval binds r) := by
  induction binds generalizing h with
  | nil => exact bindsGrow_refl h
  | cons d0 bs ih =>
      have hstep : resolveKeyBinds h s sval (d0 :: bs) r =
          resolveKeyBinds
            (match dGet? (h.getDict d0) (.scalar (.stemp s sval)) with
             | Option.none => h
             | some v => setItem (h.setDict d0
                 (dErase (h.getDict d0) (.scalar (.stemp s sval)))) d0
                 (.scalar (.sint r)) v) s sval bs r := by
        simp only [resolveKeyBinds, List.foldl_cons]
      rw [hstep]
      cases hcur : dGet? (h.getDict d0) (.scalar (.stemp s sval)) with
      | none => exact ih h
      | some v =>
          exact bindsGrow_trans (bindsGrow_trans (bindsGrow_setDict h d0 _)
            (bindsGrow_setItem _ d0 _ v)) (ih _)

/-- Effects of a successful tuple-value rewrite pass that hold without any
separation hypotheses: untouched dicts, untouched non-tuple-value
registries, and growth. -/
theorem resolveTupleValueBinds_ok_effects (binds : List (DictId × PVal))
    (h h1 : Heap) (s : Serial) (r : Int)
    (hok : resolveTupleValueBinds h s binds r = .ok h1) :
    (∀ d, d ∉ binds.map (·.1) → h1.getDict d = h.getDict d) ∧
    (∀ q, ((h1.getTemp q).value_binds = (h.getTemp q).value_binds) ∧
      ((h1.getTemp q).key_binds = (h.getTemp q).key_binds) ∧
      ((h1.getTemp q).tuple_key_binds = (h.getTemp q).tuple_key_binds)) ∧
    bindsGrow h h1 := by
  induction binds generalizing h with
  | nil =>
      have : h1 = h := by
        injection hok with h2
        exact h2.symm
      subst this
      exact ⟨fun d _ => rfl, fun q => ⟨rfl, rfl, rfl⟩, bindsGrow_refl _⟩
  | cons b bs ih =>
      rw [show resolveTupleValueBinds h s (b :: bs) r =
          (match dGet? (h.getDict b.1) b.2 with
           | some (.tup vs) => resolveTupleValueBinds
               (setItem h b.1 b.2 (.tup (vs.map (substS s r)))) s bs r
           | some (.scalar _) => .error "TypeError"
           | Option.none => .error "KeyError") from ?hred] at hok
      case hred =>
        simp only [resolveTupleValueBinds, List.foldlM_cons]
        cases dGet? (h.getDict b.1) b.2 with
        | none => rfl
        | some v => cases v <;> rfl
      cases hcur : dGet? (h.getDict b.1) b.2 with
      | none =>
          rw [hcur] at hok
          exact absurd hok (by simp)
      | some v =>
          cases v with
          | scalar u =>
              rw [hcur] at hok
              exact absurd hok (by simp)
          | tup vs =>
              rw [hcur] at hok
              set h0 := setItem h b.1 b.2 (.tup (vs.map (substS s r))) with hh0
              rcases ih h0 hok with ⟨ihdict, ihtemps, ihgrow⟩
              refine ⟨?_, ?_, ?_⟩
              · intro d hd
                simp only [List.map_cons, List.mem_cons] at hd
                push_neg at hd
                rw [ihdict d (by simpa using hd.2), hh0,
                  getDict_setItem_ne _ _ _ _ _ hd.1]
              · intro q
                rcases ihtemps q with ⟨hv, hk, htk⟩
                rw [hv, hk, htk, hh0]
                unfold setItem
                rcases getTemp_bindEntry_tup (h.setDict b.1 (dSet (h.getDict b.1)
                  b.2 (.tup (vs.map (substS s r))))) b.1 b.2
                  (vs.map (substS s r)) q with ⟨hv3, hk3, htk3, _⟩
                rw [hv3, hk3, htk3]
                exact ⟨rfl, rfl, rfl⟩
              · exact bindsGrow_trans (bindsGrow_setItem h b.1 b.2 _) ihgrow

/-- Effects of a successful tuple-key rewrite pass that hold without any
separation hypotheses: untouched dicts, untouched key registries, an
untouched tuple-key registry for the resolved serial, and growth. -/
theorem resolveTupleKeyBinds_ok_effects (binds : List (DictId × PVal))
    (h h1 : Heap) (s : Serial) (r : Int)
    (hok : resolveTupleKeyBinds h s binds r = .ok h1) :
    (∀ d, d ∉ binds.map (·.1) → h1.getDict d = h.getDict d) ∧
    (∀ q, (h1.getTemp q).key_binds = (h.getTemp q).key_binds) ∧
    ((h1.getTemp s).tuple_key_binds = (h.getTemp s).tuple_key_binds) ∧
    bindsGrow h h1 := by
  induction binds generalizing h with
  | nil =>
      have : h1 = h := by
        injection hok with h2
        exact h2.symm
      subst this
      exact ⟨fun d _ => rfl, fun q => rfl, rfl, bindsGrow_refl _⟩
  | cons b bs ih =>
      obtain ⟨bd, bk⟩ := b
      cases bk with
      | scalar u =>
          rw [show resolveTupleKeyBinds h s ((bd, PVal.scalar u) :: bs) r =
              .error "TypeError" from by
            simp only [resolveTupleKeyBinds, List.foldlM_cons]
            rfl] at hok
          exact absurd hok (by simp)
      | tup ks =>
          rw [show resolveTupleKeyBinds h s ((bd, PVal.tup ks) :: bs) r =
              (match dGet? (h.getDict bd) (PVal.tup ks) with
               | Option.none => resolveTupleKeyBinds h s bs r
               | some v => resolveTupleKeyBinds (setItem (h.setDict bd
                   (dErase (h.getDict bd) (PVal.tup ks))) bd
                   (PVal.tup (ks.map (substS s r))) v) s bs r) from by
            simp only [resolveTupleKeyBinds, List.foldlM_cons]
            cases dGet? (h.getDict bd) (PVal.tup ks) <;> rfl] at hok
          cases hcur : dGet? (h.getDict bd) (PVal.tup ks) with
          | none =>
              rw [hcur] at hok
              rcases ih h hok with ⟨ihdict, ihkb, ihtkb, ihgrow⟩
              refine ⟨?_, ihkb, ihtkb, ihgrow⟩
              intro d hd
              simp only [List.map_cons, List.mem_cons] at hd
              push_neg at hd
              exact ihdict d (by simpa using hd.2)
          | some v =>
              rw [hcur] at hok
              set h0 := setItem (h.setDict bd (dErase (h.getDict bd) (PVal.tup ks)))
                bd (PVal.tup (ks.map (substS s r))) v with hh0
              rcases ih h0 hok with ⟨ihdict, ihkb, ihtkb, ihgrow⟩
              refine ⟨?_, ?_, ?_, ?_⟩
              · intro d hd
                simp only [List.map_cons, List.mem_cons] at hd
                push_neg at hd
                rw [ihdict d (by simpa using hd.2), hh0,
                  getDict_setItem_ne _ _ _ _ _ hd.1,
                  getDict_setDict_ne _ _ _ _ hd.1]
              · intro q
                rw [ihkb q, hh0]
                unfold setItem
                rcases getTemp_bindEntry_tupkey ((h.setDict bd
                  (dErase (h.getDict bd) (PVal.tup ks))).setDict bd
                  (dSet ((h.setDict bd (dErase (h.getDict bd)
                    (PVal.tup ks))).getDict bd)
                    (PVal.tup (ks.map (substS s r))) v)) bd
                  (ks.map (substS s r)) v q with ⟨hk2, _⟩
                rw [hk2]
                rfl
              · rw [ihtkb, hh0]
                unfold setItem
                rcases getTemp_bindEntry_tupkey ((h.setDict bd
                  (dErase (h.getDict bd) (PVal.tup ks))).setDict bd
                  (dSet ((h.setDict bd (dErase (h.getDict bd)
                    (PVal.tup ks))).getDict bd)
                    (PVal.tup (ks.map (substS s r))) v)) bd
                  (ks.map (substS s r)) v s with ⟨_, htk2⟩
                rw [htk2 fun w => not_mem_subst_same s r ks w]
                rfl
              · exact bindsGrow_trans (bindsGrow_trans (bindsGrow_setDict h bd _)
                  (bindsGrow_setItem _ bd _ v)) ihgrow

theorem resolve_ok_decomp (h : Heap) (p : TempId) (r : Int) (h4 : Heap)
    (hok : TempId.resolve h p r = .ok h4) :
    ∃ h2, resolveTupleValueBinds (resolveValueBinds h
        ((h.getTemp p.serial).value_binds) r) p.serial
        (((resolveValueBinds h ((h.getTemp p.serial).value_binds) r).getTemp
          p.serial).tuple_value_binds) r = .ok h2 ∧
      resolveTupleKeyBinds (resolveKeyBinds h2 p.serial p.value
          ((h2.getTemp p.serial).key_binds) r) p.serial
        (((resolveKeyBinds h2 p.serial p.value ((h2.getTemp p.serial).key_binds)
          r).getTemp p.serial).tuple_key_binds) r = .ok h4 := by
  have hres0 : TempId.resolve h p r =
      (resolveTupleValueBinds (resolveValueBinds h
        ((h.getTemp p.serial).value_binds) r) p.serial
        (((resolveValueBinds h ((h.getTemp p.serial).value_binds) r).getTemp
          p.serial).tuple_value_binds) r) >>= fun hh =>
        resolveTupleKeyBinds
          (resolveKeyBinds hh p.serial p.value ((hh.getTemp p.serial).key_binds) r)
          p.serial
          (((resolveKeyBinds hh p.serial p.value
            ((hh.getTemp p.serial).key_binds) r).getTemp p.serial).tuple_key_binds)
          r := rfl
  rw [hres0] at hok
  cases hB : resolveTupleValueBinds (resolveValueBinds h
      ((h.getTemp p.serial).value_binds) r) p.serial
      (((resolveValueBinds h ((h.getTemp p.serial).value_binds) r).getTemp
        p.serial).tuple_value_binds) r with
  | error e =>
      rw [hB] at hok
      have hok2 : (Except.error e : Except String Heap) = Except.ok h4 := hok
      exact absurd hok2 (by simp)
  | ok h2 =>
      rw [hB] at hok
      have hok3 : resolveTupleKeyBinds (resolveKeyBinds h2 p.serial p.value
          ((h2.getTemp p.serial).key_binds) r) p.serial
          (((resolveKeyBinds h2 p.serial p.value ((h2.getTemp p.serial).key_binds)
            r).getTemp p.serial).tuple_key_binds) r = .ok h4 := hok
      exact ⟨h2, rfl, hok3⟩

/-- Resolution of a placeholder with four empty bind lists is the identity. -/
theorem resolve_of_no_binds (h : Heap) (p : TempId) (r : Int)
    (hb : h.getTemp p.serial = TempIdBinds.none) :
    TempId.resolve h p r = .ok h := by
  have h1eq : resolveValueBinds h ((h.getTemp p.serial).value_binds) r = h := by
    rw [hb]
    rfl
  have hres0 : TempId.resolve h p r =
      (resolveTupleValueBinds (resolveValueBinds h
        ((h.getTemp p.serial).value_binds) r) p.serial
        (((resolveValueBinds h ((h.getTemp p.serial).value_binds) r).getTemp
          p.serial).tuple_value_binds) r) >>= fun hh =>
        resolveTupleKeyBinds
          (resolveKeyBinds hh p.serial p.value ((hh.getTemp p.serial).key_binds) r)
          p.serial
          (((resolveKeyBinds hh p.serial p.value
            ((hh.getTemp p.serial).key_binds) r).getTemp p.serial).tuple_key_binds)
          r := rfl
  rw [hres0, h1eq, hb]
  have h2eq : resolveTupleValueBinds h p.serial
      (TempIdBinds.none.tuple_value_binds) r = .ok h := rfl
  rw [h2eq]
  have h3eq : resolveKeyBinds h p.serial p.value
      ((h.getTemp p.serial).key_binds) r = h := by
    rw [hb]
    rfl
  show resolveTupleKeyBinds (resolveKeyBinds h p.serial p.value
      ((h.getTemp p.serial).key_binds) r) p.serial
      (((resolveKeyBinds h p.serial p.value ((h.getTemp p.serial).key_binds)
        r).getTemp p.serial).tuple_key_binds) r = .ok h
  rw [h3eq, hb]
  rfl

/-- The key-bind rewrite loop leaves any dict that no longer has the
placeholder as a key entirely unchanged (silent skip). -/
theorem resolveKeyBinds_skip (binds : List DictId) (h : Heap) (s : Serial)
    (sval r : Int) (d : DictId)
    (habs : dGet? (h.getDict d) (.scalar (.stemp s sval)) = Option.none) :
    (resolveKeyBinds h s sval binds r).getDict d = h.getDict d := by
  induction binds generalizing h with
  | nil => rfl
  | cons d0 bs ih =>
      have hstep : resolveKeyBinds h s sval (d0 :: bs) r =
          resolveKeyBinds
            (match dGet? (h.getDict d0) (.scalar (.stemp s sval)) with
             | Option.none => h
             | some v => setItem (h.setDict d0
                 (dErase (h.getDict d0) (.scalar (.stemp s sval)))) d0
                 (.scalar (.sint r)) v) s sval bs r := by
        simp only [resolveKeyBinds, List.foldl_cons]
      rw [hstep]
      cases hcur : dGet? (h.getDict d0) (.scalar (.stemp s sval)) with
      | none => exact ih h habs
      | some v =>
          by_cases hdd : d = d0
          · subst hdd
            rw [habs] at hcur
            exact absurd hcur (by simp)
          · have hne : ∀ pd, ((h.setDict d0 pd).setDict d0
                (dSet ((h.setDict d0 pd).getDict d0) (.scalar (.sint r))
                  v)).getDict d = h.getDict d := by
              intro pd
              rw [getDict_setDict_ne _ _ _ _ hdd, getDict_setDict_ne _ _ _ _ hdd]
            have hgd : (setItem (h.setDict d0
                (dErase (h.getDict d0) (.scalar (.stemp s sval)))) d0
                (.scalar (.sint r)) v).getDict d = h.getDict d := by
              rw [getDict_setItem_ne _ _ _ _ _ hdd, getDict_setDict_ne _ _ _ _ hdd]
            rw [ih _ (by rw [hgd]; exact habs), hgd]

/-- The key-bind rewrite loop never touches a dict outside its bind list. -/
theorem resolveKeyBinds_dict_frame (binds : List DictId) (h : Heap) (s : Serial)
    (sval r : Int) (d : DictId) (hd : d ∉ binds) :
    (resolveKeyBinds h s sval binds r).getDict d = h.getDict d := by
  induction binds generalizing h with
  | nil => rfl
  | cons d0 bs ih =>
      have hstep : resolveKeyBinds h s sval (d0 :: bs) r =
          resolveKeyBinds
            (match dGet? (h.getDict d0) (.scalar (.stemp s sval)) with
             | Option.none => h
             | some v => setItem (h.setDict d0
                 (dErase (h.getDict d0) (.scalar (.stemp s sval)))) d0
                 (.scalar (.sint r)) v) s sval bs r := by
        simp only [resolveKeyBinds, List.foldl_cons]
      rw [hstep]
      simp only [List.mem_cons] at hd
      push_neg at hd
      cases hcur : dGet? (h.getDict d0) (.scalar (.stemp s sval)) with
      | none => exact ih h hd.2
      | some v =>
          have hgd : (setItem (h.setDict d0
              (dErase (h.getDict d0) (.scalar (.stemp s sval)))) d0
              (.scalar (.sint r)) v).getDict d = h.getDict d := by
            rw [getDict_setItem_ne _ _ _ _ _ hd.1, getDict_setDict_ne _ _ _ _ hd.1]
          rw [ih _ hd.2, hgd]

/-- The key-bind rewrite loop never changes any key or tuple-key registry. -/
theorem resolveKeyBinds_registries_stable (binds : List DictId) (h : Heap)
    (s : Serial) (sval r : Int) (q : Serial) :
    (((resolveKeyBinds h s sval binds r).getTemp q).key_binds =
      (h.getTemp q).key_binds) ∧
    (((resolveKeyBinds h s sval binds r).getTemp q).tuple_key_binds =
      (h.getTemp q).tuple_key_binds) := by
  induction binds generalizing h with
  | nil => exact ⟨rfl, rfl⟩
  | cons d0 bs ih =>
      have hstep : resolveKeyBinds h s sval (d0 :: bs) r =
          resolveKeyBinds
            (match dGet? (h.getDict d0) (.scalar (.stemp s sval)) with
             | Option.none => h
             | some v => setItem (h.setDict d0
                 (dErase (h.getDict d0) (.scalar (.stemp s sval)))) d0
                 (.scalar (.sint r)) v) s sval bs r := by
        simp only [resolveKeyBinds, List.foldl_cons]
      rw [hstep]
      cases hcur : dGet? (h.getDict d0) (.scalar (.stemp s sval)) with
      | none => exact ih h
      | some v =>
          rcases ih (setItem (h.setDict d0
            (dErase (h.getDict d0) (.scalar (.stemp s sval)))) d0
            (.scalar (.sint r)) v) with ⟨hk, htk⟩
          rw [hk, htk]
          unfold setItem
          rcases getTemp_bindEntry_intkey ((h.setDict d0
            (dErase (h.getDict d0) (.scalar (.stemp s sval)))).setDict d0
            (dSet ((h.setDict d0 (dErase (h.getDict d0)
              (.scalar (.stemp s sval)))).getDict d0) (.scalar (.sint r)) v))
            d0 r v q with ⟨hk2, htk2⟩
          rw [hk2, htk2]
          exact ⟨rfl, rfl⟩

/-- The tuple-key rewrite loop (when it succeeds) leaves a dict none of
whose bound composite keys are present entirely unchanged (silent skip). -/
theorem resolveTupleKeyBinds_skip (binds : List (DictId × PVal)) (h : Heap)
    (s : Serial) (r : Int) (h1 : Heap) (d : DictId)
    (hok : resolveTupleKeyBinds h s binds r = .ok h1)
    (habs : ∀ K, (d, K) ∈ binds → dGet? (h.getDict d) K = Option.none) :
    h1.getDict d = h.getDict d := by
  induction binds generalizing h with
  | nil =>
      injection hok with h2
      rw [h2]
  | cons b bs ih =>
      obtain ⟨bd, bk⟩ := b
      cases bk with
      | scalar u =>
          rw [show resolveTupleKeyBinds h s ((bd, PVal.scalar u) :: bs) r =
              .error "TypeError" from by
            simp only [resolveTupleKeyBinds, List.foldlM_cons]
            rfl] at hok
          exact absurd hok (by simp)
      | tup ks =>
          rw [show resolveTupleKeyBinds h s ((bd, PVal.tup ks) :: bs) r =
              (match dGet? (h.getDict bd) (PVal.tup ks) with
               | Option.none => resolveTupleKeyBinds h s bs r
               | some v => resolveTupleKeyBinds (setItem (h.setDict bd
                   (dErase (h.getDict bd) (PVal.tup ks))) bd
                   (PVal.tup (ks.map (substS s r))) v) s bs r) from by
            simp only [resolveTupleKeyBinds, List.foldlM_cons]
            cases dGet? (h.getDict bd) (PVal.tup ks) <;> rfl] at hok
          cases hcur : dGet? (h.getDict bd) (PVal.tup ks) with
          | none =>
              rw [hcur] at hok
              exact ih h hok fun K hK => habs K (List.mem_cons_of_mem _ hK)
          | some v =>
              rw [hcur] at hok
              by_cases hdd : d = bd
              · subst hdd
                have := habs (PVal.tup ks) (List.mem_cons_self _ _)
                rw [this] at hcur
                exact absurd hcur (by simp)
              · have hgd : (setItem (h.setDict bd
                    (dErase (h.getDict bd) (PVal.tup ks))) bd
                    (PVal.tup (ks.map (substS s r))) v).getDict d =
                    h.getDict d := by
                  rw [getDict_setItem_ne _ _ _ _ _ hdd,
                    getDict_setDict_ne _ _ _ _ hdd]
                rw [ih _ hok fun K hK => by
                  rw [hgd]
                  exact habs K (List.mem_cons_of_mem _ hK), hgd]

theorem getDict_congr (h1 h2 : Heap) (d : DictId) (hd : h1.dicts = h2.dicts) :
    h1.getDict d = h2.getDict d := by
  unfold Heap.getDict
  rw [hd]

/-- `remove_key_bind` never changes any dict. -/
theorem removeKeyBind_ok_dicts (h : Heap) (s : Serial) (d : DictId) (h1 : Heap)
    (hok : removeKeyBind h s d = .ok h1) : h1.dicts = h.dicts := by
  have hred : removeKeyBind h s d =
      (listRemove (h.getTemp s).key_binds fun x => x == d) >>= fun l =>
        .ok (h.setTemp s { h.getTemp s with key_binds := l }) := rfl
  rw [hred] at hok
  cases hr : listRemove (h.getTemp s).key_binds fun x => x == d with
  | error e =>
      rw [hr] at hok
      have hok2 : (Except.error e : Except String Heap) = .ok h1 := hok
      exact absurd hok2 (by simp)
  | ok l =>
      rw [hr] at hok
      have hok2 : (Except.ok (h.setTemp s { h.getTemp s with key_binds := l }) :
          Except String Heap) = .ok h1 := hok
      injection hok2 with h2
      rw [← h2]
      rfl

/-- `remove_tuple_key_bind` never changes any dict. -/
theorem removeTupleKeyBind_ok_dicts (h : Heap) (s : Serial) (d : DictId)
    (k : PVal) (h1 : Heap) (hok : removeTupleKeyBind h s d k = .ok h1) :
    h1.dicts = h.dicts := by
  have hred : removeTupleKeyBind h s d k =
      (listRemove (h.getTemp s).tuple_key_binds
        fun e => e.1 == d && pyEqV e.2 k) >>= fun l =>
        .ok (h.setTemp s { h.getTemp s with tuple_key_binds := l }) := rfl
  rw [hred] at hok
  cases hr : listRemove (h.getTemp s).tuple_key_binds
      fun e => e.1 == d && pyEqV e.2 k with
  | error e =>
      rw [hr] at hok
      have hok2 : (Except.error e : Except String Heap) = .ok h1 := hok
      exact absurd hok2 (by simp)
  | ok l =>
      rw [hr] at hok
      have hok2 : (Except.ok (h.setTemp s
          { h.getTemp s with tuple_key_binds := l }) :
          Except String Heap) = .ok h1 := hok
      injection hok2 with h2
      rw [← h2]
      rfl

theorem fold_removeTupleKeyBind_ok_dicts (ks : List PScalar) (h : Heap)
    (d : DictId) (key : PVal) (h1 : Heap)
    (hok : ks.foldlM (fun h k =>
      match k with
      | .stemp s _ => removeTupleKeyBind h s d key
      | _ => pure h) h = .ok h1) : h1.dicts = h.dicts := by
  induction ks generalizing h with
  | nil =>
      have hok2 : (Except.ok h : Except String Heap) = .ok h1 := hok
      injection hok2 with h2
      rw [h2]
  | cons a ks ih =>
      simp only [List.foldlM_cons] at hok
      cases a with
      | sint n => exact ih h hok
      | sstr t => exact ih h hok
      | stemp s w =>
          have hok1 : removeTupleKeyBind h s d key >>= (fun h2 =>
              ks.foldlM (fun h k =>
                match k with
                | .stemp s _ => removeTupleKeyBind h s d key
                | _ => pure h) h2) = .ok h1 := hok
          cases hr : removeTupleKeyBind h s d key with
          | error e =>
              rw [hr] at hok1
              have hok2 : (Except.error e : Except String Heap) = .ok h1 := hok1
              exact absurd hok2 (by simp)
          | ok h2 =>
              rw [hr] at hok1
              have hok3 := ih h2 hok1
              rw [hok3, removeTupleKeyBind_ok_dicts h s d key h2 hr]

/-- `_unbind` never changes any dict. -/
theorem unbindKey_ok_dicts (h : Heap) (d : DictId) (key : PVal) (h1 : Heap)
    (hok : unbindKey h d key = .ok h1) : h1.dicts = h.dicts := by
  cases key with
  | scalar u =>
      cases u with
      | sint n =>
          have hok2 : (Except.ok h : Except String Heap) = .ok h1 := hok
          injection hok2 with h2
          rw [h2]
      | sstr t =>
          have hok2 : (Except.ok h : Except String Heap) = .ok h1 := hok
          injection hok2 with h2
          rw [h2]
      | stemp s w => exact removeKeyBind_ok_dicts h s d h1 hok
  | tup ks => exact fold_removeTupleKeyBind_ok_dicts ks h d (.tup ks) h1 hok

/-- A successful `__delitem__` required the key to be present, and its only
effect on the dict store is erasing that entry from that dict. -/
theorem delItem_ok_dicts (h : Heap) (d : DictId) (K : PVal) (h1 : Heap)
    (hok : delItem h d K = .ok h1) :
    dContains (h.getDict d) K = true ∧
      h1.dicts = (h.setDict d (dErase (h.getDict d) K)).dicts := by
  cases hc : dContains (h.getDict d) K with
  | false =>
      unfold delItem at hok
      rw [hc] at hok
      exact absurd hok (by simp)
  | true =>
      unfold delItem at hok
      rw [hc] at hok
      simp only [if_true] at hok
      exact ⟨rfl, unbindKey_ok_dicts _ _ _ _ hok⟩

/-- Storing a plain-integer value can only add a key bind for the dict being
written to. -/
theorem setItem_int_kb_mem (h : Heap) (d : DictId) (K : PVal) (r : Int)
    (q : Serial) (x : DictId)
    (hx : x ∈ ((setItem h d K (.scalar (.sint r))).getTemp q).key_binds) :
    x ∈ (h.getTemp q).key_binds ∨ x = d := by
  unfold setItem at hx
  cases K with
  | scalar u =>
      cases u with
      | sint m => exact Or.inl hx
      | sstr t => exact Or.inl hx
      | stemp s w =>
          have hred : bindEntry (h.setDict d (dSet (h.getDict d)
              (.scalar (.stemp s w)) (.scalar (.sint r)))) d
              (.scalar (.stemp s w)) (.scalar (.sint r)) =
              addKeyBind (h.setDict d (dSet (h.getDict d)
                (.scalar (.stemp s w)) (.scalar (.sint r)))) s d := rfl
          rw [hred, getTemp_addKeyBind] at hx
          by_cases hq : q = s
          · rw [if_pos hq] at hx
            have hx2 : x ∈ ((h.setDict d (dSet (h.getDict d)
                (.scalar (.stemp s w)) (.scalar (.sint r)))).getTemp q).key_binds
                ++ [d] := hx
            rcases List.mem_append.mp hx2 with hx3 | hx3
            · exact Or.inl (by rw [getTemp_setDict] at hx3; exact hx3)
            · exact Or.inr (by simpa using hx3)
          · rw [if_neg hq, getTemp_setDict] at hx
            exact Or.inl hx
  | tup ks =>
      have hred : bindEntry (h.setDict d (dSet (h.getDict d)
          (.tup ks) (.scalar (.sint r)))) d (.tup ks) (.scalar (.sint r)) =
          ks.foldl (fun h k =>
            match k with
            | .stemp s _ => addTupleKeyBind h s d (.tup ks)
            | _ => h) (h.setDict d (dSet (h.getDict d)
              (.tup ks) (.scalar (.sint r)))) := rfl
      rw [hred] at hx
      rcases getTemp_fold_tkb ks (h.setDict d (dSet (h.getDict d)
        (.tup ks) (.scalar (.sint r)))) d (.tup ks) q with ⟨_, hk, _, _, _⟩
      rw [hk, getTemp_setDict] at hx
      exact Or.inl hx

/-- Storing a plain-integer value can only add tuple-key binds for the dict
being written to. -/
theorem setItem_int_tkb_mem (h : Heap) (d : DictId) (K : PVal) (r : Int)
    (q : Serial) (e : DictId × PVal)
    (he : e ∈ ((setItem h d K (.scalar (.sint r))).getTemp q).tuple_key_binds) :
    e ∈ (h.getTemp q).tuple_key_binds ∨ e.1 = d := by
  unfold setItem at he
  cases K with
  | scalar u =>
      cases u with
      | sint m => exact Or.inl he
      | sstr t => exact Or.inl he
      | stemp s w =>
          have hred : bindEntry (h.setDict d (dSet (h.getDict d)
              (.scalar (.stemp s w)) (.scalar (.sint r)))) d
              (.scalar (.stemp s w)) (.scalar (.sint r)) =
              addKeyBind (h.setDict d (dSet (h.getDict d)
                (.scalar (.stemp s w)) (.scalar (.sint r)))) s d := rfl
          rw [hred, getTemp_addKeyBind_tkb, getTemp_setDict] at he
          exact Or.inl he
  | tup ks =>
      have hred : bindEntry (h.setDict d (dSet (h.getDict d)
          (.tup ks) (.scalar (.sint r)))) d (.tup ks) (.scalar (.sint r)) =
          ks.foldl (fun h k =>
            match k with
            | .stemp s _ => addTupleKeyBind h s d (.tup ks)
            | _ => h) (h.setDict d (dSet (h.getDict d)
              (.tup ks) (.scalar (.sint r)))) := rfl
      rw [hred] at he
      rcases getTemp_fold_tkb ks (h.setDict d (dSet (h.getDict d)
        (.tup ks) (.scalar (.sint r)))) d (.tup ks) q with ⟨_, _, _, ⟨l, hl, hlx⟩, _⟩
      rw [hl, getTemp_setDict] at he
      rcases List.mem_append.mp he with he2 | he2
      · exact Or.inl he2
      · exact Or.inr (by rw [hlx e he2])

/-- Any key bind present after the value-bind rewrite loop was either
already registered or points into one of the dicts named by the loop's own
bind list. -/
theorem resolveValueBinds_kb_mem (binds : List (DictId × PVal)) (h : Heap)
    (r : Int) (q : Serial) (x : DictId)
    (hx : x ∈ ((resolveValueBinds h binds r).getTemp q).key_binds) :
    x ∈ (h.getTemp q).key_binds ∨ x ∈ binds.map (·.1) := by
  induction binds generalizing h with
  | nil => exact Or.inl hx
  | cons b bs ih =>
      have hstep : resolveValueBinds h (b :: bs) r =
          resolveValueBinds (setItem h b.1 b.2 (.scalar (.sint r))) bs r := by
        simp only [resolveValueBinds, List.foldl_cons]
      rw [hstep] at hx
      rcases ih (setItem h b.1 b.2 (.scalar (.sint r))) hx with hx2 | hx2
      · rcases setItem_int_kb_mem h b.1 b.2 r q x hx2 with hx3 | hx3
        · exact Or.inl hx3
        · exact Or.inr (by simp [hx3])
      · exact Or.inr (by simp [List.mem_cons]; right; simpa using hx2)

/-- Any tuple-key bind present after the value-bind rewrite loop was either
already registered or points into one of the dicts named by the loop's own
bind list. -/
theorem resolveValueBinds_tkb_mem (binds : List (DictId × PVal)) (h : Heap)
    (r : Int) (q : Serial) (e : DictId × PVal)
    (he : e ∈ ((resolveValueBinds h binds r).getTemp q).tuple_key_binds) :
    e ∈ (h.getTemp q).tuple_key_binds ∨ e.1 ∈ binds.map (·.1) := by
  induction binds generalizing h with
  | nil => exact Or.inl he
  | cons b bs ih =>
      have hstep : resolveValueBinds h (b :: bs) r =
          resolveValueBinds (setItem h b.1 b.2 (.scalar (.sint r))) bs r := by
        simp only [resolveValueBinds, List.foldl_cons]
      rw [hstep] at he
      rcases ih (setItem h b.1 b.2 (.scalar (.sint r))) he with he2 | he2
      · rcases setItem_int_tkb_mem h b.1 b.2 r q e he2 with he3 | he3
        · exact Or.inl he3
        · exact Or.inr (by simp [he3])
      · exact Or.inr (by simp [List.mem_cons]; right; simpa using he2)

theorem assocGet?_map_entry {κ α : Type} [BEq κ] (l : List (κ × α))
    (f : κ × α → κ × α) (hf : ∀ e, (f e).1 = e.1) (k : κ) :
    assocGet? (l.map f) k =
      (l.find? fun e => e.1 == k).map fun e => (f e).2 := by
  unfold assocGet?
  rw [find?_map_key f (fun x => x == k) hf l]
  cases l.find? fun e => e.1 == k <;> rfl

theorem assocGet?_map_fix {κ α : Type} [BEq κ] (l : List (κ × α))
    (f : κ × α → κ × α) (hf : ∀ e, (f e).1 = e.1) (k : κ)
    (hfix : ∀ e ∈ l, (e.1 == k) = true → f e = e) :
    assocGet? (l.map f) k = assocGet? l k := by
  rw [assocGet?_map_entry l f hf k]
  unfold assocGet?
  cases hfind : l.find? fun e => e.1 == k with
  | none => rfl
  | some e0 =>
      have he0 := List.mem_of_find?_eq_some hfind
      have hp : (e0.1 == k) = true := by
        have := List.find?_some hfind
        simpa using this
      simp [hfix e0 he0 hp]

theorem assocGet?_append_single_ne {κ α : Type} [BEq κ] (l : List (κ × α))
    (k k' : κ) (v : α) (hne : (k == k') = false) :
    assocGet? (l ++ [(k, v)]) k' = assocGet? l k' := by
  unfold assocGet?
  cases hfind : l.find? fun e => e.1 == k' with
  | none =>
      rw [find?_append_none _ _ _ hfind]
      simp [List.find?, hne]
  | some e0 => rw [find?_append_some _ _ _ _ hfind]

/-!
Lemmas about the shared `_next_id` counter table (`TempId.__new__`).
-/

theorem newTempIdValue_fst (g : TempIdCounters) (t : String) :
    (newTempIdValue g t).1 = g.cur t := rfl

theorem cur_of_find?_none (g : TempIdCounters) (t : String)
    (hfind : g.next_id.find? (fun e => e.1 == t) = Option.none) :
    g.cur t = -1 := by
  unfold TempIdCounters.cur assocGet?
  rw [hfind]
  rfl

theorem cur_of_find?_some (g : TempIdCounters) (t : String) (e0 : String × Int)
    (hfind : g.next_id.find? (fun e => e.1 == t) = some e0) :
    g.cur t = e0.2 := by
  unfold TempIdCounters.cur assocGet?
  rw [hfind]
  rfl

theorem cur_newTempIdValue_self (g : TempIdCounters) (t : String) :
    (newTempIdValue g t).2.cur t = g.cur t - 1 := by
  have hf : ∀ e : String × Int,
      ((if e.1 == t then (e.1, e.2 - 1) else e) : String × Int).1 = e.1 := by
    intro e
    split <;> rfl
  have hred : (newTempIdValue g t).2 = TempIdCounters.mk
      ((if g.next_id.any fun e => e.1 == t then g.next_id
        else g.next_id ++ [(t, -1)]).map
        fun e : String × Int => if e.1 == t then (e.1, e.2 - 1) else e) := rfl
  rw [hred]
  cases hany : g.next_id.any fun e => e.1 == t with
  | true =>
      rw [if_pos rfl]
      cases hfind : g.next_id.find? fun e => e.1 == t with
      | none =>
          rcases List.any_eq_true.mp hany with ⟨x, hx, hpx⟩
          have := List.find?_eq_none.mp hfind x hx
          exact absurd hpx this
      | some e0 =>
          have hp : (e0.1 == t) = true := by
            have := List.find?_some hfind
            simpa using this
          have hL : (TempIdCounters.mk (g.next_id.map
              fun e : String × Int =>
                if e.1 == t then (e.1, e.2 - 1) else e)).cur t = e0.2 - 1 := by
            unfold TempIdCounters.cur
            rw [assocGet?_map_entry g.next_id
              (fun e : String × Int => if e.1 == t then (e.1, e.2 - 1) else e)
              hf t]
            rw [hfind]
            have he0t : e0.1 = t := by simpa using hp
            simp [he0t]
          rw [hL, cur_of_find?_some g t e0 hfind]
  | false =>
      rw [if_neg (by simp)]
      have hfind : g.next_id.find? (fun e => e.1 == t) = Option.none := by
        rw [List.find?_eq_none]
        intro x hx
        have hall := List.any_eq_false.mp hany
        exact fun hc => absurd hc (by simpa using hall x hx)
      have hmn : ((g.next_id ++ [(t, -1)]).map
          fun e : String × Int => if e.1 == t then (e.1, e.2 - 1) else e).find?
          (fun e => e.1 == t) = some (t, -1 - 1) := by
        rw [find?_map_key
          (fun e : String × Int => if e.1 == t then (e.1, e.2 - 1) else e)
          (fun x => x == t) hf]
        rw [find?_append_none _ _ _ hfind]
        simp [List.find?]
      unfold TempIdCounters.cur assocGet?
      rw [hmn, hfind]
      rfl

theorem cur_newTempIdValue_ne (g : TempIdCounters) (t t' : String)
    (hne : t' ≠ t) :
    (newTempIdValue g t).2.cur t' = g.cur t' := by
  have hf : ∀ e : String × Int,
      ((if e.1 == t then (e.1, e.2 - 1) else e) : String × Int).1 = e.1 := by
    intro e
    split <;> rfl
  have hfix : ∀ (l : List (String × Int)), ∀ e ∈ l, (e.1 == t') = true →
      ((if e.1 == t then (e.1, e.2 - 1) else e) : String × Int) = e := by
    intro l e _ hp
    have he1 : e.1 = t' := by simpa using hp
    have hnt : (e.1 == t) = false := by
      rw [he1]
      exact beq_eq_false_iff_ne.mpr hne
    simp [hnt]
  have hred : (newTempIdValue g t).2 = TempIdCounters.mk
      ((if g.next_id.any fun e => e.1 == t then g.next_id
        else g.next_id ++ [(t, -1)]).map
        fun e : String × Int => if e.1 == t then (e.1, e.2 - 1) else e) := rfl
  rw [hred]
  cases hany : g.next_id.any fun e => e.1 == t with
  | true =>
      rw [if_pos rfl]
      unfold TempIdCounters.cur
      rw [assocGet?_map_fix g.next_id
        (fun e : String × Int => if e.1 == t then (e.1, e.2 - 1) else e)
        hf t' (hfix g.next_id)]
  | false =>
      rw [if_neg (by simp)]
      unfold TempIdCounters.cur
      rw [assocGet?_map_fix (g.next_id ++ [(t, -1)])
        (fun e : String × Int => if e.1 == t then (e.1, e.2 - 1) else e)
        hf t' (hfix (g.next_id ++ [(t, -1)]))]
      rw [assocGet?_append_single_ne _ _ _ _ (beq_eq_false_iff_ne.mpr
        (Ne.symm hne))]

theorem CountersInv_newTempIdValue (g : TempIdCounters) (t : String)
    (hinv : CountersInv g) : CountersInv (newTempIdValue g t).2 := by
  intro e' he'
  have hred : (newTempIdValue g t).2 = TempIdCounters.mk
      ((if g.next_id.any fun e => e.1 == t then g.next_id
        else g.next_id ++ [(t, -1)]).map
        fun e : String × Int => if e.1 == t then (e.1, e.2 - 1) else e) := rfl
  rw [hred] at he'
  rcases List.mem_map.mp he' with ⟨e, he, hfe⟩
  have he2 : e.2 ≤ -1 := by
    cases hany : g.next_id.any fun x => x.1 == t with
    | true =>
        rw [if_pos hany] at he
        exact hinv e he
    | false =>
        rw [if_neg (by simp [hany])] at he
        rcases List.mem_append.mp he with he3 | he3
        · exact hinv e he3
        · have he4 : e = (t, -1) := by simpa using he3
          rw [he4]
  rw [← hfe]
  by_cases hc : (e.1 == t) = true
  · simp only [hc, if_true]
    omega
  · simp only [hc, if_false]
    exact he2

theorem cur_le_of_CountersInv (g : TempIdCounters) (t : String)
    (hinv : CountersInv g) : g.cur t ≤ -1 := by
  cases hfind : g.next_id.find? fun e => e.1 == t with
  | none => rw [cur_of_find?_none g t hfind]
  | some e0 =>
      rw [cur_of_find?_some g t e0 hfind]
      exact hinv e0 (List.mem_of_find?_eq_some hfind)

/-- The per-type values produced by any tagged interleaved allocation run,
restricted to the allocations whose tag satisfies `P`, are bounded by the
starting counter and strictly decreasing. -/
theorem allocTagged_filter_spec {α : Type} (P : α → Bool)
    (sched : List (α × String)) (g : TempIdCounters) (t : String)
    (hinv : CountersInv g) :
    (∀ v ∈ ((allocTagged g sched).filter fun e =>
        P e.1 && (e.2.1 == t)).map (·.2.2), v ≤ g.cur t) ∧
    (((allocTagged g sched).filter fun e =>
        P e.1 && (e.2.1 == t)).map (·.2.2)).Pairwise (· > ·) := by
  induction sched generalizing g with
  | nil => exact ⟨fun v hv => absurd hv (List.not_mem_nil v), List.Pairwise.nil⟩
  | cons b rest ih =>
      obtain ⟨a, t0⟩ := b
      have hstep : allocTagged g ((a, t0) :: rest) =
          (a, t0, g.cur t0) :: allocTagged (newTempIdValue g t0).2 rest := rfl
      rw [hstep]
      have hinv1 : CountersInv (newTempIdValue g t0).2 :=
        CountersInv_newTempIdValue g t0 hinv
      obtain ⟨ihle, ihpw⟩ := ih (newTempIdValue g t0).2 hinv1
      simp only [List.filter_cons]
      cases hQ : P (a, t0, g.cur t0).1 && ((a, t0, g.cur t0).2.1 == t) with
      | false =>
          simp only [Bool.false_eq_true, if_false]
          refine ⟨?_, ihpw⟩
          intro v hv
          have hb := ihle v hv
          by_cases ht : t0 = t
          · subst ht
            rw [cur_newTempIdValue_self] at hb
            omega
          · rw [cur_newTempIdValue_ne g t0 t (fun hc => ht hc.symm)] at hb
            exact hb
      | true =>
          have ht0 : t0 = t := by
            have h2 := (Bool.and_eq_true _ _).mp hQ |>.2
            simpa using h2
          subst ht0
          simp only [if_true, List.map_cons]
          have htail : ∀ v ∈ ((allocTagged (newTempIdValue g t0).2 rest).filter
              fun e => P e.1 && (e.2.1 == t0)).map (·.2.2), v < g.cur t0 := by
            intro v hv
            have hb := ihle v hv
            rw [cur_newTempIdValue_self] at hb
            omega
          refine ⟨?_, List.Pairwise.cons (fun v hv => htail v hv) ihpw⟩
          intro v hv
          rcases List.mem_cons.mp hv with hv | hv
          · rw [hv]
          · exact le_of_lt (htail v hv)

/-- Every value a session observes for a type is among the global values
produced for that type. -/
theorem sessionValues_subset {α : Type} [BEq α] (sched : List (α × String))
    (a : α) (t : String) :
    ∀ v ∈ sessionValues sched a t, v ∈ valuesFor sched t := by
  intro v hv
  unfold sessionValues at hv
  unfold valuesFor
  rcases List.mem_map.mp hv with ⟨e, he, hev⟩
  rcases List.mem_filter.mp he with ⟨he1, he2⟩
  have h2 : (e.2.1 == t) = true := ((Bool.and_eq_true _ _).mp he2).2
  exact List.mem_map.mpr ⟨e, List.mem_filter.mpr ⟨he1, h2⟩, hev⟩

/-!
Lemmas about the view cache (`_clear_subqueries`, `_mark_as_dirty`).
-/

theorem cached?_clearSubqueries (tns : List String) (st : DiffMapState)
    (attr : String) (q : QExpr) (hc : st.cached? attr = some (some q)) :
    (clearSubqueries tns st).cached? attr =
      some (if tns.any fun t => (tablesOf q).contains t then Option.none
        else some q) := by
  have hF : ∀ e : String × Option QExpr,
      ((match e.2 with
        | Option.none => e
        | some q2 =>
            if tns.any fun t => (tablesOf q2).contains t then (e.1, Option.none)
            else e) : String × Option QExpr).1 = e.1 := by
    intro e
    rcases e with ⟨k0, v0⟩
    cases v0 with
    | none => rfl
    | some q2 =>
        show ((if tns.any fun t => (tablesOf q2).contains t
          then (k0, Option.none) else (k0, some q2)) :
            String × Option QExpr).1 = k0
        split <;> rfl
  unfold DiffMapState.cached? at hc ⊢
  unfold clearSubqueries
  unfold assocGet? at hc
  cases hfind : st.cache.find? fun e => e.1 == attr with
  | none =>
      rw [hfind] at hc
      exact absurd hc (by simp)
  | some e0 =>
      rw [hfind] at hc
      have he02 : e0.2 = some q := by simpa using hc
      rw [assocGet?_map_entry st.cache
        (fun e : String × Option QExpr =>
          match e.2 with
          | Option.none => e
          | some q2 =>
              if tns.any fun t => (tablesOf q2).contains t
              then (e.1, Option.none) else e)
        hF attr, hfind]
      obtain ⟨k0, v0⟩ := e0
      change v0 = some q at he02
      subst he02
      show some ((if tns.any fun t => (tablesOf q).contains t
        then (k0, Option.none) else (k0, some q)) : String × Option QExpr).2 =
        some (if tns.any fun t => (tablesOf q).contains t then Option.none
          else some q)
      by_cases hcond : (tns.any fun t => (tablesOf q).contains t) = true
      · rw [if_pos hcond, if_pos hcond]
      · rw [if_neg hcond, if_neg hcond]

theorem cached?_markAsDirty (t : String) (ids : List Int) (st : DiffMapState)
    (attr : String) (q : QExpr) (hc : st.cached? attr = some (some q)) :
    (markAsDirty t ids st).cached? attr =
      some (if (tablesOf q).contains t then Option.none else some q) := by
  unfold markAsDirty
  have hc2 : ({ st with dirty_item_id :=
      if st.dirty_item_id.any fun e => e.1 == t then
        st.dirty_item_id.map fun e => if e.1 == t then (e.1, e.2 ++ ids) else e
      else st.dirty_item_id ++ [(t, ids)] } : DiffMapState).cached? attr =
      some (some q) := hc
  rw [cached?_clearSubqueries [t] _ attr q hc2]
  congr 1
  simp

theorem removeKeyBind_cases (h : Heap) (s : Serial) (d : DictId) :
    (d ∈ (h.getTemp s).key_binds →
      removeKeyBind h s d = .ok (h.setTemp s { h.getTemp s with
        key_binds := (h.getTemp s).key_binds.eraseP fun x => x == d })) ∧
    (d ∉ (h.getTemp s).key_binds →
      removeKeyBind h s d = .error "ValueError") := by
  have hred : removeKeyBind h s d = (listRemove (h.getTemp s).key_binds
      fun x => x == d) >>= fun l => .ok (h.setTemp s
        { h.getTemp s with key_binds := l }) := rfl
  constructor
  · intro hmem
    have hany : (h.getTemp s).key_binds.any (fun x => x == d) = true :=
      List.any_eq_true.mpr ⟨d, hmem, by simp⟩
    rw [hred]
    unfold listRemove
    rw [if_pos hany]
    rfl
  · intro hmem
    have hany : (h.getTemp s).key_binds.any (fun x => x == d) = false := by
      rw [List.any_eq_false]
      intro x hx hxd
      have hxd2 : x = d := by simpa using hxd
      rw [hxd2] at hx
      exact hmem hx
    rw [hred]
    unfold listRemove
    rw [if_neg (by simp [hany])]
    rfl

/-- C3: the composed read view of a table is exactly the backing-store rows
of that table whose identifier is not in the dirty set, concatenated with
all rows of the session's diff table, store rows first. -/
theorem subquery_composes_store_and_diff (db : Database) (diffPart : String)
    (dirty : List Int) (t : String) :
    evalQ db (diffSubquery diffPart dirty t) =
      ((rowsOf db t).filter fun r => !(dirty.contains r.id)) ++
        rowsOf db (diffPart ++ t) := rfl

/-- C8: resolving a placeholder whose four bind lists are all empty raises
no error and leaves the heap — every container — entirely unchanged. -/
theorem resolve_no_binds_noop (h : Heap) (p : TempId) (r : Int)
    (hb : h.getTemp p.serial = TempIdBinds.none) :
    TempId.resolve h p r = .ok h :=
  resolve_of_no_binds h p r hb

theorem resolve_no_binds_noop_witness :
    exEmpty.getTemp pX.serial = TempIdBinds.none ∧
    TempId.resolve exEmpty pX 7 = .ok exEmpty :=
  ⟨rfl, resolve_no_binds_noop exEmpty pX 7 rfl⟩

/-- C9: `_bind` registers exactly one kind of bind, selected by cases on
the inserted value first: a `TempId` value registers only a value bind (for
every placeholder, only the value list of that serial changes); a tuple
value registers only tuple-value binds (value, key and tuple-key lists are
untouched for every serial); and in particular an entry whose key and value
are both `TempId`s registers no key bind, so resolving the key's
placeholder leaves the entry keyed by the placeholder. -/
theorem bind_registration_exclusive :
    (∀ (h : Heap) (d : DictId) (K : PVal) (s : Serial) (w : Int) (q : Serial),
      (bindEntry h d K (.scalar (.stemp s w))).getTemp q =
        if q = s then { h.getTemp q with
          value_binds := (h.getTemp q).value_binds ++ [(d, K)] }
        else h.getTemp q) ∧
    (∀ (h : Heap) (d : DictId) (K : PVal) (vs : List PScalar) (q : Serial),
      ((bindEntry h d K (.tup vs)).getTemp q).value_binds =
        (h.getTemp q).value_binds ∧
      ((bindEntry h d K (.tup vs)).getTemp q).key_binds =
        (h.getTemp q).key_binds ∧
      ((bindEntry h d K (.tup vs)).getTemp q).tuple_key_binds =
        (h.getTemp q).tuple_key_binds) ∧
    (∀ (h : Heap) (d : DictId) (p q : TempId) (r : Int),
      h.getTemp p.serial = TempIdBinds.none →
      q.serial ≠ p.serial →
      ((setItem h d p.valOf q.valOf).getTemp p.serial).key_binds = [] ∧
      TempId.resolve (setItem h d p.valOf q.valOf) p r =
        .ok (setItem h d p.valOf q.valOf) ∧
      dGet? ((setItem h d p.valOf q.valOf).getDict d) p.valOf =
        some q.valOf) := by
  refine ⟨fun h d K s w q => getTemp_bindEntry_temp h d K s w q,
    fun h d K vs q => ?_, fun h d p q r hb hqp => ?_⟩
  · rcases getTemp_bindEntry_tup h d K vs q with ⟨hv, hk, htk, _⟩
    exact ⟨hv, hk, htk⟩
  · have hgt : (setItem h d p.valOf q.valOf).getTemp p.serial =
        TempIdBinds.none := by
      unfold setItem
      have hred : bindEntry (h.setDict d (dSet (h.getDict d) p.valOf q.valOf))
          d p.valOf q.valOf =
          addValueBind (h.setDict d (dSet (h.getDict d) p.valOf q.valOf))
            q.serial d p.valOf := rfl
      rw [hred, getTemp_addValueBind,
        if_neg (fun hcontra => hqp hcontra.symm), getTemp_setDict]
      exact hb
    refine ⟨by rw [hgt]; rfl, resolve_of_no_binds _ p r hgt, ?_⟩
    rw [getDict_setItem_self, dGet?_set_self]

theorem bind_registration_exclusive_witness :
    exEmpty.getTemp pX.serial = TempIdBinds.none ∧ qX.serial ≠ pX.serial ∧
    (((setItem exEmpty 0 pX.valOf qX.valOf).getTemp pX.serial).key_binds = [] ∧
      TempId.resolve (setItem exEmpty 0 pX.valOf qX.valOf) pX 7 =
        .ok (setItem exEmpty 0 pX.valOf qX.valOf) ∧
      dGet? ((setItem exEmpty 0 pX.valOf qX.valOf).getDict 0) pX.valOf =
        some qX.valOf) :=
  ⟨rfl, by decide,
    bind_registration_exclusive.2.2 exEmpty 0 pX qX 7 rfl (by decide)⟩

/-- C10: deleting an entry whose key is a `TempId` present in the dict
(`__delitem__` or `pop`) succeeds exactly when the dict is registered in
the key's key-bind list; without such a key bind (for example when the
entry was inserted with a `TempId` value, which registers only a value
bind) the deletion raises `ValueError` from `list.remove`. -/
theorem tempid_key_deletion_requires_key_bind (h : Heap) (d : DictId)
    (p : TempId) (hc : dContains (h.getDict d) p.valOf = true) :
    (d ∈ (h.getTemp p.serial).key_binds →
      exOk (delItem h d p.valOf) = true ∧ exOk (popItem h d p.valOf) = true) ∧
    (d ∉ (h.getTemp p.serial).key_binds →
      delItem h d p.valOf = .error "ValueError" ∧
      popItem h d p.valOf = .error "ValueError") := by
  have hdel : delItem h d p.valOf =
      removeKeyBind (h.setDict d (dErase (h.getDict d) p.valOf)) p.serial d := by
    unfold delItem
    rw [if_pos hc]
    rfl
  have hpop : popItem h d p.valOf = (removeKeyBind h p.serial d) >>=
      fun h1 => .ok (h1.setDict d (dErase (h1.getDict d) p.valOf)) := by
    unfold popItem
    rw [if_pos hc]
    rfl
  have hgt : (h.setDict d (dErase (h.getDict d) p.valOf)).getTemp p.serial =
      h.getTemp p.serial := getTemp_setDict _ _ _ _
  constructor
  · intro hmem
    have h1 := (removeKeyBind_cases (h.setDict d (dErase (h.getDict d)
      p.valOf)) p.serial d).1 (by rw [hgt]; exact hmem)
    have h2 := (removeKeyBind_cases h p.serial d).1 hmem
    constructor
    · rw [hdel, h1]
      rfl
    · rw [hpop, h2]
      rfl
  · intro hmem
    have h1 := (removeKeyBind_cases (h.setDict d (dErase (h.getDict d)
      p.valOf)) p.serial d).2 (by rw [hgt]; exact hmem)
    have h2 := (removeKeyBind_cases h p.serial d).2 hmem
    refine ⟨by rw [hdel, h1], ?_⟩
    rw [hpop, h2]
    rfl

theorem tempid_key_deletion_requires_key_bind_witness :
    (dContains (exKeyBound.getDict 0) pX.valOf = true ∧
      0 ∈ (exKeyBound.getTemp pX.serial).key_binds ∧
      exOk (delItem exKeyBound 0 pX.valOf) = true ∧
      exOk (popItem exKeyBound 0 pX.valOf) = true) ∧
    (dContains (exSelf.getDict 0) pX.valOf = true ∧
      0 ∉ (exSelf.getTemp pX.serial).key_binds ∧
      delItem exSelf 0 pX.valOf = .error "ValueError" ∧
      popItem exSelf 0 pX.valOf = .error "ValueError") := by
  have h1 := (tempid_key_deletion_requires_key_bind exKeyBound 0 pX
    (by decide)).1 (by decide)
  have h2 := (tempid_key_deletion_requires_key_bind exSelf 0 pX
    (by decide)).2 (by decide)
  exact ⟨⟨by decide, by decide, h1.1, h1.2⟩, ⟨by decide, by decide, h2.1, h2.2⟩⟩

/-- C1 counterexample to the unconditional claim: in the self-referential
entry `d[p] = p`, the value bind `(d, p)` does not end with `d[p] == r`:
the value-bind rewrite stores `r` at key `p`, which as a side effect
registers a key bind, and the key-bind loop then re-keys the entry under
`r`, so the registered value-bind location `d[p]` ends up holding nothing
at all. -/
theorem resolve_value_bind_alias_counterexample :
    (0, pX.valOf) ∈ (exSelf.getTemp pX.serial).value_binds ∧
    exOk (TempId.resolve exSelf pX 5) = true ∧
    dGet? ((exGetD (TempId.resolve exSelf pX 5) exSelf).getDict 0) pX.valOf =
      Option.none ∧
    dGet? ((exGetD (TempId.resolve exSelf pX 5) exSelf).getDict 0) (intV 5) =
      some (intV 5) := by
  decide

theorem resolve_rewrites_registered_binds_witness :
    WFh exFour ∧ pX.value < 0 ∧ (0 : Int) < 5 ∧ cleanBinds exFour pX 5 ∧
    (∃ h4, TempId.resolve exFour pX 5 = .ok h4 ∧
      (∀ b ∈ (exFour.getTemp pX.serial).value_binds,
        dGet? (h4.getDict b.1) b.2 = some (.scalar (.sint 5))) ∧
      (∀ b ∈ (exFour.getTemp pX.serial).tuple_value_binds, ∀ vs,
        dGet? (exFour.getDict b.1) b.2 = some (.tup vs) →
        dGet? (h4.getDict b.1) b.2 = some (.tup (vs.map (substS pX.serial 5)))) ∧
      (∀ d ∈ (exFour.getTemp pX.serial).key_binds, ∀ v,
        dGet? (exFour.getDict d) pX.valOf = some v →
        dGet? (h4.getDict d) pX.valOf = Option.none ∧
        dGet? (h4.getDict d) (.scalar (.sint 5)) = some v) ∧
      (∀ b ∈ (exFour.getTemp pX.serial).tuple_key_binds, ∀ v,
        dGet? (exFour.getDict b.1) b.2 = some v →
        dGet? (h4.getDict b.1) b.2 = Option.none ∧
        dGet? (h4.getDict b.1) (substK pX.serial 5 b.2) = some v)) := by
  have hvb : (exFour.getTemp pX.serial).value_binds = [(0, strK "a")] := rfl
  have htvb : (exFour.getTemp pX.serial).tuple_value_binds =
      [(0, strK "b")] := rfl
  have htkb : (exFour.getTemp pX.serial).tuple_key_binds =
      [(0, .tup [.stemp 0 (-1), .sint 2])] := rfl
  have hclean : cleanBinds exFour pX 5 := by
    refine ⟨by decide, ?_, ?_⟩
    · intro e he
      rw [htvb] at he
      have he2 : e = (0, strK "b") := by simpa using he
      subst he2
      refine ⟨by decide, ⟨[.stemp 0 (-1), .sint 7], by decide⟩,
        by decide, ?_⟩
      intro e2 he2 hd
      rw [htvb] at he2
      have he3 : e2 = (0, strK "b") := by simpa using he2
      subst he3
      exact Or.inl rfl
    · intro e he
      rw [htkb] at he
      have he2 : e = (0, .tup [.stemp 0 (-1), .sint 2]) := by simpa using he
      subst he2
      refine ⟨[.stemp 0 (-1), .sint 2], rfl, by decide, by decide, by decide,
        ?_⟩
      intro e2 he2 hd
      rw [htkb] at he2
      have he3 : e2 = (0, .tup [.stemp 0 (-1), .sint 2]) := by simpa using he2
      subst he3
      exact Or.inl rfl
  have hWF : WFh exFour := by
    unfold WFh WFd
    decide
  exact ⟨hWF, by decide, by decide, hclean,
    resolve_rewrites_registered_binds exFour pX 5 hWF (by decide)
      (by decide) hclean⟩

/-- C2 counterexample to the draining claim: the bind registries are never
emptied by `resolve` — after successfully resolving the single value bind
`d["a"] = p`, the placeholder's value-bind list still holds that bind. -/
theorem resolve_bind_lists_not_drained_counterexample :
    exOk (TempId.resolve exValueBound pX 5) = true ∧
    ((exGetD (TempId.resolve exValueBound pX 5) exValueBound).getTemp
      pX.serial).value_binds = [(0, strK "a")] ∧
    ((exGetD (TempId.resolve exValueBound pX 5) exValueBound).getTemp
      pX.serial).value_binds ≠ [] := by
  decide

/-- C2 (amended): `resolve` never drains the bind registries — a successful
resolution only ever extends every bind list of every placeholder
(`bindsGrow`); the silent-skip half of the claim holds: the key-bind loop
leaves a dict whose placeholder key is already gone entirely unchanged, and
the tuple-key loop does the same for a dict in which none of its bound
composite keys is present. -/
theorem resolve_never_drains_binds :
    (∀ (h : Heap) (p : TempId) (r : Int) (h4 : Heap),
      TempId.resolve h p r = .ok h4 → bindsGrow h h4) ∧
    (∀ (h : Heap) (s : Serial) (sval r : Int) (binds : List DictId)
      (d : DictId),
      dGet? (h.getDict d) (.scalar (.stemp s sval)) = Option.none →
      (resolveKeyBinds h s sval binds r).getDict d = h.getDict d) ∧
    (∀ (h : Heap) (s : Serial) (r : Int) (binds : List (DictId × PVal))
      (h1 : Heap) (d : DictId),
      resolveTupleKeyBinds h s binds r = .ok h1 →
      (∀ K, (d, K) ∈ binds → dGet? (h.getDict d) K = Option.none) →
      h1.getDict d = h.getDict d) := by
  refine ⟨?_, fun h s sval r binds d habs =>
      resolveKeyBinds_skip binds h s sval r d habs,
    fun h s r binds h1 d hok habs =>
      resolveTupleKeyBinds_skip binds h s r h1 d hok habs⟩
  intro h p r h4 hok
  obtain ⟨h2, hokB, hokD⟩ := resolve_ok_decomp h p r h4 hok
  have g1 := bindsGrow_resolveValueBinds h ((h.getTemp p.serial).value_binds) r
  have g2 := (resolveTupleValueBinds_ok_effects _ _ _ _ _ hokB).2.2
  have g3 := bindsGrow_resolveKeyBinds h2 p.serial p.value
    ((h2.getTemp p.serial).key_binds) r
  have g4 := (resolveTupleKeyBinds_ok_effects _ _ _ _ _ hokD).2.2.2
  exact bindsGrow_trans g1 (bindsGrow_trans g2 (bindsGrow_trans g3 g4))

theorem resolve_never_drains_binds_witness :
    (TempId.resolve exValueBound pX 5 =
      .ok (exGetD (TempId.resolve exValueBound pX 5) exValueBound) ∧
      bindsGrow exValueBound
        (exGetD (TempId.resolve exValueBound pX 5) exValueBound)) ∧
    (dGet? (exEmpty.getDict 0) (.scalar (.stemp 0 (-1))) = Option.none ∧
      (resolveKeyBinds exEmpty 0 (-1) [0] 5).getDict 0 = exEmpty.getDict 0) ∧
    (resolveTupleKeyBinds exEmpty 0 [(0, .tup [.stemp 0 (-1), .sint 2])] 5 =
      .ok exEmpty ∧
      (∀ K, (0, K) ∈ [((0 : DictId), PVal.tup [.stemp 0 (-1), .sint 2])] →
        dGet? (exEmpty.getDict 0) K = Option.none) ∧
      exEmpty.getDict 0 = exEmpty.getDict 0) := by
  have hmemk : ∀ K, ((0 : DictId), K) ∈
      [((0 : DictId), PVal.tup [.stemp 0 (-1), .sint 2])] →
      dGet? (exEmpty.getDict 0) K = Option.none := by
    intro K hK
    have h2 : ((0 : DictId), K) =
        ((0 : DictId), PVal.tup [.stemp 0 (-1), .sint 2]) := by
      simpa using hK
    injection h2 with h3 h4
    rw [h4]
    rfl
  refine ⟨⟨rfl, resolve_never_drains_binds.1 exValueBound pX 5 _ rfl⟩,
    ⟨rfl, resolve_never_drains_binds.2.1 exEmpty 0 (-1) 5 [0] 0 rfl⟩,
    ⟨rfl, hmemk, resolve_never_drains_binds.2.2 exEmpty 0 5
      [(0, .tup [.stemp 0 (-1), .sint 2])] exEmpty 0 rfl hmemk⟩⟩

/-- C5 counterexample to the unconditional claim: deleting the entry
`d["a"] = p` via `__delitem__` removes the dict entry but — because
`_unbind` only handles key and tuple-key binds — leaves the value bind
registered, so a subsequent `resolve(p, 5)` re-inserts `d["a"] = 5` at the
removed location. -/
theorem deleted_value_bind_rewritten_counterexample :
    exOk (delItem exValueBound 0 (strK "a")) = true ∧
    dGet? ((exGetD (delItem exValueBound 0 (strK "a"))
      exValueBound).getDict 0) (strK "a") = Option.none ∧
    exOk (TempId.resolve (exGetD (delItem exValueBound 0 (strK "a"))
      exValueBound) pX 5) = true ∧
    dGet? ((exGetD (TempId.resolve (exGetD (delItem exValueBound 0
      (strK "a")) exValueBound) pX 5) exEmpty).getDict 0) (strK "a") =
      some (intV 5) := by
  decide

/-- C5 (amended): a successful `__delitem__` erases the entry, and if, in
the resulting heap, the deleted dict no longer appears in any of the
placeholder's four bind registries, then a successful `resolve(p, r)`
leaves that dict entirely unchanged: the removed key is absent before and
after, and nothing is re-inserted or overwritten there.  (The unconditional
claim fails because `_unbind` does not unregister value or tuple-value
binds; the counterexample shows the stale rewrite.) -/
theorem removed_bind_location_frame (h : Heap) (did : DictId) (K : PVal)
    (p : TempId) (r : Int) (h1 h2 : Heap) (hWF : WFh h)
    (hdel : delItem h did K = .ok h1)
    (hnm : did ∉ mentionedDicts h1 p.serial)
    (hres : TempId.resolve h1 p r = .ok h2) :
    dGet? (h1.getDict did) K = Option.none ∧
    h2.getDict did = h1.getDict did := by
  obtain ⟨hcont, hdicts⟩ := delItem_ok_dicts h did K h1 hdel
  have hgd : h1.getDict did = dErase (h.getDict did) K := by
    rw [getDict_congr h1 (h.setDict did (dErase (h.getDict did) K)) did hdicts]
    exact getDict_setDict_self _ _ _
  have hnone : dGet? (h1.getDict did) K = Option.none := by
    rw [hgd]
    exact dGet?_erase_self (WFd_getDict hWF did)
  refine ⟨hnone, ?_⟩
  unfold mentionedDicts at hnm
  simp only [List.mem_append, List.mem_map, not_or, not_exists] at hnm
  obtain ⟨⟨⟨hnm1, hnm2⟩, hnm3⟩, hnm4⟩ := hnm
  have hnm1b : did ∉ ((h1.getTemp p.serial).value_binds).map (·.1) := by
    intro hmem
    rcases List.mem_map.mp hmem with ⟨e, he, hev⟩
    exact hnm1 e ⟨he, hev⟩
  have hnm2b : did ∉ ((h1.getTemp p.serial).tuple_value_binds).map (·.1) := by
    intro hmem
    rcases List.mem_map.mp hmem with ⟨e, he, hev⟩
    exact hnm2 e ⟨he, hev⟩
  obtain ⟨hB2, hokB, hokD⟩ := resolve_ok_decomp h1 p r h2 hres
  obtain ⟨sApos, sAkey, sAdict, sAvt, sAkt, sAWF⟩ :=
    resolveValueBinds_spec ((h1.getTemp p.serial).value_binds) h1 r
  have hstepA : (resolveValueBinds h1 ((h1.getTemp p.serial).value_binds)
      r).getDict did = h1.getDict did := sAdict did hnm1b
  obtain ⟨sBdict, sBtemps, _⟩ :=
    resolveTupleValueBinds_ok_effects _ _ _ _ _ hokB
  have htvbA : ((resolveValueBinds h1 ((h1.getTemp p.serial).value_binds)
      r).getTemp p.serial).tuple_value_binds =
      (h1.getTemp p.serial).tuple_value_binds := (sAvt p.serial).2
  have hstepB : hB2.getDict did = h1.getDict did := by
    rw [sBdict did (by rw [htvbA]; exact hnm2b), hstepA]
  have hkbB : ∀ x ∈ (hB2.getTemp p.serial).key_binds, x ≠ did := by
    intro x hx hxd
    rw [(sBtemps p.serial).2.1] at hx
    rcases resolveValueBinds_kb_mem _ _ _ _ _ hx with hx2 | hx2
    · rw [hxd] at hx2
      exact hnm3 hx2
    · rw [hxd] at hx2
      exact hnm1b hx2
  have hstepC : (resolveKeyBinds hB2 p.serial p.value
      ((hB2.getTemp p.serial).key_binds) r).getDict did = hB2.getDict did :=
    resolveKeyBinds_dict_frame _ _ _ _ _ _
      (fun hmem => hkbB did hmem rfl)
  obtain ⟨sDdict, _, _, _⟩ := resolveTupleKeyBinds_ok_effects _ _ _ _ _ hokD
  have htkbC : ((resolveKeyBinds hB2 p.serial p.value
      ((hB2.getTemp p.serial).key_binds) r).getTemp p.serial).tuple_key_binds =
      (hB2.getTemp p.serial).tuple_key_binds :=
    (resolveKeyBinds_registries_stable _ _ _ _ _ _).2
  have hstepD : h2.getDict did = (resolveKeyBinds hB2 p.serial p.value
      ((hB2.getTemp p.serial).key_binds) r).getDict did := by
    apply sDdict did
    intro hmem
    rcases List.mem_map.mp hmem with ⟨e, he, hev⟩
    rw [htkbC, (sBtemps p.serial).2.2] at he
    rcases resolveValueBinds_tkb_mem _ _ _ _ _ he with he2 | he2
    · exact hnm4 e ⟨he2, hev⟩
    · rw [hev] at he2
      exact hnm1b he2
  rw [hstepD, hstepC, hstepB]

theorem removed_bind_location_frame_witness :
    WFh exKeyBound ∧
    delItem exKeyBound 0 pX.valOf =
      .ok (exGetD (delItem exKeyBound 0 pX.valOf) exKeyBound) ∧
    0 ∉ mentionedDicts (exGetD (delItem exKeyBound 0 pX.valOf) exKeyBound)
      pX.serial ∧
    TempId.resolve (exGetD (delItem exKeyBound 0 pX.valOf) exKeyBound) pX 9 =
      .ok (exGetD (TempId.resolve (exGetD (delItem exKeyBound 0 pX.valOf)
        exKeyBound) pX 9) exKeyBound) ∧
    dGet? ((exGetD (delItem exKeyBound 0 pX.valOf) exKeyBound).getDict 0)
      pX.valOf = Option.none ∧
    (exGetD (TempId.resolve (exGetD (delItem exKeyBound 0 pX.valOf)
      exKeyBound) pX 9) exKeyBound).getDict 0 =
      (exGetD (delItem exKeyBound 0 pX.valOf) exKeyBound).getDict 0 := by
  have hWF : WFh exKeyBound := by
    unfold WFh WFd
    decide
  have hres := removed_bind_location_frame exKeyBound 0 pX.valOf pX 9
    (exGetD (delItem exKeyBound 0 pX.valOf) exKeyBound)
    (exGetD (TempId.resolve (exGetD (delItem exKeyBound 0 pX.valOf)
      exKeyBound) pX 9) exKeyBound)
    hWF rfl (by decide) rfl
  exact ⟨hWF, rfl, by decide, rfl, hres.1, hres.2⟩

/-- C6: marking identifiers dirty for a table evicts (sets to `None`,
without recomputing) every cached view attribute whose query's table
footprint contains that table, leaves every other cached view cached, and
a subsequent read of an evicted view recomputes it lazily through its
property getter and re-caches the result. -/
theorem mark_as_dirty_invalidates_views (t : String) (ids : List Int)
    (st : DiffMapState) (attr : String) (q : QExpr)
    (hc : st.cached? attr = some (some q)) :
    (t ∈ tablesOf q →
      (markAsDirty t ids st).cached? attr = some Option.none) ∧
    (t ∉ tablesOf q →
      (markAsDirty t ids st).cached? attr = some (some q)) ∧
    (∀ (compute : DiffMapState → QExpr) (st2 : DiffMapState),
      st2.cached? attr = some Option.none →
      readView attr compute st2 =
        (compute st2,
          { st2 with cache := assocSet st2.cache attr (some (compute st2)) })) := by
  refine ⟨?_, ?_, ?_⟩
  · intro hmem
    rw [cached?_markAsDirty t ids st attr q hc]
    have hct : (tablesOf q).contains t = true :=
      List.elem_eq_true_of_mem hmem
    rw [if_pos hct]
  · intro hmem
    rw [cached?_markAsDirty t ids st attr q hc]
    have hct : (tablesOf q).contains t = false := by
      cases hct : (tablesOf q).contains t with
      | false => rfl
      | true => exact absurd (List.mem_of_elem_eq_true hct) hmem
    rw [if_neg (by rw [hct]; simp)]
  · intro compute st2 h2
    unfold readView
    rw [h2]

theorem mark_as_dirty_invalidates_views_witness :
    (exMapState.cached? "_object_class_sq" =
      some (some (diffSubquery "diff_" [7] "object_class"))) ∧
    ("object_class" ∈ tablesOf (diffSubquery "diff_" [7] "object_class")) ∧
    ((markAsDirty "object_class" [9] exMapState).cached? "_object_class_sq" =
      some Option.none) ∧
    (exMapState.cached? "_parameter_tag_sq" =
      some (some (diffSubquery "diff_" [] "parameter_tag"))) ∧
    ("object_class" ∉ tablesOf (diffSubquery "diff_" [] "parameter_tag")) ∧
    ((markAsDirty "object_class" [9] exMapState).cached? "_parameter_tag_sq" =
      some (some (diffSubquery "diff_" [] "parameter_tag"))) ∧
    ((markAsDirty "object_class" [9] exMapState).cached? "_object_class_sq" =
      some Option.none →
      readView "_object_class_sq"
        (fun st2 => diffSubquery "diff_" (st2.dirtyOf "object_class")
          "object_class")
        (markAsDirty "object_class" [9] exMapState) =
        (diffSubquery "diff_"
          ((markAsDirty "object_class" [9] exMapState).dirtyOf "object_class")
          "object_class",
         { markAsDirty "object_class" [9] exMapState with
           cache := assocSet (markAsDirty "object_class" [9] exMapState).cache
             "_object_class_sq"
             (some (diffSubquery "diff_"
               ((markAsDirty "object_class" [9] exMapState).dirtyOf
                 "object_class") "object_class")) })) := by
  refine ⟨rfl, by decide, ?_, rfl, by decide, ?_, ?_⟩
  · exact (mark_as_dirty_invalidates_views "object_class" [9] exMapState
      "_object_class_sq" (diffSubquery "diff_" [7] "object_class") rfl).1
      (by decide)
  · exact (mark_as_dirty_invalidates_views "object_class" [9] exMapState
      "_parameter_tag_sq" (diffSubquery "diff_" [] "parameter_tag") rfl).2.1
      (by decide)
  · intro h2
    exact (mark_as_dirty_invalidates_views "object_class" [9] exMapState
      "_object_class_sq" (diffSubquery "diff_" [7] "object_class") rfl).2.2
      (fun st2 => diffSubquery "diff_" (st2.dirtyOf "object_class")
        "object_class")
      (markAsDirty "object_class" [9] exMapState) h2

/-- C4: every placeholder value produced for an entity type by any
allocation sequence is negative — hence distinct from every positive,
store-assigned real identifier — the values of one type are pairwise
distinct (never reused), and successive allocations for the same type are
strictly decreasing (monotonic). -/
theorem placeholder_allocation_fresh {α : Type} (sched : List (α × String))
    (t : String) :
    (∀ v ∈ valuesFor sched t, v < 0) ∧
    (∀ v ∈ valuesFor sched t, ∀ rid : Int, 0 < rid → v ≠ rid) ∧
    (valuesFor sched t).Pairwise (· ≠ ·) ∧
    (valuesFor sched t).Pairwise (· > ·) := by
  have hinv : CountersInv initialCounters := by
    intro e he
    exact absurd he (List.not_mem_nil e)
  have hbridge : valuesFor sched t =
      ((allocTagged initialCounters sched).filter fun e =>
        (fun (_ : α) => true) e.1 && (e.2.1 == t)).map (·.2.2) := rfl
  obtain ⟨hle, hpw⟩ := allocTagged_filter_spec (fun (_ : α) => true) sched
    initialCounters t hinv
  rw [← hbridge] at hle hpw
  have hcur : initialCounters.cur t = -1 := rfl
  rw [hcur] at hle
  refine ⟨?_, ?_, ?_, hpw⟩
  · intro v hv
    have := hle v hv
    omega
  · intro v hv rid hrid
    have := hle v hv
    omega
  · exact hpw.imp fun hgt => ne_of_gt hgt

theorem placeholder_allocation_fresh_witness :
    ((-2 : Int) ∈ valuesFor [(true, "object"), (true, "object"),
      (true, "widget")] "object") ∧ (-2 : Int) < 0 ∧ (-2 : Int) ≠ 5 :=
  ⟨by decide,
   (placeholder_allocation_fresh [(true, "object"), (true, "object"),
     (true, "widget")] "object").1 (-2) (by decide),
   (placeholder_allocation_fresh [(true, "object"), (true, "object"),
     (true, "widget")] "object").2.1 (-2) (by decide) 5 (by decide)⟩

/-- C7 counterexample to session noninterference: `_next_id` is a
class-level table shared by every session in the process, so the values a
session observes depend on the other session's allocations — with the
other session allocating first, session `false` gets `-2` for its first
object placeholder instead of the `-1` it gets when run alone. -/
theorem session_allocation_interference_counterexample :
    sessionValues [(true, "object"), (false, "object")] false "object" =
      [-2] ∧
    sessionValues [(false, "object")] false "object" = [-1] ∧
    sessionValues [(true, "object"), (false, "object")] false "object" ≠
      sessionValues [(false, "object")] false "object" := by
  decide

/-- C7 (amended): the two-run noninterference property fails because the
identifier registry (`TempId._next_id`) is shared mutable class-level
state; what the shared counter does guarantee is global freshness: in any
interleaving of sessions, the values produced for one entity type are
pairwise distinct across all sessions, each session observes a strictly
decreasing (hence never repeating) subsequence, and every observed value
is negative. -/
theorem cross_session_distinct_allocation {α : Type} [BEq α]
    (sched : List (α × String)) (a : α) (t : String) :
    (∀ v ∈ sessionValues sched a t, v ∈ valuesFor sched t) ∧
    (valuesFor sched t).Pairwise (· ≠ ·) ∧
    (sessionValues sched a t).Pairwise (· > ·) ∧
    (∀ v ∈ sessionValues sched a t, v < 0) := by
  have hinv : CountersInv initialCounters := by
    intro e he
    exact absurd he (List.not_mem_nil e)
  have hbridge : valuesFor sched t =
      ((allocTagged initialCounters sched).filter fun e =>
        (fun (_ : α) => true) e.1 && (e.2.1 == t)).map (·.2.2) := rfl
  obtain ⟨hleG, hpwG⟩ := allocTagged_filter_spec (fun (_ : α) => true) sched
    initialCounters t hinv
  rw [← hbridge] at hpwG
  have hsv : sessionValues sched a t =
      ((allocTagged initialCounters sched).filter fun e =>
        (fun (x : α) => x == a) e.1 && (e.2.1 == t)).map (·.2.2) := rfl
  obtain ⟨hleS, hpwS⟩ := allocTagged_filter_spec (fun (x : α) => x == a) sched
    initialCounters t hinv
  rw [← hsv] at hleS hpwS
  have hcur : initialCounters.cur t = -1 := rfl
  rw [hcur] at hleS
  refine ⟨sessionValues_subset sched a t, hpwG.imp fun hgt => ne_of_gt hgt,
    hpwS, ?_⟩
  intro v hv
  have := hleS v hv
  omega

theorem cross_session_distinct_allocation_witness :
    ((-2 : Int) ∈ sessionValues [(true, "object"), (false, "object")] false
      "object") ∧
    ((-2 : Int) ∈ valuesFor [(true, "object"), (false, "object")] "object") ∧
    ((-2 : Int) < 0) :=
  ⟨by decide,
   (cross_session_distinct_allocation [(true, "object"), (false, "object")]
     false "object").1 (-2) (by decide),
   (cross_session_distinct_allocation [(true, "object"), (false, "object")]
     false "object").2.2.2 (-2) (by decide)⟩

end SpineDB
